import Mathlib

/-! # envire: the environment graph engine

A shallow embedding of `Environment` (`envire/core/Environment.cpp`,
`src/core/Environment.hpp`): the item registry, the frame tree, the layer
tree, the operator input and output relations, the map-to-frame bindings
and the events passed to `emit`.

Conventions of the embedding.

* A C++ pointer is a natural number (an address); `NULL` is `0`.  The
  ordered containers keyed by pointers are ordered by address.  The static
  pointer types (`FrameNode*`, `Layer*`, ...) are not tracked: an operation
  accepts any address, the general theorems hold for every address, and
  the concrete scenarios pass items of the class the signature asks for.
  Dereferencing `NULL` is undefined in C++; here it reads `objects NULL`,
  so what a theorem says about a call that dereferences `NULL` is a fact
  of the embedding only.
* `std::map` and `std::multimap` are association lists kept in key order.
  What a `std::map` guarantees by construction (strictly increasing keys)
  is the predicate `MapOk`; theorems that rely on it say so.
* The fields of the item objects (`unique_id`, `env`) live in `objects`,
  a memory indexed by address, carried along with the members of
  `Environment`.
* `emit` appends to `emitted`, the sequence of events handed to the
  subscribed handlers.
* An exception or a failed `assert` is the outcome `Exec.raised`, which
  carries the state at the point where control left the function.
* A `long` is an integer from `LONG_MIN` to `LONG_MAX` (64 bits).  The id
  counter is incremented with `wrapLong`, modulo `2^64`: from `LONG_MAX`
  it goes to `LONG_MIN`.
* A loop or a recursion that need not terminate (`relativeTransform`,
  `publishChilds`, `detachChilds`) takes a bound on its iterations or on
  its depth and gives `none` when the bound is reached; the theorems say
  which bounds give a result and that the result does not depend on the
  bound.
* Rigid transforms are the elements of a group; the transform stored in a
  frame node is given by a function of the node.
-/

namespace envire

/-! ## Containers -/

section Containers

variable {K V : Type} [LinearOrder K]

/-- Lookup `m.find(k)`: the value of the first entry with key `k`. -/
def mapFind : List (K × V) → K → Option V
  | [], _ => none
  | (k', v) :: t, k => if k' = k then some v else mapFind t k

/-- Count `m.count(k)`: the number of entries with key `k`. -/
def mapCount (m : List (K × V)) (k : K) : Nat :=
  (m.filter (fun e => decide (e.1 = k))).length

/-- Assignment `m[k] = v` on a `std::map`. -/
def mapAssign : List (K × V) → K → V → List (K × V)
  | [], k, v => [(k, v)]
  | (k', v') :: t, k, v =>
      if k < k' then (k, v) :: (k', v') :: t
      else if k' = k then (k, v) :: t
      else (k', v') :: mapAssign t k v

/-- Insertion `m.insert(make_pair(k, v))` on a `std::map`: nothing happens
when the key is present. -/
def mapInsert : List (K × V) → K → V → List (K × V)
  | [], k, v => [(k, v)]
  | (k', v') :: t, k, v =>
      if k < k' then (k, v) :: (k', v') :: t
      else if k' = k then (k', v') :: t
      else (k', v') :: mapInsert t k v

/-- Insertion `m.insert(make_pair(k, v))` on a `std::multimap`: the entry
goes after the last entry whose key is not greater. -/
def multimapInsert : List (K × V) → K → V → List (K × V)
  | [], k, v => [(k, v)]
  | (k', v') :: t, k, v =>
      if k < k' then (k, v) :: (k', v') :: t
      else (k', v') :: multimapInsert t k v

/-- Erasure by key `m.erase(k)`: every entry with key `k` goes. -/
def mapErase (m : List (K × V)) (k : K) : List (K × V) :=
  m.filter (fun e => decide (e.1 ≠ k))

/-- Erasure by iterator `m.erase(m.find(k))`: the first entry with key `k`
goes.  (Erasing `end()` is undefined in C++; here nothing happens.) -/
def mapEraseFound : List (K × V) → K → List (K × V)
  | [], _ => []
  | (k', v') :: t, k => if k' = k then t else (k', v') :: mapEraseFound t k

/-- Subscript read `m[k]` on a `std::map`: the value, and the map, which
gains a default entry when the key was absent. -/
def mapIndex (m : List (K × V)) (k : K) (dflt : V) : V × List (K × V) :=
  match mapFind m k with
  | some v => (v, m)
  | none => (dflt, mapInsert m k dflt)

/-- What a `std::map` guarantees: keys strictly increasing. -/
def MapOk (m : List (K × V)) : Prop :=
  (m.map Prod.fst).Pairwise (fun a b => a < b)

instance (m : List (K × V)) : Decidable (MapOk m) := by
  unfold MapOk; infer_instance

end Containers

/-! ## Data model -/

/-- An object address. -/
abbrev Ptr := Nat

/-- The null pointer. -/
def NULL : Ptr := 0

/-- The dynamic class of an item: the classes derived from
`EnvironmentItem` that the signatures of `Environment` name. -/
inductive ItemClass where
  | FrameNode
  | Layer
  | CartesianMap
  | Operator
  deriving DecidableEq, Repr

/-- The fields of `EnvironmentItem`: the id and the back-reference to the
environment (`NULL` when detached). -/
structure EnvironmentItem where
  cls : ItemClass
  unique_id : Int
  env : Ptr
  deriving DecidableEq, Repr

/-- Modelled from the spec: the detached sentinel id.  `Environment.hpp`
declares `ITEM_NOT_ATTACHED` without its value; the `long` ids of
`Environment.cpp` are compared with it, and the counter starts at `0`. -/
def ITEM_NOT_ATTACHED : Int := -1

/-- The greatest value of a `long` (64 bits). -/
def LONG_MAX : Int := 9223372036854775807

/-- The least value of a `long`. -/
def LONG_MIN : Int := -9223372036854775808

/-- The `long` that an arithmetic result `x` leaves in a 64-bit variable:
`x` reduced modulo `2^64` into the range from `LONG_MIN` to `LONG_MAX`, so
that `LONG_MAX + 1` gives `LONG_MIN`. -/
def wrapLong (x : Int) : Int :=
  (x + 9223372036854775808) % 18446744073709551616 - 9223372036854775808

/-- Modelled from the spec: the kinds of events (`Event.hpp` is not among
the sources; `Environment.cpp` uses `Event::ITEM`, `Event::ROOT`,
`Event::FRAMENODE_TREE`, `Event::LAYER_TREE` and `Event::FRAMENODE`). -/
inductive EventType where
  | ITEM
  | ROOT
  | FRAMENODE_TREE
  | LAYER_TREE
  | FRAMENODE
  deriving DecidableEq, Repr

/-- Modelled from the spec: the actions of events (`Event::ADD`,
`Event::REMOVE`, `Event::UPDATE` in `Environment.cpp`). -/
inductive EventOperation where
  | ADD
  | REMOVE
  | UPDATE
  deriving DecidableEq, Repr

/-- Modelled from the spec: an event `Event(type, operation, a, b)` with
the one or two entities involved; `b` is `NULL` when the event names one
item. -/
structure Event where
  type : EventType
  operation : EventOperation
  a : Ptr
  b : Ptr
  deriving DecidableEq, Repr

/-- The members of `Environment` (`Environment.hpp` lines 34-59), the
address of the environment, the item objects and the emitted events.
`eventHandlers` lists the subscribed handlers in subscription order. -/
structure Environment where
  this : Ptr
  last_id : Int
  items : List (Int × Ptr)
  frameNodeTree : List (Ptr × Ptr)
  layerTree : List (Ptr × Ptr)
  operatorGraphInput : List (Ptr × Ptr)
  operatorGraphOutput : List (Ptr × Ptr)
  cartesianMapGraph : List (Ptr × Ptr)
  rootNode : Ptr
  objects : Ptr → EnvironmentItem
  emitted : List Event
  eventHandlers : List Ptr

/-- How a call ends when it does not return. -/
inductive Error where
  | nullItem
  | notAttached
  | duplicateId
  | detachedFrame
  | notFound
  | ambiguousType
  deriving DecidableEq, Repr

/-- The outcome of a call: a value and the state, or an error and the
state at the point of the throw. -/
inductive Exec (α : Type) where
  | ok (value : α) (s : Environment)
  | raised (e : Error) (s : Environment)

/-- The state a call leaves behind. -/
def Exec.state {α : Type} : Exec α → Environment
  | .ok _ s => s
  | .raised _ s => s

/-- Whether the call returned. -/
def Exec.isOk {α : Type} : Exec α → Bool
  | .ok _ _ => true
  | .raised _ _ => false

/-- The error of a call, if it raised one. -/
def Exec.error {α : Type} : Exec α → Option Error
  | .ok _ _ => none
  | .raised e _ => some e

/-! ## Items -/

/-- Accessor `item->getUniqueId()`. -/
def getUniqueId (s : Environment) (item : Ptr) : Int :=
  (s.objects item).unique_id

/-- Accessor `item->isAttached()`: `return env;`. -/
def isAttached (s : Environment) (item : Ptr) : Bool :=
  decide ((s.objects item).env ≠ NULL)

/-- Accessor `item->getEnvironment()`. -/
def getEnvironment (s : Environment) (item : Ptr) : Ptr :=
  (s.objects item).env

/-- Store to `item->unique_id`. -/
def setUniqueId (objects : Ptr → EnvironmentItem) (item : Ptr) (id : Int) :
    Ptr → EnvironmentItem :=
  fun q => if q = item then { objects q with unique_id := id } else objects q

/-- Store to `item->env`. -/
def setEnv (objects : Ptr → EnvironmentItem) (item : Ptr) (e : Ptr) :
    Ptr → EnvironmentItem :=
  fun q => if q = item then { objects q with env := e } else objects q

/-- Event emission `Environment::emit`. -/
def emit (s : Environment) (e : Event) : Environment :=
  { s with emitted := s.emitted ++ [e] }

/-- Lookup `Environment::getItem(uniqueId)`: the item, or `NULL`. -/
def getItem (s : Environment) (uniqueId : Int) : Ptr :=
  (mapFind s.items uniqueId).getD NULL

/-- Registration `Environment::attachItem`.  The increment `last_id++` of
the `long` counter wraps. -/
def attachItem (s : Environment) (item : Ptr) : Exec Unit :=
  if item = NULL then .raised .nullItem s
  else
    let s1 : Environment :=
      if getUniqueId s item = ITEM_NOT_ATTACHED then
        { s with objects := setUniqueId s.objects item s.last_id,
                 last_id := wrapLong (s.last_id + 1) }
      else s
    if mapCount s1.items (getUniqueId s1 item) ≠ 0 then .raised .duplicateId s1
    else
      .ok () (emit
        { s1 with items := mapAssign s1.items (getUniqueId s1 item) item,
                  objects := setEnv s1.objects item s1.this }
        ⟨.ITEM, .ADD, item, NULL⟩)

/-- The id `attachItem` tests against the registry: the id the item
carries, or the counter value it is given when it carries the sentinel. -/
def attachId (s : Environment) (item : Ptr) : Int :=
  if getUniqueId s item = ITEM_NOT_ATTACHED then s.last_id else getUniqueId s item

/-! ## Frame tree and layer tree -/

/-- Query `Environment::getParent(FrameNode*)`. -/
def getParent (s : Environment) (node : Ptr) : Ptr :=
  (mapFind s.frameNodeTree node).getD NULL

/-- Query `Environment::getParent(Layer*)`. -/
def getParentLayer (s : Environment) (layer : Ptr) : Ptr :=
  (mapFind s.layerTree layer).getD NULL

/-- Query `Environment::getRootNode`. -/
def getRootNode (s : Environment) : Ptr := s.rootNode

/-- Query `Environment::getChildren(FrameNode*)`. -/
def getChildren (s : Environment) (parent : Ptr) : List Ptr :=
  (s.frameNodeTree.filter (fun e => decide (e.2 = parent))).map Prod.fst

/-- Query `Environment::getChildren(Layer*)`. -/
def getChildrenLayer (s : Environment) (parent : Ptr) : List Ptr :=
  (s.layerTree.filter (fun e => decide (e.2 = parent))).map Prod.fst

/-- Edge removal `Environment::removeChild(FrameNode*, FrameNode*)`. -/
def removeChild (s : Environment) (parent child : Ptr) : Environment :=
  if getParent s child = parent then
    let s1 := emit s ⟨.FRAMENODE_TREE, .REMOVE, parent, child⟩
    { s1 with frameNodeTree := mapEraseFound s1.frameNodeTree child }
  else s

/-- Edge removal `Environment::removeChild(Layer*, Layer*)`. -/
def removeChildLayer (s : Environment) (parent child : Ptr) : Environment :=
  if getParentLayer s child = parent then
    let s1 := emit s ⟨.LAYER_TREE, .REMOVE, parent, child⟩
    { s1 with layerTree := mapEraseFound s1.layerTree child }
  else s

/-- The step `if( !x->isAttached() ) attachItem( x );`. -/
def attachIfNeeded (s : Environment) (x : Ptr) : Exec Unit :=
  if isAttached s x = false then attachItem s x else .ok () s

/-- Edge insertion `Environment::addChild(FrameNode*, FrameNode*)`. -/
def addChild (s : Environment) (parent child : Ptr) : Exec Unit :=
  match attachIfNeeded s child with
  | .raised e s1 => .raised e s1
  | .ok _ s1 =>
    let s2 := if getParent s1 child ≠ NULL then removeChild s1 (getParent s1 child) child else s1
    .ok () (emit { s2 with frameNodeTree := mapInsert s2.frameNodeTree child parent }
      ⟨.FRAMENODE_TREE, .ADD, parent, child⟩)

/-- Edge insertion `Environment::addChild(Layer*, Layer*)`. -/
def addChildLayer (s : Environment) (parent child : Ptr) : Exec Unit :=
  match attachIfNeeded s child with
  | .raised e s1 => .raised e s1
  | .ok _ s1 =>
    let s2 :=
      if getParentLayer s1 child ≠ NULL then removeChildLayer s1 (getParentLayer s1 child) child
      else s1
    .ok () (emit { s2 with layerTree := multimapInsert s2.layerTree child parent }
      ⟨.LAYER_TREE, .ADD, parent, child⟩)

/-! ## Map-to-frame bindings -/

/-- Binding `Environment::setFrameNode`. -/
def setFrameNode (s : Environment) (map node : Ptr) : Exec Unit :=
  match attachIfNeeded s node with
  | .raised e s1 => .raised e s1
  | .ok _ s1 =>
    match attachIfNeeded s1 map with
    | .raised e s2 => .raised e s2
    | .ok _ s2 =>
      .ok () (emit { s2 with cartesianMapGraph := mapAssign s2.cartesianMapGraph map node }
        ⟨.FRAMENODE, .ADD, map, node⟩)

/-- Unbinding `Environment::detachFrameNode`. -/
def detachFrameNode (s : Environment) (map node : Ptr) : Environment :=
  if mapCount s.cartesianMapGraph map ≠ 0 ∧
      (mapFind s.cartesianMapGraph map).getD NULL = node then
    let s1 := emit s ⟨.FRAMENODE, .REMOVE, map, node⟩
    { s1 with cartesianMapGraph := mapErase s1.cartesianMapGraph map }
  else s

/-- Query `Environment::getFrameNode`: `return cartesianMapGraph[map];`. -/
def getFrameNode (s : Environment) (map : Ptr) : Ptr × Environment :=
  let r := mapIndex s.cartesianMapGraph map NULL
  (r.1, { s with cartesianMapGraph := r.2 })

/-- Query `Environment::getMaps`. -/
def getMaps (s : Environment) (node : Ptr) : List Ptr :=
  (s.cartesianMapGraph.filter (fun e => decide (e.2 = node))).map Prod.fst

/-! ## Operator graph -/

/-- Edge insertion `Environment::addInput`. -/
def addInput (s : Environment) (op input : Ptr) : Exec Bool :=
  match attachIfNeeded s op with
  | .raised e s1 => .raised e s1
  | .ok _ s1 =>
    match attachIfNeeded s1 input with
    | .raised e s2 => .raised e s2
    | .ok _ s2 =>
      .ok true { s2 with operatorGraphInput := multimapInsert s2.operatorGraphInput op input }

/-- Edge insertion `Environment::addOutput`. -/
def addOutput (s : Environment) (op output : Ptr) : Exec Bool :=
  match attachIfNeeded s op with
  | .raised e s1 => .raised e s1
  | .ok _ s1 =>
    match attachIfNeeded s1 output with
    | .raised e s2 => .raised e s2
    | .ok _ s2 =>
      .ok true { s2 with operatorGraphOutput := multimapInsert s2.operatorGraphOutput op output }

/-- Edge removal `Environment::removeInputs`. -/
def removeInputs (s : Environment) (op : Ptr) : Bool × Environment :=
  (decide (mapCount s.operatorGraphInput op ≠ 0),
   { s with operatorGraphInput := mapErase s.operatorGraphInput op })

/-- Edge removal `Environment::removeInput`. -/
def removeInput (s : Environment) (op input : Ptr) : Bool × Environment :=
  (true, { s with operatorGraphInput :=
    s.operatorGraphInput.filter (fun e => !decide (e.1 = op ∧ e.2 = input)) })

/-- Edge removal `Environment::removeOutputs`. -/
def removeOutputs (s : Environment) (op : Ptr) : Bool × Environment :=
  (decide (mapCount s.operatorGraphOutput op ≠ 0),
   { s with operatorGraphOutput := mapErase s.operatorGraphOutput op })

/-- Edge removal `Environment::removeOutput`. -/
def removeOutput (s : Environment) (op output : Ptr) : Bool × Environment :=
  (true, { s with operatorGraphOutput :=
    s.operatorGraphOutput.filter (fun e => !decide (e.1 = op ∧ e.2 = output)) })

/-- Query `Environment::getInputs`. -/
def getInputs (s : Environment) (op : Ptr) : List Ptr :=
  (s.operatorGraphInput.filter (fun e => decide (e.1 = op))).map Prod.snd

/-- Query `Environment::getOutputs`. -/
def getOutputs (s : Environment) (op : Ptr) : List Ptr :=
  (s.operatorGraphOutput.filter (fun e => decide (e.1 = op))).map Prod.snd

/-- Query `Environment::getGenerator`: the operator of the first output
edge that ends in `output`, or `NULL`. -/
def getGenerator (s : Environment) (output : Ptr) : Ptr :=
  match s.operatorGraphOutput.find? (fun e => decide (e.2 = output)) with
  | some e => e.1
  | none => NULL

/-! ## Detaching an item -/

/-- A deferred call `boost::bind(func, it->first, it->second)` collected by
`detachItem`; the two arguments are passed in the order of the entry. -/
inductive Call where
  | removeChild (first second : Ptr)
  | removeChildLayer (first second : Ptr)
  | removeInput (first second : Ptr)
  | removeOutput (first second : Ptr)
  | detachFrameNode (first second : Ptr)
  deriving DecidableEq, Repr

/-- Running a deferred call: `_1` is the first parameter of the bound
member function, `_2` the second. -/
def Call.run (s : Environment) : Call → Environment
  | .removeChild a b => envire.removeChild s a b
  | .removeChildLayer a b => envire.removeChildLayer s a b
  | .removeInput a b => (envire.removeInput s a b).2
  | .removeOutput a b => (envire.removeOutput s a b).2
  | .detachFrameNode a b => envire.detachFrameNode s a b

/-- Helper `findMapItem`: one deferred call per entry of `map` with `item`
at either end, appended to `list` in the order of the entries. -/
def findMapItem (map : List (Ptr × Ptr)) (func : Ptr → Ptr → Call) (item : Ptr)
    (list : List Call) : List Call :=
  list ++ (map.filter (fun e => decide (e.1 = item ∨ e.2 = item))).map
    (fun e => func e.1 e.2)

/-- The deferred calls `detachItem` collects, in order. -/
def detachCalls (s : Environment) (item : Ptr) : List Call :=
  findMapItem s.cartesianMapGraph Call.detachFrameNode item
    (findMapItem s.operatorGraphOutput Call.removeOutput item
      (findMapItem s.operatorGraphInput Call.removeInput item
        (findMapItem s.layerTree Call.removeChildLayer item
          (findMapItem s.frameNodeTree Call.removeChild item []))))

/-- The loop `for (it = func.begin(); ...) (*it)();`. -/
def runCalls (s : Environment) (func : List Call) : Environment :=
  func.foldl Call.run s

/-- Removal `Environment::detachItem`. -/
def detachItem (s : Environment) (item : Ptr) : Exec Ptr :=
  if item = NULL then .raised .nullItem s
  else if mapCount s.items (getUniqueId s item) = 0 then .raised .notAttached s
  else
    let s1 := runCalls s (detachCalls s item)
    let s2 := emit s1 ⟨.ITEM, .REMOVE, item, NULL⟩
    let itemPtr := (mapIndex s2.items (getUniqueId s2 item) NULL).1
    .ok itemPtr
      { s2 with items := mapErase s2.items (getUniqueId s2 item),
                objects := setEnv (setUniqueId s2.objects item ITEM_NOT_ATTACHED) item NULL }

/-! ## Construction -/

/-- The state in the constructor `Environment::Environment` before the
root is attached: `last_id(0)`, empty containers, and a new `FrameNode` at
address `root`. -/
def Environment.init (this root : Ptr) (objects : Ptr → EnvironmentItem) : Environment :=
  { this := this, last_id := 0, items := [], frameNodeTree := [], layerTree := [],
    operatorGraphInput := [], operatorGraphOutput := [], cartesianMapGraph := [],
    rootNode := root,
    objects := fun q => if q = root then ⟨.FrameNode, ITEM_NOT_ATTACHED, NULL⟩ else objects q,
    emitted := [], eventHandlers := [] }

/-- The constructor `Environment::Environment`. -/
def Environment.create (this root : Ptr) (objects : Ptr → EnvironmentItem) : Environment :=
  (attachItem (Environment.init this root objects) root).state

/-! ## Sequences of public mutating operations -/

/-- A call of one of the public mutating operations of `Environment`. -/
inductive Op where
  | attachItem (item : Ptr)
  | detachItem (item : Ptr)
  | addChild (parent child : Ptr)
  | addChildLayer (parent child : Ptr)
  | removeChild (parent child : Ptr)
  | removeChildLayer (parent child : Ptr)
  | setFrameNode (map node : Ptr)
  | detachFrameNode (map node : Ptr)
  | addInput (op input : Ptr)
  | addOutput (op output : Ptr)
  | removeInput (op input : Ptr)
  | removeOutput (op output : Ptr)
  | removeInputs (op : Ptr)
  | removeOutputs (op : Ptr)
  deriving DecidableEq, Repr

/-- The state after a call, whether it returned or raised. -/
def Op.run (s : Environment) : Op → Environment
  | .attachItem item => (envire.attachItem s item).state
  | .detachItem item => (envire.detachItem s item).state
  | .addChild parent child => (envire.addChild s parent child).state
  | .addChildLayer parent child => (envire.addChildLayer s parent child).state
  | .removeChild parent child => envire.removeChild s parent child
  | .removeChildLayer parent child => envire.removeChildLayer s parent child
  | .setFrameNode map node => (envire.setFrameNode s map node).state
  | .detachFrameNode map node => envire.detachFrameNode s map node
  | .addInput op input => (envire.addInput s op input).state
  | .addOutput op output => (envire.addOutput s op output).state
  | .removeInput op input => (envire.removeInput s op input).2
  | .removeOutput op output => (envire.removeOutput s op output).2
  | .removeInputs op => (envire.removeInputs s op).2
  | .removeOutputs op => (envire.removeOutputs s op).2

/-- The state after a sequence of calls. -/
def runOps (s : Environment) (ops : List Op) : Environment :=
  ops.foldl Op.run s

/-! ## Relative transforms -/

/-- Modelled from the spec: `FrameNode::isRoot`, whose body is not among
the sources: the node is the distinguished root of the environment. -/
def isRoot (s : Environment) (t : Ptr) : Bool :=
  decide (t = s.rootNode)

/-- One loop of `Environment::relativeTransform`:
`while(!t->isRoot()) { C = t->getTransform() * C; t = t->getParent(); if( !t ) throw ...; }`,
started at `t` with the accumulator `C`.  `getTransform` gives the
transform stored in each frame node; `t->getParent()` is the frame-tree
lookup `getParent`.  The loop need not terminate: the first argument bounds
the number of iterations, and `none` means the bound was reached. -/
def walkToRoot {G : Type} [Group G] (s : Environment) (getTransform : Ptr → G) :
    Nat → Ptr → G → Option (Except Error G)
  | 0, t, C => if isRoot s t then some (.ok C) else none
  | fuel + 1, t, C =>
    if isRoot s t then some (.ok C)
    else if getParent s t = NULL then some (.error .detachedFrame)
    else walkToRoot s getTransform fuel (getParent s t) (getTransform t * C)

/-- Query `Environment::relativeTransform(from, to)`: the walk from `from`,
then the walk from `to`, then `C_tg.inverse() * C_fg`.  Transforms are the
elements of a group `G`; `fuel` bounds the iterations of each loop. -/
def relativeTransform {G : Type} [Group G] (s : Environment) (getTransform : Ptr → G)
    (fuel : Nat) (from_ to_ : Ptr) : Option (Except Error G) :=
  match walkToRoot s getTransform fuel from_ 1 with
  | none => none
  | some (.error e) => some (.error e)
  | some (.ok C_fg) =>
    match walkToRoot s getTransform fuel to_ 1 with
    | none => none
    | some (.error e) => some (.error e)
    | some (.ok C_tg) => some (.ok (C_tg⁻¹ * C_fg))

/-- The node `t` reaches the root in exactly `n` parent steps, none of
which starts at the root or finds no parent. -/
def reachesRoot (s : Environment) : Nat → Ptr → Bool
  | 0, t => isRoot s t
  | n + 1, t => !isRoot s t && decide (getParent s t ≠ NULL) && reachesRoot s n (getParent s t)

/-- After exactly `n` parent steps from `t` the chain stops at a node that
is not the root and has no parent. -/
def endsDetached (s : Environment) : Nat → Ptr → Bool
  | 0, t => !isRoot s t && decide (getParent s t = NULL)
  | n + 1, t => !isRoot s t && decide (getParent s t ≠ NULL) && endsDetached s n (getParent s t)

/-- The `n`-th ancestor of `t` along the parent links. -/
def ancestor (s : Environment) : Nat → Ptr → Ptr
  | 0, t => t
  | n + 1, t => ancestor s n (getParent s t)

/-- The composition of the stored transforms along the first `n` parent
links from `t`, the transform of `t` rightmost. -/
def chainTransform {G : Type} [Group G] (s : Environment) (getTransform : Ptr → G) :
    Nat → Ptr → G
  | 0, _ => 1
  | n + 1, t => chainTransform s getTransform n (getParent s t) * getTransform t

/-! ## Shape of the frame tree -/

/-- The frame tree holds the edge from the child `c` to the parent `p`. -/
def frameEdge (s : Environment) (c p : Ptr) : Prop :=
  (c, p) ∈ s.frameNodeTree

/-- No frame node is reached from itself by one or more parent links. -/
def FrameAcyclic (s : Environment) : Prop :=
  ∀ t, ¬ Relation.TransGen (frameEdge s) t t

/-- Every `addChild(p, c)` of the sequence is called in a state in which
`c` is not the root and is neither `p` nor an ancestor of `p`. -/
def addChildGuarded (s : Environment) : List Op → Prop
  | [] => True
  | o :: os =>
    (∀ p c, o = .addChild p c →
      c ≠ s.rootNode ∧ ¬ Relation.ReflTransGen (frameEdge s) p c) ∧
    addChildGuarded (o.run s) os

/-! ## Event handlers -/

/-- The loop of `Environment::publishChilds` over the children of
`parent`: for each child the event `(FRAMENODE_TREE, ADD, parent, child)`
and then the events of the recursive call `rec` on the child. -/
def publishEach (parent : Ptr) (rec : Ptr → Option (List Event)) :
    List Ptr → Option (List Event)
  | [] => some []
  | c :: cs =>
    match rec c, publishEach parent rec cs with
    | some sub, some rest => some (⟨.FRAMENODE_TREE, .ADD, parent, c⟩ :: sub ++ rest)
    | _, _ => none

/-- The events `Environment::publishChilds(evl, parent)` hands to the
handler.  The recursion need not terminate: the first argument bounds its
depth, and `none` means the bound was reached. -/
def publishChilds (s : Environment) : Nat → Ptr → Option (List Event)
  | 0, _ => none
  | fuel + 1, parent => publishEach parent (publishChilds s fuel) (getChildren s parent)

/-- Subscription `Environment::addEventHandler`: the events handed to the
new handler and the state, in which the handler is registered
(`eventHandlers.addEventHandler(handler)`, modelled from the spec as
appending to the handlers in subscription order). -/
def addEventHandler (s : Environment) (fuel : Nat) (handler : Ptr) :
    Option (List Event × Environment) :=
  match publishChilds s fuel (getRootNode s) with
  | none => none
  | some tree =>
    some (s.items.map (fun it => (⟨.ITEM, .ADD, it.2, NULL⟩ : Event))
        ++ [⟨.ROOT, .ADD, getRootNode s, NULL⟩]
        ++ tree
        ++ s.cartesianMapGraph.map (fun it => (⟨.FRAMENODE, .ADD, it.1, it.2⟩ : Event)),
      { s with eventHandlers := s.eventHandlers ++ [handler] })

/-- The loop of `Environment::detachChilds` over the children of `parent`:
for each child the events of the recursive call `rec` if the child has
children, then `(FRAMENODE, REMOVE, map, child)` for the maps of the
child, then `(FRAMENODE_TREE, REMOVE, parent, child)`. -/
def detachEach (s : Environment) (parent : Ptr) (rec : Ptr → Option (List Event)) :
    List Ptr → Option (List Event)
  | [] => some []
  | c :: cs =>
    match (if (getChildren s c).length > 0 then rec c else some []),
        detachEach s parent rec cs with
    | some sub, some rest =>
      some (sub ++ (getMaps s c).map (fun m => (⟨.FRAMENODE, .REMOVE, m, c⟩ : Event))
        ++ [⟨.FRAMENODE_TREE, .REMOVE, parent, c⟩] ++ rest)
    | _, _ => none

/-- The events `Environment::detachChilds(parent, evl)` hands to the
handler; the first argument bounds the depth of the recursion. -/
def detachChilds (s : Environment) : Nat → Ptr → Option (List Event)
  | 0, _ => none
  | fuel + 1, parent => detachEach s parent (detachChilds s fuel) (getChildren s parent)

/-- Unsubscription `Environment::removeEventHandler`: the events handed to
the handler and the state, from which the handler is gone
(`eventHandlers.removeEventHandler(handler)`, modelled from the spec). -/
def removeEventHandler (s : Environment) (fuel : Nat) (handler : Ptr) :
    Option (List Event × Environment) :=
  match detachChilds s fuel (getRootNode s) with
  | none => none
  | some tree =>
    some (tree
        ++ [⟨.ROOT, .REMOVE, getRootNode s, NULL⟩]
        ++ s.items.map (fun it => (⟨.ITEM, .REMOVE, it.2, NULL⟩ : Event)),
      { s with eventHandlers := s.eventHandlers.filter (fun h => decide (h ≠ handler)) })

/-- A well-formed frame tree: the container is a `std::map`, the root has
no parent, and no edge has `NULL` as its parent end. -/
def FrameTreeOk (s : Environment) : Prop :=
  MapOk s.frameNodeTree ∧ mapFind s.frameNodeTree s.rootNode = none ∧
  ∀ e ∈ s.frameNodeTree, e.2 ≠ NULL

instance (s : Environment) : Decidable (FrameTreeOk s) := by
  unfold FrameTreeOk; infer_instance

/-- Some occurrence of `x` in `l` comes before an occurrence of `y`. -/
def occursBefore {α : Type} (x y : α) (l : List α) : Prop :=
  ∃ l1 l2, l = l1 ++ y :: l2 ∧ x ∈ l1

/-! ## Typed lookup and the operator sweep -/

/-- Modelled from the spec: whether an object of dynamic class `c` is a
`T`.  Its class is `T`, or it is a `CartesianMap`, a subtype of `Layer`
(the declaration of the class `CartesianMap` is not among the sources). -/
def ItemClass.isA (c T : ItemClass) : Bool :=
  decide (c = T) || (decide (c = .CartesianMap) && decide (T = .Layer))

/-- The cast `dynamic_cast<T*>(p)`: `p` if it points to a `T`, else `NULL`. -/
def dynamicCast (s : Environment) (T : ItemClass) (p : Ptr) : Ptr :=
  if p ≠ NULL ∧ (s.objects p).cls.isA T = true then p else NULL

/-- Query `Environment::getItems<T>()`: the registered items that are `T`s,
in registry order. -/
def getItems (s : Environment) (T : ItemClass) : List Ptr :=
  (s.items.filter (fun it => decide (dynamicCast s T it.2 ≠ NULL))).map Prod.snd

/-- The loop of `Environment::getItem<T>()` over the registry, with the
local variable `result`. -/
def getItemLoop (s : Environment) (T : ItemClass) : List (Int × Ptr) → Ptr → Except Error Ptr
  | [], result => .ok result
  | it :: rest, result =>
    if dynamicCast s T it.2 ≠ NULL then
      if result ≠ NULL then .error .ambiguousType
      else getItemLoop s T rest (dynamicCast s T it.2)
    else getItemLoop s T rest result

/-- Query `Environment::getItem<T>()`: the only item of the given type. -/
def getItemOfType (s : Environment) (T : ItemClass) : Except Error Ptr :=
  match getItemLoop s T s.items NULL with
  | .error e => .error e
  | .ok result => if result = NULL then .error .notFound else .ok result

/-- Notification `Environment::itemModified`. -/
def itemModified (s : Environment) (item : Ptr) : Environment :=
  emit s ⟨.ITEM, .UPDATE, item, NULL⟩

/-- The loop of `Environment::updateOperators` over the operators found at
the start.  `updateAll op` is the effect of the virtual `op->updateAll()`
of the concrete operator on the state; the third argument collects the
operators on which it has been invoked. -/
def updateOperatorsLoop (updateAll : Ptr → Environment → Environment) :
    List Ptr → Environment → List Ptr → List Ptr × Environment
  | [], s, calls => (calls, s)
  | op :: rest, s, calls =>
    updateOperatorsLoop updateAll rest
      ((getOutputs (updateAll op s) op).foldl itemModified (updateAll op s)) (calls ++ [op])

/-- Sweep `Environment::updateOperators`: the operators on which
`updateAll()` was invoked, in order, and the state. -/
def updateOperators (updateAll : Ptr → Environment → Environment) (s : Environment) :
    List Ptr × Environment :=
  updateOperatorsLoop updateAll (getItems s .Operator) s []

/-! ## Destruction -/

/-- Method `EnvironmentItem::detach`: `assert( env ); return env->detachItem( this );`.
The environment the item refers to is taken to be this one. -/
def EnvironmentItem.detach (s : Environment) (item : Ptr) : Exec Ptr :=
  if getEnvironment s item = NULL then .raised .notAttached s else detachItem s item

/-- The destructor `Environment::~Environment`:
`while( (it = items.begin()) != items.end() ) it->second->detach();`.
The first argument bounds the iterations; `none` means the bound was
reached. -/
def Environment.destroy : Nat → Environment → Option (Exec Unit)
  | fuel, s =>
    match s.items with
    | [] => some (.ok () s)
    | it :: _ =>
      match fuel with
      | 0 => none
      | fuel + 1 =>
        match EnvironmentItem.detach s it.2 with
        | .raised e s1 => some (.raised e s1)
        | .ok _ s1 => Environment.destroy fuel s1

/-! ## The mirror of a handler -/

/-- Modelled from the spec: the store in which a handler mirrors the
events it receives: items, roots, frame-tree edges `(parent, child)` and
bindings `(map, frame)`. -/
structure Mirror where
  items : List Ptr
  roots : List Ptr
  edges : List (Ptr × Ptr)
  bindings : List (Ptr × Ptr)
  deriving DecidableEq, Repr

/-- Modelled from the spec: the empty mirror. -/
def Mirror.empty : Mirror := ⟨[], [], [], []⟩

/-- Modelled from the spec: an add event puts its entities into the
mirror, a remove event takes them out. -/
def Mirror.apply (m : Mirror) (e : Event) : Mirror :=
  match e.type, e.operation with
  | .ITEM, .ADD => { m with items := m.items ++ [e.a] }
  | .ITEM, .REMOVE => { m with items := m.items.filter (fun x => decide (x ≠ e.a)) }
  | .ROOT, .ADD => { m with roots := m.roots ++ [e.a] }
  | .ROOT, .REMOVE => { m with roots := m.roots.filter (fun x => decide (x ≠ e.a)) }
  | .FRAMENODE_TREE, .ADD => { m with edges := m.edges ++ [(e.a, e.b)] }
  | .FRAMENODE_TREE, .REMOVE =>
    { m with edges := m.edges.filter (fun x => decide (x ≠ (e.a, e.b))) }
  | .FRAMENODE, .ADD => { m with bindings := m.bindings ++ [(e.a, e.b)] }
  | .FRAMENODE, .REMOVE =>
    { m with bindings := m.bindings.filter (fun x => decide (x ≠ (e.a, e.b))) }
  | _, _ => m

/-- The events a handler receives when it subscribes and unsubscribes at
once: those of `addEventHandler` followed by those of
`removeEventHandler`. -/
def subscribeUnsubscribe (s : Environment) (fuel : Nat) (handler : Ptr) :
    Option (List Event) :=
  match addEventHandler s fuel handler with
  | none => none
  | some (added, s1) =>
    match removeEventHandler s1 fuel handler with
    | none => none
    | some (removed, _) => some (added ++ removed)

/-- The events `(ITEM, UPDATE, out)` for the layers `outs`, in order. -/
def itemUpdates (outs : List Ptr) : List Event :=
  outs.map (fun out => ⟨.ITEM, .UPDATE, out, NULL⟩)

/-! ## Consistency of a state -/

/-- The registry is consistent: its keys increase strictly, every entry is
stored under the id its item carries, no key is the sentinel, the
back-reference of every item in it is this environment, and the id counter
is not negative. -/
def RegistryOk (s : Environment) : Prop :=
  MapOk s.items ∧
  (∀ e ∈ s.items, getUniqueId s e.2 = e.1 ∧ e.1 ≠ ITEM_NOT_ATTACHED ∧
    getEnvironment s e.2 = s.this) ∧
  0 ≤ s.last_id

/-- The containers that are `std::map`s have strictly increasing keys, and
the registry is consistent. -/
def StateOk (s : Environment) : Prop :=
  RegistryOk s ∧ MapOk s.frameNodeTree ∧ MapOk s.cartesianMapGraph

/-- The frame tree and the bindings, which are `std::map`s, have strictly
increasing keys. -/
def TreesOk (s : Environment) : Prop :=
  MapOk s.frameNodeTree ∧ MapOk s.cartesianMapGraph

/-! ## Concrete scenarios -/

/-- A memory of items outside any environment (`env` is `NULL`).  Address
`3` holds an operator, `4` a plain layer, `5` and `7` cartesian maps, every
other address a frame node.  The item at address `6` was read back from a
serialization with the id `1` (`EnvironmentItem(Serialization&)`); every
other item is freshly constructed and carries the sentinel id. -/
def freshObjects : Ptr → EnvironmentItem := fun q =>
  ⟨if q = 3 then .Operator else if q = 4 then .Layer
    else if q = 5 ∨ q = 7 then .CartesianMap else .FrameNode,
   if q = 6 then 1 else ITEM_NOT_ATTACHED, NULL⟩

/-- A fresh environment at address `100` whose root is the frame node at
address `1`. -/
def env0 : Environment := Environment.create 100 1 freshObjects

/-- The memory `freshObjects` in which the item at address `9` too was read
back from a serialization with the id `1`. -/
def twinObjects : Ptr → EnvironmentItem := fun q =>
  if q = 9 then ⟨.FrameNode, 1, NULL⟩ else freshObjects q

/-- The calls `attachItem(2); detachItem(2);` repeated `n` times. -/
def mintCycles : Nat → List Op
  | 0 => []
  | n + 1 => .attachItem 2 :: .detachItem 2 :: mintCycles n

/-- The registry holds the root `1` under the id `0` and nothing else, the
counter stands at `k`, and the items `2` and `8` carry the sentinel. -/
def CounterAt (s : Environment) (k : Int) : Prop :=
  s.items = [(0, 1)] ∧ s.last_id = k ∧ getUniqueId s 2 = ITEM_NOT_ATTACHED ∧
    getUniqueId s 8 = ITEM_NOT_ATTACHED

section ContainerFacts

variable {K V : Type} [LinearOrder K]

/-! ## Facts about the containers -/

theorem MapOk_cons (a : K) (b : V) (t : List (K × V)) :
    MapOk ((a, b) :: t) ↔ (∀ e ∈ t, a < e.1) ∧ MapOk t := by
  simp [MapOk, List.pairwise_cons]

theorem mapFind_some_mem {m : List (K × V)} {k : K} {v : V}
    (h : mapFind m k = some v) : (k, v) ∈ m := by
  induction m with
  | nil => simp [mapFind] at h
  | cons e t ih =>
    obtain ⟨a, b⟩ := e
    simp only [mapFind] at h
    split_ifs at h with h1
    · simp only [Option.some.injEq] at h
      subst h1; subst h; simp
    · exact List.mem_cons_of_mem _ (ih h)

theorem mapFind_none_iff {m : List (K × V)} {k : K} :
    mapFind m k = none ↔ ∀ e ∈ m, e.1 ≠ k := by
  induction m with
  | nil => simp [mapFind]
  | cons e t ih =>
    obtain ⟨a, b⟩ := e
    simp only [mapFind]
    split_ifs with h1
    · simp [h1]
    · simp [ih, h1]

theorem mapFind_of_mem {m : List (K × V)} {k : K} {v : V} (hm : MapOk m)
    (h : (k, v) ∈ m) : mapFind m k = some v := by
  induction m with
  | nil => simp at h
  | cons e t ih =>
    obtain ⟨a, b⟩ := e
    rw [MapOk_cons] at hm
    simp only [mapFind]
    rcases List.mem_cons.1 h with h1 | h1
    · simp only [Prod.mk.injEq] at h1
      simp [h1.1, h1.2]
    · have := hm.1 _ h1
      simp only at this
      rw [if_neg (ne_of_lt this)]
      exact ih hm.2 h1

theorem mapCount_eq_zero_iff {m : List (K × V)} {k : K} :
    mapCount m k = 0 ↔ mapFind m k = none := by
  rw [mapFind_none_iff, mapCount, List.length_eq_zero, List.filter_eq_nil_iff]
  simp

theorem mapCount_ne_zero_of_find {m : List (K × V)} {k : K} {v : V}
    (h : mapFind m k = some v) : mapCount m k ≠ 0 := by
  intro h0
  rw [mapCount_eq_zero_iff] at h0
  rw [h0] at h
  exact Option.noConfusion h

theorem mapCount_le_one {m : List (K × V)} (hm : MapOk m) (k : K) : mapCount m k ≤ 1 := by
  induction m with
  | nil => simp [mapCount]
  | cons e t ih =>
    obtain ⟨a, b⟩ := e
    rw [MapOk_cons] at hm
    by_cases h : a = k
    · have h0 : mapCount t k = 0 := by
        rw [mapCount_eq_zero_iff, mapFind_none_iff]
        intro e he
        exact ne_of_gt (h ▸ hm.1 e he)
      simp only [mapCount] at h0 ⊢
      simp [List.filter_cons, h, h0]
    · have := ih hm.2
      simp only [mapCount] at this ⊢
      simpa [List.filter_cons, h] using this

theorem mapFind_mapAssign (m : List (K × V)) (k k' : K) (v : V) :
    mapFind (mapAssign m k v) k' = if k' = k then some v else mapFind m k' := by
  induction m with
  | nil => simp [mapAssign, mapFind, eq_comm]
  | cons e t ih =>
    obtain ⟨a, b⟩ := e
    simp only [mapAssign]
    split_ifs with h1 h2 h3 h4 h5 <;> simp_all [mapFind, eq_comm]

theorem mem_mapAssign {m : List (K × V)} {k : K} {v : V} {e : K × V}
    (h : e ∈ mapAssign m k v) : e = (k, v) ∨ e ∈ m := by
  induction m with
  | nil => simpa [mapAssign] using h
  | cons x t ih =>
    obtain ⟨a, b⟩ := x
    simp only [mapAssign] at h
    split_ifs at h with h1 h2
    · simpa using h
    · rcases List.mem_cons.1 h with h | h
      · exact Or.inl h
      · exact Or.inr (List.mem_cons_of_mem _ h)
    · rcases List.mem_cons.1 h with h | h
      · exact Or.inr (h ▸ List.mem_cons_self _ _)
      · rcases ih h with h | h
        · exact Or.inl h
        · exact Or.inr (List.mem_cons_of_mem _ h)

theorem MapOk_mapAssign {m : List (K × V)} (hm : MapOk m) (k : K) (v : V) :
    MapOk (mapAssign m k v) := by
  induction m with
  | nil => simp [mapAssign, MapOk]
  | cons x t ih =>
    obtain ⟨a, b⟩ := x
    have hm' := (MapOk_cons a b t).1 hm
    simp only [mapAssign]
    split_ifs with h1 h2
    · rw [MapOk_cons]
      refine ⟨?_, hm⟩
      intro e he
      rcases List.mem_cons.1 he with he | he
      · subst he; exact h1
      · exact lt_trans h1 (hm'.1 e he)
    · subst h2
      rw [MapOk_cons]
      exact hm'
    · rw [MapOk_cons]
      refine ⟨?_, ih hm'.2⟩
      intro e he
      rcases mem_mapAssign he with he | he
      · subst he
        exact lt_of_le_of_ne (not_lt.1 h1) h2
      · exact hm'.1 e he

theorem mapFind_mapInsert {m : List (K × V)} {k : K} (h : mapFind m k = none) (k' : K)
    (v : V) : mapFind (mapInsert m k v) k' = if k' = k then some v else mapFind m k' := by
  induction m with
  | nil => simp [mapInsert, mapFind, eq_comm]
  | cons e t ih =>
    obtain ⟨a, b⟩ := e
    simp only [mapFind] at h
    split_ifs at h with h0
    have ih' := ih h
    simp only [mapInsert]
    split_ifs with h1 h2 h3 <;> simp_all [mapFind, eq_comm]

theorem mem_mapInsert {m : List (K × V)} {k : K} {v : V} {e : K × V}
    (h : e ∈ mapInsert m k v) : e = (k, v) ∨ e ∈ m := by
  induction m with
  | nil => simpa [mapInsert] using h
  | cons x t ih =>
    obtain ⟨a, b⟩ := x
    simp only [mapInsert] at h
    split_ifs at h with h1 h2
    · simpa using h
    · exact Or.inr h
    · rcases List.mem_cons.1 h with h | h
      · exact Or.inr (h ▸ List.mem_cons_self _ _)
      · rcases ih h with h | h
        · exact Or.inl h
        · exact Or.inr (List.mem_cons_of_mem _ h)

theorem MapOk_mapInsert {m : List (K × V)} (hm : MapOk m) (k : K) (v : V) :
    MapOk (mapInsert m k v) := by
  induction m with
  | nil => simp [mapInsert, MapOk]
  | cons x t ih =>
    obtain ⟨a, b⟩ := x
    have hm' := (MapOk_cons a b t).1 hm
    simp only [mapInsert]
    split_ifs with h1 h2
    · rw [MapOk_cons]
      refine ⟨?_, hm⟩
      intro e he
      rcases List.mem_cons.1 he with he | he
      · subst he; exact h1
      · exact lt_trans h1 (hm'.1 e he)
    · exact hm
    · rw [MapOk_cons]
      refine ⟨?_, ih hm'.2⟩
      intro e he
      rcases mem_mapInsert he with he | he
      · subst he
        exact lt_of_le_of_ne (not_lt.1 h1) h2
      · exact hm'.1 e he

theorem mem_multimapInsert {m : List (K × V)} {k : K} {v : V} {e : K × V} :
    e ∈ multimapInsert m k v ↔ e = (k, v) ∨ e ∈ m := by
  induction m with
  | nil => simp [multimapInsert]
  | cons x t ih =>
    obtain ⟨a, b⟩ := x
    simp only [multimapInsert]
    split_ifs with h1
    · simp
    · simp only [List.mem_cons, ih]
      tauto

theorem mem_mapErase {m : List (K × V)} {k : K} {e : K × V} :
    e ∈ mapErase m k ↔ e ∈ m ∧ e.1 ≠ k := by
  simp [mapErase]

theorem mapFind_mapErase (m : List (K × V)) (k k' : K) :
    mapFind (mapErase m k) k' = if k' = k then none else mapFind m k' := by
  induction m with
  | nil => simp [mapErase, mapFind]
  | cons e t ih =>
    obtain ⟨a, b⟩ := e
    simp only [mapErase] at ih ⊢
    by_cases h : a = k
    · simp only [List.filter_cons, h, ne_eq, not_true_eq_false, decide_False, ih, mapFind]
      split_ifs with h1 h2 <;> simp_all
    · simp only [List.filter_cons, h, ne_eq, not_false_eq_true, decide_True, mapFind, ih]
      split_ifs with h1 h2 <;> simp_all

theorem MapOk_mapErase {m : List (K × V)} (hm : MapOk m) (k : K) : MapOk (mapErase m k) := by
  unfold MapOk mapErase at *
  exact hm.sublist ((List.filter_sublist _).map _)

theorem mapEraseFound_sublist (m : List (K × V)) (k : K) :
    (mapEraseFound m k).Sublist m := by
  induction m with
  | nil => simp [mapEraseFound]
  | cons e t ih =>
    obtain ⟨a, b⟩ := e
    simp only [mapEraseFound]
    split_ifs with h
    · exact List.sublist_cons_self _ _
    · exact ih.cons₂ _

theorem MapOk_mapEraseFound {m : List (K × V)} (hm : MapOk m) (k : K) :
    MapOk (mapEraseFound m k) := by
  unfold MapOk at *
  exact hm.sublist ((mapEraseFound_sublist m k).map _)

theorem mapFind_mapEraseFound {m : List (K × V)} (hm : MapOk m) (k k' : K) :
    mapFind (mapEraseFound m k) k' = if k' = k then none else mapFind m k' := by
  induction m with
  | nil => simp [mapEraseFound, mapFind]
  | cons e t ih =>
    obtain ⟨a, b⟩ := e
    rw [MapOk_cons] at hm
    simp only [mapEraseFound]
    by_cases h1 : a = k
    · rw [if_pos h1]
      subst h1
      by_cases h2 : k' = a
      · rw [if_pos h2, mapFind_none_iff]
        intro e he
        exact ne_of_gt (h2 ▸ hm.1 e he)
      · rw [if_neg h2]
        simp [mapFind, Ne.symm h2]
    · rw [if_neg h1]
      simp only [mapFind, ih hm.2]
      by_cases h2 : k' = k
      · subst h2; simp [h1]
      · simp [h2]

end ContainerFacts

/-! ## Facts about the operations -/

theorem callRun_registry (s : Environment) (c : Call) :
    (c.run s).items = s.items ∧ (c.run s).objects = s.objects ∧
    (c.run s).last_id = s.last_id ∧ (c.run s).this = s.this ∧
    (c.run s).rootNode = s.rootNode := by
  cases c <;>
    simp only [Call.run, removeChild, removeChildLayer, removeInput, removeOutput,
      detachFrameNode] <;>
    (try split_ifs) <;> simp [emit]

theorem runCalls_registry (cs : List Call) : ∀ s : Environment,
    (runCalls s cs).items = s.items ∧ (runCalls s cs).objects = s.objects ∧
    (runCalls s cs).last_id = s.last_id ∧ (runCalls s cs).this = s.this ∧
    (runCalls s cs).rootNode = s.rootNode := by
  induction cs with
  | nil => intro s; simp [runCalls]
  | cons c t ih =>
    intro s
    have h1 := ih (c.run s)
    have h2 := callRun_registry s c
    simp only [runCalls, List.foldl_cons] at h1 ⊢
    refine ⟨h1.1.trans h2.1, h1.2.1.trans h2.2.1, h1.2.2.1.trans h2.2.2.1,
      h1.2.2.2.1.trans h2.2.2.2.1, h1.2.2.2.2.trans h2.2.2.2.2⟩

theorem callRun_emitted (s : Environment) (c : Call) :
    ∃ new, (c.run s).emitted = s.emitted ++ new ∧ ∀ e ∈ new, e.type ≠ .ITEM := by
  cases c <;>
    simp only [Call.run, removeChild, removeChildLayer, removeInput, removeOutput,
      detachFrameNode] <;>
    (try split_ifs) <;>
    first
      | exact ⟨[_], rfl, by simp⟩
      | exact ⟨[], (List.append_nil _).symm, by simp⟩

theorem runCalls_emitted (cs : List Call) : ∀ s : Environment,
    ∃ new, (runCalls s cs).emitted = s.emitted ++ new ∧ ∀ e ∈ new, e.type ≠ .ITEM := by
  induction cs with
  | nil => intro s; exact ⟨[], by simp [runCalls], by simp⟩
  | cons c t ih =>
    intro s
    obtain ⟨n1, h1, h1'⟩ := callRun_emitted s c
    obtain ⟨n2, h2, h2'⟩ := ih (c.run s)
    refine ⟨n1 ++ n2, ?_, ?_⟩
    · simp only [runCalls, List.foldl_cons] at h2 ⊢
      rw [h2, h1, List.append_assoc]
    · intro e he
      rcases List.mem_append.1 he with he | he
      · exact h1' e he
      · exact h2' e he

theorem attachItem_eq (s : Environment) (item : Ptr) (hx : item ≠ NULL) :
    attachItem s item =
      if getUniqueId s item = ITEM_NOT_ATTACHED then
        (if mapCount s.items s.last_id ≠ 0 then
          .raised .duplicateId
            { s with objects := setUniqueId s.objects item s.last_id,
                     last_id := wrapLong (s.last_id + 1) }
        else
          .ok () 
            { s with objects := setEnv (setUniqueId s.objects item s.last_id) item s.this,
                     last_id := wrapLong (s.last_id + 1),
                     items := mapAssign s.items s.last_id item,
                     emitted := s.emitted ++ [⟨.ITEM, .ADD, item, NULL⟩] })
      else
        (if mapCount s.items (getUniqueId s item) ≠ 0 then .raised .duplicateId s
        else
          .ok ()
            { s with objects := setEnv s.objects item s.this,
                     items := mapAssign s.items (getUniqueId s item) item,
                     emitted := s.emitted ++ [⟨.ITEM, .ADD, item, NULL⟩] }) := by
  unfold attachItem
  rw [if_neg hx]
  by_cases h : getUniqueId s item = ITEM_NOT_ATTACHED
  · simp only [h, if_true]
    simp [getUniqueId, setUniqueId, emit]
  · simp only [h, if_false]
    simp [emit]

/-! ## Attaching an item -/

/-- C6: when `attachItem` returns for an item that carries the sentinel id,
the item has been given the counter value as its id, `getItem` of that id
is the item, the item reports `isAttached()` and its back-reference is this
environment, the one event emitted is `(ITEM, ADD, item)`, every entry of
the registry is still there under its key, no other item object changed,
and the five relations are as before. -/
theorem attachItem_sentinel_ok (s s' : Environment) (item : Ptr)
    (hthis : s.this ≠ NULL)
    (hid : getUniqueId s item = ITEM_NOT_ATTACHED)
    (hok : attachItem s item = .ok () s') :
    getUniqueId s' item = s.last_id ∧
    getItem s' (getUniqueId s' item) = item ∧
    isAttached s' item = true ∧
    getEnvironment s' item = s'.this ∧ s'.this = s.this ∧
    s'.emitted = s.emitted ++ [⟨.ITEM, .ADD, item, NULL⟩] ∧
    (∀ k y, mapFind s.items k = some y → mapFind s'.items k = some y) ∧
    (∀ y, y ≠ item → s'.objects y = s.objects y) ∧
    s'.frameNodeTree = s.frameNodeTree ∧ s'.layerTree = s.layerTree ∧
    s'.operatorGraphInput = s.operatorGraphInput ∧
    s'.operatorGraphOutput = s.operatorGraphOutput ∧
    s'.cartesianMapGraph = s.cartesianMapGraph := by
  have hx : item ≠ NULL := by
    intro h
    simp [attachItem, h] at hok
  rw [attachItem_eq s item hx, if_pos hid] at hok
  split_ifs at hok with hc
  simp only [Exec.ok.injEq, true_and] at hok
  subst hok
  have hnone : mapFind s.items s.last_id = none := by
    rw [← mapCount_eq_zero_iff]; simpa using hc
  refine ⟨by simp [getUniqueId, setEnv, setUniqueId], ?_, ?_, by simp [getEnvironment, setEnv],
    rfl, rfl, ?_, ?_, rfl, rfl, rfl, rfl, rfl⟩
  · simp [getItem, getUniqueId, setEnv, setUniqueId, mapFind_mapAssign]
  · simpa [isAttached, setEnv] using hthis
  · intro k y hk
    simp only [mapFind_mapAssign]
    rw [if_neg]
    · exact hk
    · intro h
      rw [h, hnone] at hk
      exact Option.noConfusion hk
  · intro y hy
    simp [setEnv, setUniqueId, hy]

/-- Witness of C6: attaching the fresh frame node at address `2` to the
fresh environment. -/
theorem attachItem_sentinel_ok_witness :
    getUniqueId (attachItem env0 2).state 2 = env0.last_id ∧
    getItem (attachItem env0 2).state (getUniqueId (attachItem env0 2).state 2) = 2 ∧
    isAttached (attachItem env0 2).state 2 = true :=
  have h := attachItem_sentinel_ok env0 (attachItem env0 2).state 2 (by decide) (by decide)
    (by rfl)
  ⟨h.1, h.2.1, h.2.2.1⟩

/-- C7, as stated, fails: attaching the root of a fresh environment a
second time raises the duplicate-id error although the only registered
item with that id is the root itself. -/
theorem attachItem_duplicate_counterexample :
    ¬ ((attachItem env0 1).error = some Error.duplicateId ↔
        ∃ y, y ≠ 1 ∧ mapFind env0.items (attachId env0 1) = some y) := by
  intro h
  obtain ⟨y, hy, hf⟩ := h.1 (by decide)
  have : mapFind env0.items (attachId env0 1) = some 1 := by decide
  rw [this] at hf
  exact hy (Option.some.inj hf).symm

/-- C7, amended: for a non-null item, `attachItem` raises the duplicate-id
error exactly when the id of the item (the id it carries, or the counter
value it is given) is a key of the registry, whichever item holds it, the
item itself included; otherwise it returns. -/
theorem attachItem_duplicate_iff (s : Environment) (item : Ptr) (hx : item ≠ NULL) :
    ((attachItem s item).error = some Error.duplicateId ↔
      ∃ y, mapFind s.items (attachId s item) = some y) ∧
    ((attachItem s item).isOk = true ↔ mapFind s.items (attachId s item) = none) := by
  rw [attachItem_eq s item hx]
  unfold attachId
  by_cases hid : getUniqueId s item = ITEM_NOT_ATTACHED
  · simp only [hid, if_true]
    by_cases hc : mapCount s.items s.last_id = 0
    · have := mapCount_eq_zero_iff.1 hc
      simp [hc, this, Exec.error, Exec.isOk]
    · have h1 : mapFind s.items s.last_id ≠ none := fun h => hc (mapCount_eq_zero_iff.2 h)
      obtain ⟨y, hy⟩ := Option.ne_none_iff_exists'.1 h1
      simp [hc, hy, Exec.error, Exec.isOk]
  · simp only [hid, if_false]
    by_cases hc : mapCount s.items (getUniqueId s item) = 0
    · have := mapCount_eq_zero_iff.1 hc
      simp [hc, this, Exec.error, Exec.isOk]
    · have h1 : mapFind s.items (getUniqueId s item) ≠ none :=
        fun h => hc (mapCount_eq_zero_iff.2 h)
      obtain ⟨y, hy⟩ := Option.ne_none_iff_exists'.1 h1
      simp [hc, hy, Exec.error, Exec.isOk]

/-- Witness of the amended C7: the root of the fresh environment. -/
theorem attachItem_duplicate_iff_witness :
    (1 : Ptr) ≠ NULL ∧
    ((attachItem env0 1).error = some Error.duplicateId ↔
      ∃ y, mapFind env0.items (attachId env0 1) = some y) :=
  ⟨by decide, (attachItem_duplicate_iff env0 1 (by decide)).1⟩

/-! ## Detaching an item -/

theorem detachItem_eq (s : Environment) (x : Ptr) (hx : x ≠ NULL)
    (hreg : mapFind s.items (getUniqueId s x) = some x) :
    detachItem s x = .ok x
      { runCalls s (detachCalls s x) with
        emitted := (runCalls s (detachCalls s x)).emitted ++ [⟨.ITEM, .REMOVE, x, NULL⟩],
        items := mapErase s.items (getUniqueId s x),
        objects := setEnv (setUniqueId s.objects x ITEM_NOT_ATTACHED) x NULL } := by
  have hr := runCalls_registry (detachCalls s x) s
  unfold detachItem
  rw [if_neg hx, if_neg (mapCount_ne_zero_of_find hreg)]
  simp only [emit, getUniqueId, hr.1, hr.2.1, mapIndex]
  simp only [getUniqueId] at hreg
  rw [hreg]

/-- C8, the code at the failing input: the frame node at address `2` is
attached and holds the id `1`; the item at address `6` was never attached
and carries the pre-set id `1`.  `detachItem` of the item at `6` raises no
error, returns the item at `2` and erases the id `1` from the registry,
while the item at `2` still reports `isAttached()`. -/
theorem detachItem_impostor :
    isAttached (attachItem env0 2).state 6 = false ∧
    getItem (attachItem env0 2).state 1 = 2 ∧
    (detachItem (attachItem env0 2).state 6).error = none ∧
    getItem (detachItem (attachItem env0 2).state 6).state 1 = NULL ∧
    (detachItem (attachItem env0 2).state 6).state.items = [(0, 1)] ∧
    isAttached (detachItem (attachItem env0 2).state 6).state 2 = true := by
  decide

/-- C1, the code at the failing input: after `addChild(root, A)` and
`detachItem(A)` on a fresh environment (root at address `1`, `A` at `2`)
the frame tree still holds the edge from `A` to the root, and `A` is not
in the registry. -/
theorem dangling_frame_edge :
    (2, 1) ∈ (runOps env0 [.addChild 1 2, .detachItem 2]).frameNodeTree ∧
    (∀ e ∈ (runOps env0 [.addChild 1 2, .detachItem 2]).items, e.2 ≠ 2) ∧
    (runOps env0 [.addChild 1 2, .detachItem 2]).items = [(0, 1)] := by
  decide

/-- C2, the code at the failing input: root `R` at address `1`, frame `A`
at `2`; after `addChild(R, A)` the frame `A` is attached, `detachItem(A)`
returns, and afterwards `getParent(A)` is still `R` and `A` is still in
`getChildren(R)`.  The layer tree behaves alike: with the layer at `4`
attached and the map at `5` added as its child, `detachItem` of the map
leaves the edge in place. -/
theorem detachItem_keeps_frame_edge :
    getItem (addChild env0 1 2).state (getUniqueId (addChild env0 1 2).state 2) = 2 ∧
    (detachItem (addChild env0 1 2).state 2).error = none ∧
    getParent (detachItem (addChild env0 1 2).state 2).state 2 = 1 ∧
    getChildren (detachItem (addChild env0 1 2).state 2).state 1 = [2] ∧
    (detachItem (runOps env0 [.attachItem 4, .addChildLayer 4 5]) 5).error = none ∧
    getParentLayer (runOps env0 [.attachItem 4, .addChildLayer 4 5, .detachItem 5]) 5 = 4 ∧
    getChildrenLayer (runOps env0 [.attachItem 4, .addChildLayer 4 5, .detachItem 5]) 4 = [5] := by
  decide

/-! ## The deferred calls of `detachItem` and the relations -/

theorem callRun_operatorGraphInput_mem (s : Environment) (c : Call) (e : Ptr × Ptr)
    (h : e ∈ (c.run s).operatorGraphInput) :
    e ∈ s.operatorGraphInput ∧ c ≠ Call.removeInput e.1 e.2 := by
  cases c with
  | removeInput a b =>
    simp only [Call.run, removeInput, List.mem_filter, Bool.not_eq_true', decide_eq_false_iff_not]
      at h
    refine ⟨h.1, ?_⟩
    intro hc
    injection hc with h1 h2
    exact h.2 ⟨h1.symm, h2.symm⟩
  | removeChild a b =>
    simp only [Call.run, removeChild] at h
    split_ifs at h <;> exact ⟨h, by simp⟩
  | removeChildLayer a b =>
    simp only [Call.run, removeChildLayer] at h
    split_ifs at h <;> exact ⟨h, by simp⟩
  | removeOutput a b =>
    simp only [Call.run, removeOutput] at h
    exact ⟨h, by simp⟩
  | detachFrameNode a b =>
    simp only [Call.run, detachFrameNode] at h
    split_ifs at h <;> exact ⟨h, by simp⟩

theorem callRun_operatorGraphOutput_mem (s : Environment) (c : Call) (e : Ptr × Ptr)
    (h : e ∈ (c.run s).operatorGraphOutput) :
    e ∈ s.operatorGraphOutput ∧ c ≠ Call.removeOutput e.1 e.2 := by
  cases c with
  | removeOutput a b =>
    simp only [Call.run, removeOutput, List.mem_filter, Bool.not_eq_true',
      decide_eq_false_iff_not] at h
    refine ⟨h.1, ?_⟩
    intro hc
    injection hc with h1 h2
    exact h.2 ⟨h1.symm, h2.symm⟩
  | removeChild a b =>
    simp only [Call.run, removeChild] at h
    split_ifs at h <;> exact ⟨h, by simp⟩
  | removeChildLayer a b =>
    simp only [Call.run, removeChildLayer] at h
    split_ifs at h <;> exact ⟨h, by simp⟩
  | removeInput a b =>
    simp only [Call.run, removeInput] at h
    exact ⟨h, by simp⟩
  | detachFrameNode a b =>
    simp only [Call.run, detachFrameNode] at h
    split_ifs at h <;> exact ⟨h, by simp⟩

theorem runCalls_operatorGraphInput_mem (cs : List Call) : ∀ (s : Environment) (e : Ptr × Ptr),
    e ∈ (runCalls s cs).operatorGraphInput →
    e ∈ s.operatorGraphInput ∧ Call.removeInput e.1 e.2 ∉ cs := by
  induction cs with
  | nil => intro s e h; exact ⟨h, by simp⟩
  | cons c t ih =>
    intro s e h
    simp only [runCalls, List.foldl_cons] at h
    obtain ⟨h1, h2⟩ := ih (c.run s) e h
    obtain ⟨h3, h4⟩ := callRun_operatorGraphInput_mem s c e h1
    refine ⟨h3, ?_⟩
    intro hm
    rcases List.mem_cons.1 hm with hm | hm
    · exact h4 hm.symm
    · exact h2 hm

theorem runCalls_operatorGraphOutput_mem (cs : List Call) :
    ∀ (s : Environment) (e : Ptr × Ptr),
    e ∈ (runCalls s cs).operatorGraphOutput →
    e ∈ s.operatorGraphOutput ∧ Call.removeOutput e.1 e.2 ∉ cs := by
  induction cs with
  | nil => intro s e h; exact ⟨h, by simp⟩
  | cons c t ih =>
    intro s e h
    simp only [runCalls, List.foldl_cons] at h
    obtain ⟨h1, h2⟩ := ih (c.run s) e h
    obtain ⟨h3, h4⟩ := callRun_operatorGraphOutput_mem s c e h1
    refine ⟨h3, ?_⟩
    intro hm
    rcases List.mem_cons.1 hm with hm | hm
    · exact h4 hm.symm
    · exact h2 hm

theorem removeInput_mem_detachCalls (s : Environment) (x : Ptr) (e : Ptr × Ptr)
    (he : e ∈ s.operatorGraphInput) (hx : e.1 = x ∨ e.2 = x) :
    Call.removeInput e.1 e.2 ∈ detachCalls s x := by
  simp only [detachCalls, findMapItem, List.mem_append, List.mem_map, List.mem_filter,
    decide_eq_true_eq]
  exact Or.inl (Or.inl (Or.inr ⟨e, ⟨he, hx⟩, rfl⟩))

theorem removeOutput_mem_detachCalls (s : Environment) (x : Ptr) (e : Ptr × Ptr)
    (he : e ∈ s.operatorGraphOutput) (hx : e.1 = x ∨ e.2 = x) :
    Call.removeOutput e.1 e.2 ∈ detachCalls s x := by
  simp only [detachCalls, findMapItem, List.mem_append, List.mem_map, List.mem_filter,
    decide_eq_true_eq]
  exact Or.inl (Or.inr ⟨e, ⟨he, hx⟩, rfl⟩)

/-- C3: after `detachItem(x)` of an attached item no operator edge names
`x`: `x` is in no `getInputs(op)` and no `getOutputs(op)`, `getInputs(x)`
and `getOutputs(x)` are empty, and `getGenerator(x)` is `NULL`.  The input
and output relations are multimaps, so the state may hold the same edge
several times. -/
theorem detachItem_operator_edges (s : Environment) (x : Ptr) (hx : x ≠ NULL)
    (hreg : mapFind s.items (getUniqueId s x) = some x) :
    ∃ s', detachItem s x = .ok x s' ∧
      (∀ op, x ∉ getInputs s' op ∧ x ∉ getOutputs s' op) ∧
      getInputs s' x = [] ∧ getOutputs s' x = [] ∧ getGenerator s' x = NULL := by
  refine ⟨_, detachItem_eq s x hx hreg, ?_⟩
  have hin : ∀ e ∈ (runCalls s (detachCalls s x)).operatorGraphInput, e.1 ≠ x ∧ e.2 ≠ x := by
    intro e he
    obtain ⟨h1, h2⟩ := runCalls_operatorGraphInput_mem _ s e he
    constructor
    · intro h; exact h2 (removeInput_mem_detachCalls s x e h1 (Or.inl h))
    · intro h; exact h2 (removeInput_mem_detachCalls s x e h1 (Or.inr h))
  have hout : ∀ e ∈ (runCalls s (detachCalls s x)).operatorGraphOutput, e.1 ≠ x ∧ e.2 ≠ x := by
    intro e he
    obtain ⟨h1, h2⟩ := runCalls_operatorGraphOutput_mem _ s e he
    constructor
    · intro h; exact h2 (removeOutput_mem_detachCalls s x e h1 (Or.inl h))
    · intro h; exact h2 (removeOutput_mem_detachCalls s x e h1 (Or.inr h))
  refine ⟨?_, ?_, ?_, ?_⟩
  · intro op
    constructor
    · simp only [getInputs, List.mem_map, List.mem_filter, decide_eq_true_eq, not_exists,
        not_and]
      intro e he h
      exact (hin e he.1).2 h
    · simp only [getOutputs, List.mem_map, List.mem_filter, decide_eq_true_eq, not_exists,
        not_and]
      intro e he h
      exact (hout e he.1).2 h
  · simp only [getInputs, List.map_eq_nil_iff, List.filter_eq_nil_iff, decide_eq_true_eq]
    intro e he
    exact (hin e he).1
  · simp only [getOutputs, List.map_eq_nil_iff, List.filter_eq_nil_iff, decide_eq_true_eq]
    intro e he
    exact (hout e he).1
  · have : List.find? (fun e => decide (e.2 = x))
        (runCalls s (detachCalls s x)).operatorGraphOutput = none := by
      rw [List.find?_eq_none]
      intro e he
      simpa using (hout e he).2
    simp only [getGenerator, this]

/-- Witness of C3: the operator at address `3` takes the layer at `4` as
input twice and as output once; then the layer is detached. -/
theorem detachItem_operator_edges_witness :
    (runOps env0 [.addInput 3 4, .addInput 3 4, .addOutput 3 4]).operatorGraphInput
      = [(3, 4), (3, 4)] ∧
    ∃ s', detachItem (runOps env0 [.addInput 3 4, .addInput 3 4, .addOutput 3 4]) 4
        = .ok 4 s' ∧
      (∀ op, 4 ∉ getInputs s' op ∧ 4 ∉ getOutputs s' op) ∧ getGenerator s' 4 = NULL := by
  refine ⟨by decide, ?_⟩
  obtain ⟨s', h1, h2, _, _, h3⟩ :=
    detachItem_operator_edges (runOps env0 [.addInput 3 4, .addInput 3 4, .addOutput 3 4]) 4
      (by decide) (by decide)
  exact ⟨s', h1, h2, h3⟩

theorem runCalls_append (s : Environment) (a b : List Call) :
    runCalls s (a ++ b) = runCalls (runCalls s a) b := by
  simp [runCalls, List.foldl_append]

theorem detachCalls_split (s : Environment) (x : Ptr) :
    ∃ pre, detachCalls s x = pre ++
        (s.cartesianMapGraph.filter (fun e => decide (e.1 = x ∨ e.2 = x))).map
          (fun e => Call.detachFrameNode e.1 e.2) ∧
      ∀ c ∈ pre, ∀ a b, c ≠ Call.detachFrameNode a b := by
  refine ⟨_, rfl, ?_⟩
  intro c hc a b
  simp only [findMapItem, List.mem_append, List.mem_map, List.nil_append] at hc
  rcases hc with ((⟨e, _, rfl⟩ | ⟨e, _, rfl⟩) | ⟨e, _, rfl⟩) | ⟨e, _, rfl⟩ <;> simp

theorem runCalls_cartesianMapGraph_of_no_detach (cs : List Call)
    (h : ∀ c ∈ cs, ∀ a b, c ≠ Call.detachFrameNode a b) : ∀ s : Environment,
    (runCalls s cs).cartesianMapGraph = s.cartesianMapGraph := by
  induction cs with
  | nil => intro s; rfl
  | cons c t ih =>
    intro s
    simp only [runCalls, List.foldl_cons]
    have h1 := ih (fun c' hc' => h c' (List.mem_cons_of_mem _ hc')) (c.run s)
    simp only [runCalls] at h1
    rw [h1]
    have hc := h c (List.mem_cons_self _ _)
    cases c with
    | detachFrameNode a b => exact absurd rfl (hc a b)
    | removeChild a b => simp only [Call.run, removeChild]; split_ifs <;> rfl
    | removeChildLayer a b => simp only [Call.run, removeChildLayer]; split_ifs <;> rfl
    | removeInput a b => rfl
    | removeOutput a b => rfl

theorem detachFrameNode_of_find (s : Environment) (map node : Ptr)
    (h : mapFind s.cartesianMapGraph map = some node) :
    detachFrameNode s map node =
      { s with emitted := s.emitted ++ [⟨.FRAMENODE, .REMOVE, map, node⟩],
               cartesianMapGraph := mapErase s.cartesianMapGraph map } := by
  unfold detachFrameNode
  rw [if_pos ⟨mapCount_ne_zero_of_find h, by simp [h]⟩]
  rfl

theorem runCalls_detachFrameNode (L : List (Ptr × Ptr)) : ∀ s : Environment,
    MapOk s.cartesianMapGraph → L.Sublist s.cartesianMapGraph →
    (runCalls s (L.map fun e => Call.detachFrameNode e.1 e.2)).cartesianMapGraph
      = s.cartesianMapGraph.filter (fun e => decide (e.1 ∉ L.map Prod.fst)) ∧
    (runCalls s (L.map fun e => Call.detachFrameNode e.1 e.2)).emitted
      = s.emitted ++ L.map (fun e => (⟨.FRAMENODE, .REMOVE, e.1, e.2⟩ : Event)) := by
  induction L with
  | nil =>
    intro s _ _
    simp [runCalls]
  | cons e L' ih =>
    intro s hm hsub
    have he : (e.1, e.2) ∈ s.cartesianMapGraph := hsub.subset (List.mem_cons_self _ _)
    have hfind := mapFind_of_mem hm he
    have hkeys : ∀ e' ∈ L', e.1 < e'.1 := by
      have h1 : ((e :: L').map Prod.fst).Pairwise (fun a b => a < b) :=
        List.Pairwise.sublist (hsub.map Prod.fst) hm
      rw [List.map_cons, List.pairwise_cons] at h1
      intro e' he'
      exact h1.1 _ (List.mem_map_of_mem _ he')
    have hsub' : L'.Sublist (mapErase s.cartesianMapGraph e.1) := by
      have h1 : L'.Sublist s.cartesianMapGraph := List.sublist_of_cons_sublist hsub
      have h2 := h1.filter (fun e' : Ptr × Ptr => decide (e'.1 ≠ e.1))
      have h3 : L'.filter (fun e' : Ptr × Ptr => decide (e'.1 ≠ e.1)) = L' := by
        rw [List.filter_eq_self]
        intro e' he'
        simpa using ne_of_gt (hkeys e' he')
      rw [h3] at h2
      exact h2
    simp only [List.map_cons, runCalls, List.foldl_cons, Call.run]
    rw [detachFrameNode_of_find s e.1 e.2 hfind]
    have := ih { s with emitted := s.emitted ++ [⟨.FRAMENODE, .REMOVE, e.1, e.2⟩],
                        cartesianMapGraph := mapErase s.cartesianMapGraph e.1 }
      (MapOk_mapErase hm e.1) hsub'
    simp only [runCalls] at this
    rw [this.1, this.2]
    constructor
    · simp only [mapErase, List.filter_filter]
      apply List.filter_congr
      intro e' _
      rw [← Bool.decide_and, decide_eq_decide]
      simp only [List.mem_cons, not_or, ne_eq]
      tauto
    · simp [List.append_assoc]

/-- C4: let the map `M` be bound to the attached frame node `A`.
`detachItem(A)` returns `A`; the deferred calls, which run while `A` is
still in the registry, emit `(FRAMENODE, REMOVE, M, A)`; the item event
`(ITEM, REMOVE, A)` is the last event of the call and the only item event;
afterwards `A` is not in the registry, `getFrameNode(M)` is `NULL` and
`getMaps(A)` is empty. -/
theorem detachItem_bound_frame (s : Environment) (M A : Ptr) (hA : A ≠ NULL)
    (hmap : MapOk s.cartesianMapGraph)
    (hreg : mapFind s.items (getUniqueId s A) = some A)
    (hbound : mapFind s.cartesianMapGraph M = some A) :
    ∃ s' pre post, detachItem s A = .ok A s' ∧
      (runCalls s (detachCalls s A)).emitted
        = s.emitted ++ pre ++ [⟨.FRAMENODE, .REMOVE, M, A⟩] ++ post ∧
      getItem (runCalls s (detachCalls s A)) (getUniqueId s A) = A ∧
      s'.emitted = s.emitted ++ pre ++ [⟨.FRAMENODE, .REMOVE, M, A⟩] ++ post
        ++ [⟨.ITEM, .REMOVE, A, NULL⟩] ∧
      (∀ e ∈ pre ++ post, e.type ≠ .ITEM) ∧
      getItem s' (getUniqueId s A) = NULL ∧
      (getFrameNode s' M).1 = NULL ∧ getMaps s' A = [] := by
  obtain ⟨cpre, hsplit, hcpre⟩ := detachCalls_split s A
  obtain ⟨n1, hn1, hn1'⟩ := runCalls_emitted cpre s
  have hg := runCalls_cartesianMapGraph_of_no_detach cpre hcpre s
  have hB := runCalls_detachFrameNode
    (s.cartesianMapGraph.filter (fun e => decide (e.1 = A ∨ e.2 = A))) (runCalls s cpre)
    (by rw [hg]; exact hmap) (by rw [hg]; exact List.filter_sublist _)
  rw [← runCalls_append, ← hsplit, hg, hn1] at hB
  obtain ⟨hgraph, hemit⟩ := hB
  have hMA : (M, A) ∈ s.cartesianMapGraph.filter (fun e => decide (e.1 = A ∨ e.2 = A)) := by
    simp [mapFind_some_mem hbound]
  obtain ⟨l1, l2, hl⟩ := List.append_of_mem hMA
  have hnone : mapFind (runCalls s (detachCalls s A)).cartesianMapGraph M = none := by
    rw [mapFind_none_iff, hgraph]
    intro e he h
    simp only [List.mem_filter, decide_eq_true_eq] at he
    exact he.2 (h ▸ List.mem_map_of_mem Prod.fst hMA)
  have hmaps : ∀ e ∈ (runCalls s (detachCalls s A)).cartesianMapGraph, e.2 ≠ A := by
    rw [hgraph]
    intro e he h
    simp only [List.mem_filter, decide_eq_true_eq] at he
    exact he.2 (List.mem_map_of_mem Prod.fst
      (List.mem_filter.2 ⟨he.1, by simp [h]⟩))
  have hemit' : (runCalls s (detachCalls s A)).emitted
      = s.emitted ++ (n1 ++ l1.map (fun e => (⟨.FRAMENODE, .REMOVE, e.1, e.2⟩ : Event)))
        ++ [⟨.FRAMENODE, .REMOVE, M, A⟩]
        ++ l2.map (fun e => (⟨.FRAMENODE, .REMOVE, e.1, e.2⟩ : Event)) := by
    rw [hemit, hl]
    simp [List.append_assoc]
  refine ⟨_, n1 ++ l1.map (fun e => (⟨.FRAMENODE, .REMOVE, e.1, e.2⟩ : Event)),
    l2.map (fun e => (⟨.FRAMENODE, .REMOVE, e.1, e.2⟩ : Event)),
    detachItem_eq s A hA hreg, hemit', ?_, ?_, ?_, ?_, ?_, ?_⟩
  · simp [getItem, (runCalls_registry (detachCalls s A) s).1, hreg]
  · simp only [hemit']
  · intro e he
    simp only [List.mem_append, List.mem_map] at he
    rcases he with (he | ⟨y, _, rfl⟩) | ⟨y, _, rfl⟩
    · exact hn1' e he
    · simp
    · simp
  · simp [getItem, mapFind_mapErase]
  · simp only [getFrameNode, mapIndex, hnone]
  · simp only [getMaps, List.map_eq_nil_iff, List.filter_eq_nil_iff, decide_eq_true_eq]
    exact hmaps

/-- Witness of C4: frame `A` at address `2` under the root, map `M` at
address `5` bound to `A`. -/
theorem detachItem_bound_frame_witness :
    ∃ s' pre post, detachItem (runOps env0 [.addChild 1 2, .setFrameNode 5 2]) 2 = .ok 2 s' ∧
      s'.emitted = (runOps env0 [.addChild 1 2, .setFrameNode 5 2]).emitted ++ pre
        ++ [⟨.FRAMENODE, .REMOVE, 5, 2⟩] ++ post ++ [⟨.ITEM, .REMOVE, 2, NULL⟩] ∧
      (getFrameNode s' 5).1 = NULL ∧ getMaps s' 2 = [] := by
  obtain ⟨s', pre, post, h1, _, _, h2, _, _, h3, h4⟩ :=
    detachItem_bound_frame (runOps env0 [.addChild 1 2, .setFrameNode 5 2]) 5 2
      (by decide) (by decide) (by decide) (by decide)
  exact ⟨s', pre, post, h1, h2, h3, h4⟩

/-! ## What each operation leaves alone -/

@[simp] theorem removeChild_fields (s : Environment) (p c : Ptr) :
    (removeChild s p c).items = s.items ∧ (removeChild s p c).objects = s.objects ∧
    (removeChild s p c).last_id = s.last_id ∧ (removeChild s p c).this = s.this ∧
    (removeChild s p c).cartesianMapGraph = s.cartesianMapGraph := by
  unfold removeChild; split_ifs <;> simp [emit]

@[simp] theorem removeChildLayer_fields (s : Environment) (p c : Ptr) :
    (removeChildLayer s p c).items = s.items ∧ (removeChildLayer s p c).objects = s.objects ∧
    (removeChildLayer s p c).last_id = s.last_id ∧
    (removeChildLayer s p c).this = s.this ∧
    (removeChildLayer s p c).frameNodeTree = s.frameNodeTree ∧
    (removeChildLayer s p c).cartesianMapGraph = s.cartesianMapGraph := by
  unfold removeChildLayer; split_ifs <;> simp [emit]

@[simp] theorem detachFrameNode_fields (s : Environment) (m n : Ptr) :
    (detachFrameNode s m n).items = s.items ∧ (detachFrameNode s m n).objects = s.objects ∧
    (detachFrameNode s m n).last_id = s.last_id ∧
    (detachFrameNode s m n).this = s.this ∧
    (detachFrameNode s m n).frameNodeTree = s.frameNodeTree := by
  unfold detachFrameNode; split_ifs <;> simp [emit]

theorem attachItem_fields (s : Environment) (x : Ptr) :
    (attachItem s x).state.frameNodeTree = s.frameNodeTree ∧
    (attachItem s x).state.layerTree = s.layerTree ∧
    (attachItem s x).state.operatorGraphInput = s.operatorGraphInput ∧
    (attachItem s x).state.operatorGraphOutput = s.operatorGraphOutput ∧
    (attachItem s x).state.cartesianMapGraph = s.cartesianMapGraph ∧
    (attachItem s x).state.this = s.this ∧
    (attachItem s x).state.rootNode = s.rootNode := by
  by_cases hx : x = NULL
  · simp [attachItem, hx, Exec.state]
  · rw [attachItem_eq s x hx]
    split_ifs <;> simp [Exec.state]

theorem attachIfNeeded_cases (s : Environment) (x : Ptr) :
    attachIfNeeded s x = .ok () s ∨ attachIfNeeded s x = attachItem s x := by
  unfold attachIfNeeded
  split_ifs
  · exact Or.inr rfl
  · exact Or.inl rfl

theorem attachIfNeeded_fields (s : Environment) (x : Ptr) :
    (attachIfNeeded s x).state.frameNodeTree = s.frameNodeTree ∧
    (attachIfNeeded s x).state.layerTree = s.layerTree ∧
    (attachIfNeeded s x).state.operatorGraphInput = s.operatorGraphInput ∧
    (attachIfNeeded s x).state.operatorGraphOutput = s.operatorGraphOutput ∧
    (attachIfNeeded s x).state.cartesianMapGraph = s.cartesianMapGraph ∧
    (attachIfNeeded s x).state.this = s.this ∧
    (attachIfNeeded s x).state.rootNode = s.rootNode := by
  rcases attachIfNeeded_cases s x with h | h
  · rw [h]; simp [Exec.state]
  · rw [h]; exact attachItem_fields s x

/-! ## The registry stays consistent -/

theorem RegistryOk_congr {s s' : Environment} (hi : s'.items = s.items)
    (ho : s'.objects = s.objects) (hl : s'.last_id = s.last_id) (ht : s'.this = s.this)
    (h : RegistryOk s) : RegistryOk s' := by
  unfold RegistryOk getUniqueId getEnvironment at *
  rw [hi, ho, hl, ht]
  exact h

theorem wrapLong_eq (x : Int) (h1 : LONG_MIN ≤ x) (h2 : x ≤ LONG_MAX) : wrapLong x = x := by
  have e1 : LONG_MIN = -9223372036854775808 := rfl
  have e2 : LONG_MAX = 9223372036854775807 := rfl
  unfold wrapLong
  omega

theorem RegistryOk_attachItem {s : Environment} (h : RegistryOk s)
    (hb : s.last_id < LONG_MAX) (x : Ptr) :
    RegistryOk (attachItem s x).state := by
  obtain ⟨hm, hk, hl⟩ := h
  have hNA : ITEM_NOT_ATTACHED = -1 := rfl
  have hw : wrapLong (s.last_id + 1) = s.last_id + 1 :=
    wrapLong_eq _ (by have e1 : LONG_MIN = -9223372036854775808 := rfl; omega) (by omega)
  by_cases hx : x = NULL
  · simpa [attachItem, hx, Exec.state] using ⟨hm, hk, hl⟩
  rw [attachItem_eq s x hx]
  by_cases hid : getUniqueId s x = ITEM_NOT_ATTACHED
  · have hnot : ∀ e ∈ s.items, e.2 ≠ x := by
      intro e he h2
      have := hk e he
      rw [h2, hid] at this
      exact this.2.1 this.1.symm
    rw [if_pos hid]
    split_ifs with hc
    · refine ⟨hm, ?_, by simp only [Exec.state, hw]; omega⟩
      intro e he
      have := hk e he
      simp only [Exec.state, getUniqueId, getEnvironment, setUniqueId,
        if_neg (hnot e he)] at this ⊢
      exact this
    · refine ⟨MapOk_mapAssign hm _ _, ?_, by simp only [Exec.state, hw]; omega⟩
      intro e he
      simp only [Exec.state] at he
      rcases mem_mapAssign he with he | he
      · subst he
        simp only [Exec.state, getUniqueId, getEnvironment, setEnv, setUniqueId, if_true,
          true_and, and_true]
        omega
      · have := hk e he
        simp only [Exec.state, getUniqueId, getEnvironment, setEnv, setUniqueId,
          if_neg (hnot e he)] at this ⊢
        exact this
  · rw [if_neg hid]
    split_ifs with hc
    · exact ⟨hm, hk, hl⟩
    · refine ⟨MapOk_mapAssign hm _ _, ?_, hl⟩
      intro e he
      simp only [Exec.state] at he
      rcases mem_mapAssign he with he | he
      · subst he
        simp only [Exec.state, getUniqueId, getEnvironment, setEnv, if_true, true_and,
          and_true] at hid ⊢
        exact hid
      · have := hk e he
        simp only [Exec.state, getUniqueId, getEnvironment, setEnv] at this ⊢
        by_cases h1 : e.2 = x
        · simp only [h1, if_true, and_true] at this ⊢
          exact ⟨this.1, this.2.1⟩
        · simpa only [if_neg h1] using this

theorem RegistryOk_attachIfNeeded {s : Environment} (h : RegistryOk s)
    (hb : s.last_id < LONG_MAX) (x : Ptr) :
    RegistryOk (attachIfNeeded s x).state := by
  rcases attachIfNeeded_cases s x with h1 | h1
  · rw [h1]; exact h
  · rw [h1]; exact RegistryOk_attachItem h hb x

theorem detachItem_state (s : Environment) (x : Ptr) :
    (detachItem s x).state = s ∨
    (detachItem s x).state =
      { runCalls s (detachCalls s x) with
        emitted := (runCalls s (detachCalls s x)).emitted ++ [⟨.ITEM, .REMOVE, x, NULL⟩],
        items := mapErase s.items (getUniqueId s x),
        objects := setEnv (setUniqueId s.objects x ITEM_NOT_ATTACHED) x NULL } := by
  have hr := runCalls_registry (detachCalls s x) s
  unfold detachItem
  split_ifs
  · exact Or.inl rfl
  · exact Or.inl rfl
  · right
    simp only [Exec.state, emit, getUniqueId, hr.1, hr.2.1]

theorem RegistryOk_detachItem {s : Environment} (h : RegistryOk s) (x : Ptr) :
    RegistryOk (detachItem s x).state := by
  rcases detachItem_state s x with h1 | h1
  · rw [h1]; exact h
  rw [h1]
  obtain ⟨hm, hk, hl⟩ := h
  have hr := runCalls_registry (detachCalls s x) s
  refine ⟨MapOk_mapErase hm _, ?_, by simpa [hr.2.2.1] using hl⟩
  intro e he
  simp only [mem_mapErase] at he
  have := hk e he.1
  have hne : e.2 ≠ x := by
    intro h2
    rw [h2] at this
    exact he.2 this.1.symm
  simp only [getUniqueId, getEnvironment, setEnv, setUniqueId, if_neg hne, hr.2.2.2.1]
    at this ⊢
  exact this

/-! ## The id counter while it does not overflow -/

theorem attachItem_last_id (s : Environment) (x : Ptr) (h1 : LONG_MIN ≤ s.last_id)
    (h2 : s.last_id < LONG_MAX) :
    s.last_id ≤ (attachItem s x).state.last_id ∧
    (attachItem s x).state.last_id ≤ s.last_id + 1 := by
  have hw : wrapLong (s.last_id + 1) = s.last_id + 1 := wrapLong_eq _ (by omega) (by omega)
  by_cases hx : x = NULL
  · simp [attachItem, hx, Exec.state]
  · rw [attachItem_eq s x hx]
    split_ifs <;> simp [Exec.state, hw]

theorem attachIfNeeded_last_id (s : Environment) (x : Ptr) (h1 : LONG_MIN ≤ s.last_id)
    (h2 : s.last_id < LONG_MAX) :
    s.last_id ≤ (attachIfNeeded s x).state.last_id ∧
    (attachIfNeeded s x).state.last_id ≤ s.last_id + 1 := by
  rcases attachIfNeeded_cases s x with h | h
  · rw [h]; simp [Exec.state]
  · rw [h]; exact attachItem_last_id s x h1 h2

theorem detachItem_last_id (s : Environment) (x : Ptr) :
    (detachItem s x).state.last_id = s.last_id := by
  rcases detachItem_state s x with h | h
  · rw [h]
  · rw [h]; exact (runCalls_registry (detachCalls s x) s).2.2.1

theorem attachTwice_last_id (s : Environment) (a b : Ptr) (h1 : LONG_MIN ≤ s.last_id)
    (h2 : s.last_id + 2 ≤ LONG_MAX) :
    (match attachIfNeeded s a with
      | .raised _ s1 => s.last_id ≤ s1.last_id ∧ s1.last_id ≤ s.last_id + 2
      | .ok _ s1 =>
        s.last_id ≤ (attachIfNeeded s1 b).state.last_id ∧
        (attachIfNeeded s1 b).state.last_id ≤ s.last_id + 2) := by
  have f1 := attachIfNeeded_last_id s a h1 (by omega)
  cases hh : attachIfNeeded s a with
  | raised e s1 =>
    rw [hh] at f1
    simp only [Exec.state] at f1 ⊢
    omega
  | ok v s1 =>
    rw [hh] at f1
    simp only [Exec.state] at f1
    have f2 := attachIfNeeded_last_id s1 b (by omega) (by omega)
    exact ⟨by omega, by omega⟩

theorem opRun_last_id (s : Environment) (o : Op) (h1 : LONG_MIN ≤ s.last_id)
    (h2 : s.last_id + 2 ≤ LONG_MAX) :
    s.last_id ≤ (o.run s).last_id ∧ (o.run s).last_id ≤ s.last_id + 2 := by
  cases o with
  | attachItem x =>
    have := attachItem_last_id s x h1 (by omega)
    simp only [Op.run]
    omega
  | detachItem x =>
    have := detachItem_last_id s x
    simp only [Op.run]
    omega
  | addChild p c =>
    have f1 := attachIfNeeded_last_id s c h1 (by omega)
    simp only [Op.run, addChild]
    cases hh : attachIfNeeded s c with
    | raised e s1 =>
      rw [hh] at f1
      simp only [Exec.state] at f1 ⊢
      omega
    | ok v s1 =>
      rw [hh] at f1
      simp only [Exec.state, emit] at f1 ⊢
      split_ifs
      · have := (removeChild_fields s1 (getParent s1 c) c).2.2.1
        simp only [this]
        omega
      · omega
  | addChildLayer p c =>
    have f1 := attachIfNeeded_last_id s c h1 (by omega)
    simp only [Op.run, addChildLayer]
    cases hh : attachIfNeeded s c with
    | raised e s1 =>
      rw [hh] at f1
      simp only [Exec.state] at f1 ⊢
      omega
    | ok v s1 =>
      rw [hh] at f1
      simp only [Exec.state, emit] at f1 ⊢
      split_ifs
      · have := (removeChildLayer_fields s1 (getParentLayer s1 c) c).2.2.1
        simp only [this]
        omega
      · omega
  | removeChild p c =>
    have := (removeChild_fields s p c).2.2.1
    simp only [Op.run, this]
    omega
  | removeChildLayer p c =>
    have := (removeChildLayer_fields s p c).2.2.1
    simp only [Op.run, this]
    omega
  | setFrameNode m n =>
    have h := attachTwice_last_id s n m h1 h2
    simp only [Op.run, setFrameNode]
    cases hh : attachIfNeeded s n with
    | raised e s1 => rw [hh] at h; exact h
    | ok v s1 =>
      rw [hh] at h
      simp only at h ⊢
      cases hh2 : attachIfNeeded s1 m with
      | raised e s2 => rw [hh2] at h; exact h
      | ok v s2 => rw [hh2] at h; exact h
  | detachFrameNode m n =>
    have := (detachFrameNode_fields s m n).2.2.1
    simp only [Op.run, this]
    omega
  | addInput a b =>
    have h := attachTwice_last_id s a b h1 h2
    simp only [Op.run, addInput]
    cases hh : attachIfNeeded s a with
    | raised e s1 => rw [hh] at h; exact h
    | ok v s1 =>
      rw [hh] at h
      simp only at h ⊢
      cases hh2 : attachIfNeeded s1 b with
      | raised e s2 => rw [hh2] at h; exact h
      | ok v s2 => rw [hh2] at h; exact h
  | addOutput a b =>
    have h := attachTwice_last_id s a b h1 h2
    simp only [Op.run, addOutput]
    cases hh : attachIfNeeded s a with
    | raised e s1 => rw [hh] at h; exact h
    | ok v s1 =>
      rw [hh] at h
      simp only at h ⊢
      cases hh2 : attachIfNeeded s1 b with
      | raised e s2 => rw [hh2] at h; exact h
      | ok v s2 => rw [hh2] at h; exact h
  | removeInput a b => exact ⟨le_refl _, by simp [Op.run, removeInput]⟩
  | removeOutput a b => exact ⟨le_refl _, by simp [Op.run, removeOutput]⟩
  | removeInputs a => exact ⟨le_refl _, by simp [Op.run, removeInputs]⟩
  | removeOutputs a => exact ⟨le_refl _, by simp [Op.run, removeOutputs]⟩

theorem runOps_last_id (ops : List Op) : ∀ s : Environment, LONG_MIN ≤ s.last_id →
    s.last_id + 2 * (ops.length : Int) ≤ LONG_MAX →
    s.last_id ≤ (runOps s ops).last_id ∧
    (runOps s ops).last_id ≤ s.last_id + 2 * (ops.length : Int) := by
  induction ops with
  | nil => intro s _ _; simp [runOps]
  | cons o t ih =>
    intro s h1 h2
    simp only [List.length_cons, Nat.cast_add, Nat.cast_one] at h2 ⊢
    have f1 := opRun_last_id s o h1 (by omega)
    have f2 := ih (o.run s) (by omega) (by omega)
    simp only [runOps, List.foldl_cons] at f2 ⊢
    omega

/-! ## The frame tree and the bindings stay maps -/

theorem TreesOk_attachIfNeeded {s : Environment} (h : TreesOk s) (x : Ptr) :
    TreesOk (attachIfNeeded s x).state := by
  have f := attachIfNeeded_fields s x
  exact ⟨by rw [f.1]; exact h.1, by rw [f.2.2.2.2.1]; exact h.2⟩

theorem TreesOk_removeChild {s : Environment} (h : TreesOk s) (p c : Ptr) :
    TreesOk (removeChild s p c) := by
  refine ⟨?_, by simpa using h.2⟩
  unfold removeChild
  split_ifs
  · exact MapOk_mapEraseFound h.1 c
  · exact h.1

theorem TreesOk_removeChildLayer {s : Environment} (h : TreesOk s) (p c : Ptr) :
    TreesOk (removeChildLayer s p c) :=
  ⟨by simpa using h.1, by simpa using h.2⟩

theorem TreesOk_detachFrameNode {s : Environment} (h : TreesOk s) (m n : Ptr) :
    TreesOk (detachFrameNode s m n) := by
  refine ⟨by simpa using h.1, ?_⟩
  unfold detachFrameNode
  split_ifs
  · exact MapOk_mapErase h.2 m
  · exact h.2

theorem TreesOk_callRun {s : Environment} (h : TreesOk s) (c : Call) : TreesOk (c.run s) := by
  cases c with
  | removeChild a b => exact TreesOk_removeChild h a b
  | removeChildLayer a b => exact TreesOk_removeChildLayer h a b
  | removeInput a b => exact h
  | removeOutput a b => exact h
  | detachFrameNode a b => exact TreesOk_detachFrameNode h a b

theorem TreesOk_runCalls (cs : List Call) : ∀ {s : Environment}, TreesOk s →
    TreesOk (runCalls s cs) := by
  induction cs with
  | nil => intro s h; exact h
  | cons c t ih =>
    intro s h
    simp only [runCalls, List.foldl_cons]
    exact ih (TreesOk_callRun h c)

theorem TreesOk_detachItem {s : Environment} (h : TreesOk s) (x : Ptr) :
    TreesOk (detachItem s x).state := by
  rcases detachItem_state s x with h1 | h1
  · rw [h1]; exact h
  · rw [h1]; exact TreesOk_runCalls _ h

theorem TreesOk_addChild {s : Environment} (h : TreesOk s) (p c : Ptr) :
    TreesOk (addChild s p c).state := by
  have h1 := TreesOk_attachIfNeeded h c
  unfold addChild
  cases hh : attachIfNeeded s c with
  | raised e s1 => rw [hh] at h1; exact h1
  | ok v s1 =>
    rw [hh] at h1
    simp only [Exec.state] at h1 ⊢
    have h2 : TreesOk (if getParent s1 c ≠ NULL then removeChild s1 (getParent s1 c) c
        else s1) := by
      split_ifs
      · exact TreesOk_removeChild h1 _ _
      · exact h1
    exact ⟨MapOk_mapInsert h2.1 _ _, h2.2⟩

theorem TreesOk_addChildLayer {s : Environment} (h : TreesOk s) (p c : Ptr) :
    TreesOk (addChildLayer s p c).state := by
  have h1 := TreesOk_attachIfNeeded h c
  unfold addChildLayer
  cases hh : attachIfNeeded s c with
  | raised e s1 => rw [hh] at h1; exact h1
  | ok v s1 =>
    rw [hh] at h1
    simp only [Exec.state] at h1 ⊢
    have h2 : TreesOk (if getParentLayer s1 c ≠ NULL then
        removeChildLayer s1 (getParentLayer s1 c) c else s1) := by
      split_ifs
      · exact TreesOk_removeChildLayer h1 _ _
      · exact h1
    exact h2

theorem TreesOk_setFrameNode {s : Environment} (h : TreesOk s) (m n : Ptr) :
    TreesOk (setFrameNode s m n).state := by
  have h1 := TreesOk_attachIfNeeded h n
  unfold setFrameNode
  cases hh : attachIfNeeded s n with
  | raised e s1 => rw [hh] at h1; exact h1
  | ok v s1 =>
    rw [hh] at h1
    simp only [Exec.state] at h1 ⊢
    have h2 := TreesOk_attachIfNeeded h1 m
    cases hh2 : attachIfNeeded s1 m with
    | raised e s2 => rw [hh2] at h2; exact h2
    | ok v s2 =>
      rw [hh2] at h2
      simp only [Exec.state] at h2 ⊢
      exact ⟨h2.1, MapOk_mapAssign h2.2 _ _⟩

theorem TreesOk_addInput {s : Environment} (h : TreesOk s) (op l : Ptr) :
    TreesOk (addInput s op l).state := by
  have h1 := TreesOk_attachIfNeeded h op
  unfold addInput
  cases hh : attachIfNeeded s op with
  | raised e s1 => rw [hh] at h1; exact h1
  | ok v s1 =>
    rw [hh] at h1
    simp only [Exec.state] at h1 ⊢
    have h2 := TreesOk_attachIfNeeded h1 l
    cases hh2 : attachIfNeeded s1 l with
    | raised e s2 => rw [hh2] at h2; exact h2
    | ok v s2 => rw [hh2] at h2; exact h2

theorem TreesOk_addOutput {s : Environment} (h : TreesOk s) (op l : Ptr) :
    TreesOk (addOutput s op l).state := by
  have h1 := TreesOk_attachIfNeeded h op
  unfold addOutput
  cases hh : attachIfNeeded s op with
  | raised e s1 => rw [hh] at h1; exact h1
  | ok v s1 =>
    rw [hh] at h1
    simp only [Exec.state] at h1 ⊢
    have h2 := TreesOk_attachIfNeeded h1 l
    cases hh2 : attachIfNeeded s1 l with
    | raised e s2 => rw [hh2] at h2; exact h2
    | ok v s2 => rw [hh2] at h2; exact h2

theorem TreesOk_attachItem {s : Environment} (h : TreesOk s) (x : Ptr) :
    TreesOk (attachItem s x).state := by
  have f := attachItem_fields s x
  exact ⟨by rw [f.1]; exact h.1, by rw [f.2.2.2.2.1]; exact h.2⟩

theorem TreesOk_opRun {s : Environment} (h : TreesOk s) (o : Op) : TreesOk (o.run s) := by
  cases o with
  | attachItem x => exact TreesOk_attachItem h x
  | detachItem x => exact TreesOk_detachItem h x
  | addChild p c => exact TreesOk_addChild h p c
  | addChildLayer p c => exact TreesOk_addChildLayer h p c
  | removeChild p c => exact TreesOk_removeChild h p c
  | removeChildLayer p c => exact TreesOk_removeChildLayer h p c
  | setFrameNode m n => exact TreesOk_setFrameNode h m n
  | detachFrameNode m n => exact TreesOk_detachFrameNode h m n
  | addInput a b => exact TreesOk_addInput h a b
  | addOutput a b => exact TreesOk_addOutput h a b
  | removeInput a b => exact h
  | removeOutput a b => exact h
  | removeInputs a => exact h
  | removeOutputs a => exact h

theorem TreesOk_runOps (ops : List Op) : ∀ {s : Environment}, TreesOk s →
    TreesOk (runOps s ops) := by
  induction ops with
  | nil => intro s h; exact h
  | cons o t ih =>
    intro s h
    simp only [runOps, List.foldl_cons]
    exact ih (TreesOk_opRun h o)

theorem TreesOk_create (this root : Ptr) (objects : Ptr → EnvironmentItem) :
    TreesOk (Environment.create this root objects) := by
  have f := attachItem_fields (Environment.init this root objects) root
  unfold Environment.create
  refine ⟨?_, ?_⟩
  · rw [f.1]; simp [Environment.init, MapOk]
  · rw [f.2.2.2.2.1]; simp [Environment.init, MapOk]

/-! ## Reachable states are consistent while the counter does not overflow -/

theorem StateOk_of (s : Environment) (h1 : RegistryOk s) (h2 : TreesOk s) : StateOk s :=
  ⟨h1, h2.1, h2.2⟩

theorem RegistryOk_opRun {s : Environment} (h : RegistryOk s)
    (hb : s.last_id + 2 ≤ LONG_MAX) (o : Op) : RegistryOk (o.run s) := by
  have h0 : LONG_MIN ≤ s.last_id := by
    have e1 : LONG_MIN = -9223372036854775808 := rfl
    have := h.2.2
    omega
  have one : ∀ a : Ptr, RegistryOk (attachIfNeeded s a).state :=
    fun a => RegistryOk_attachIfNeeded h (by omega) a
  have two : ∀ a b : Ptr,
      (match attachIfNeeded s a with
        | .raised _ s1 => RegistryOk s1
        | .ok _ s1 => RegistryOk (attachIfNeeded s1 b).state) := by
    intro a b
    have f1 := one a
    have f2 := attachIfNeeded_last_id s a h0 (by omega)
    cases hh : attachIfNeeded s a with
    | raised e s1 => rw [hh] at f1; exact f1
    | ok v s1 =>
      rw [hh] at f1 f2
      simp only [Exec.state] at f1 f2 ⊢
      exact RegistryOk_attachIfNeeded f1 (by omega) b
  cases o with
  | attachItem x => exact RegistryOk_attachItem h (by omega) x
  | detachItem x => exact RegistryOk_detachItem h x
  | addChild p c =>
    have f1 := one c
    simp only [Op.run, addChild]
    cases hh : attachIfNeeded s c with
    | raised e s1 => rw [hh] at f1; exact f1
    | ok v s1 =>
      rw [hh] at f1
      simp only [Exec.state, emit] at f1 ⊢
      split_ifs
      · exact RegistryOk_congr (by simp) (by simp) (by simp) (by simp) f1
      · exact RegistryOk_congr rfl rfl rfl rfl f1
  | addChildLayer p c =>
    have f1 := one c
    simp only [Op.run, addChildLayer]
    cases hh : attachIfNeeded s c with
    | raised e s1 => rw [hh] at f1; exact f1
    | ok v s1 =>
      rw [hh] at f1
      simp only [Exec.state, emit] at f1 ⊢
      split_ifs
      · exact RegistryOk_congr (by simp) (by simp) (by simp) (by simp) f1
      · exact RegistryOk_congr rfl rfl rfl rfl f1
  | removeChild p c =>
    show RegistryOk (removeChild s p c)
    exact RegistryOk_congr (by simp) (by simp) (by simp) (by simp) h
  | removeChildLayer p c =>
    show RegistryOk (removeChildLayer s p c)
    exact RegistryOk_congr (by simp) (by simp) (by simp) (by simp) h
  | setFrameNode m n =>
    have f := two n m
    simp only [Op.run, setFrameNode]
    cases hh : attachIfNeeded s n with
    | raised e s1 => rw [hh] at f; exact f
    | ok v s1 =>
      rw [hh] at f
      simp only at f ⊢
      cases hh2 : attachIfNeeded s1 m with
      | raised e s2 => rw [hh2] at f; exact f
      | ok v s2 =>
        rw [hh2] at f
        exact RegistryOk_congr rfl rfl rfl rfl f
  | detachFrameNode m n =>
    show RegistryOk (detachFrameNode s m n)
    exact RegistryOk_congr (by simp) (by simp) (by simp) (by simp) h
  | addInput a b =>
    have f := two a b
    simp only [Op.run, addInput]
    cases hh : attachIfNeeded s a with
    | raised e s1 => rw [hh] at f; exact f
    | ok v s1 =>
      rw [hh] at f
      simp only at f ⊢
      cases hh2 : attachIfNeeded s1 b with
      | raised e s2 => rw [hh2] at f; exact f
      | ok v s2 =>
        rw [hh2] at f
        exact RegistryOk_congr rfl rfl rfl rfl f
  | addOutput a b =>
    have f := two a b
    simp only [Op.run, addOutput]
    cases hh : attachIfNeeded s a with
    | raised e s1 => rw [hh] at f; exact f
    | ok v s1 =>
      rw [hh] at f
      simp only at f ⊢
      cases hh2 : attachIfNeeded s1 b with
      | raised e s2 => rw [hh2] at f; exact f
      | ok v s2 =>
        rw [hh2] at f
        exact RegistryOk_congr rfl rfl rfl rfl f
  | removeInput a b => exact RegistryOk_congr rfl rfl rfl rfl h
  | removeOutput a b => exact RegistryOk_congr rfl rfl rfl rfl h
  | removeInputs a => exact RegistryOk_congr rfl rfl rfl rfl h
  | removeOutputs a => exact RegistryOk_congr rfl rfl rfl rfl h

theorem StateOk_opRun {s : Environment} (h : StateOk s) (hb : s.last_id + 2 ≤ LONG_MAX)
    (o : Op) : StateOk (o.run s) :=
  StateOk_of _ (RegistryOk_opRun h.1 hb o) (TreesOk_opRun h.2 o)

theorem StateOk_runOps (ops : List Op) : ∀ {s : Environment}, StateOk s →
    s.last_id + 2 * (ops.length : Int) ≤ LONG_MAX → StateOk (runOps s ops) := by
  induction ops with
  | nil => intro s h _; exact h
  | cons o t ih =>
    intro s h hb
    simp only [List.length_cons, Nat.cast_add, Nat.cast_one] at hb
    have h0 : LONG_MIN ≤ s.last_id := by
      have e1 : LONG_MIN = -9223372036854775808 := rfl
      have := h.1.2.2
      omega
    have f1 := opRun_last_id s o h0 (by omega)
    simp only [runOps, List.foldl_cons]
    exact ih (StateOk_opRun h (by omega) o) (by omega)

theorem StateOk_init (this root : Ptr) (objects : Ptr → EnvironmentItem) :
    StateOk (Environment.init this root objects) := by
  refine ⟨⟨?_, ?_, ?_⟩, ?_, ?_⟩ <;> simp [Environment.init, MapOk]

theorem StateOk_create (this root : Ptr) (objects : Ptr → EnvironmentItem) :
    StateOk (Environment.create this root objects) :=
  StateOk_of _
    (RegistryOk_attachItem (StateOk_init this root objects).1
      (by simp [Environment.init, LONG_MAX]) root)
    (TreesOk_create this root objects)

theorem detachItem_this (s : Environment) (x : Ptr) :
    (detachItem s x).state.this = s.this := by
  rcases detachItem_state s x with h | h
  · rw [h]
  · rw [h]; exact (runCalls_registry (detachCalls s x) s).2.2.2.1

theorem opRun_this (s : Environment) (o : Op) : (o.run s).this = s.this := by
  have two : ∀ (s : Environment) (a b : Ptr),
      (match attachIfNeeded s a with
        | .raised _ s1 => s1.this = s.this
        | .ok _ s1 => (attachIfNeeded s1 b).state.this = s.this) := by
    intro s a b
    have h1 := (attachIfNeeded_fields s a).2.2.2.2.2.1
    cases hh : attachIfNeeded s a with
    | raised e s1 => rw [hh] at h1; exact h1
    | ok v s1 =>
      rw [hh] at h1
      exact ((attachIfNeeded_fields s1 b).2.2.2.2.2.1).trans h1
  cases o with
  | attachItem x => exact (attachItem_fields s x).2.2.2.2.2.1
  | detachItem x => exact detachItem_this s x
  | addChild p c =>
    have h1 := (attachIfNeeded_fields s c).2.2.2.2.2.1
    simp only [Op.run, addChild]
    cases hh : attachIfNeeded s c with
    | raised e s1 => rw [hh] at h1; exact h1
    | ok v s1 =>
      rw [hh] at h1
      simp only [Exec.state, emit] at h1 ⊢
      split_ifs <;> simp [h1]
  | addChildLayer p c =>
    have h1 := (attachIfNeeded_fields s c).2.2.2.2.2.1
    simp only [Op.run, addChildLayer]
    cases hh : attachIfNeeded s c with
    | raised e s1 => rw [hh] at h1; exact h1
    | ok v s1 =>
      rw [hh] at h1
      simp only [Exec.state, emit] at h1 ⊢
      split_ifs <;> simp [h1]
  | removeChild p c => simp [Op.run]
  | removeChildLayer p c => simp [Op.run]
  | setFrameNode m n =>
    have h := two s n m
    simp only [Op.run, setFrameNode]
    cases hh : attachIfNeeded s n with
    | raised e s1 => rw [hh] at h; exact h
    | ok v s1 =>
      rw [hh] at h
      simp only at h ⊢
      cases hh2 : attachIfNeeded s1 m with
      | raised e s2 => rw [hh2] at h; exact h
      | ok v s2 => rw [hh2] at h; exact h
  | detachFrameNode m n => simp [Op.run]
  | addInput a b =>
    have h := two s a b
    simp only [Op.run, addInput]
    cases hh : attachIfNeeded s a with
    | raised e s1 => rw [hh] at h; exact h
    | ok v s1 =>
      rw [hh] at h
      simp only at h ⊢
      cases hh2 : attachIfNeeded s1 b with
      | raised e s2 => rw [hh2] at h; exact h
      | ok v s2 => rw [hh2] at h; exact h
  | addOutput a b =>
    have h := two s a b
    simp only [Op.run, addOutput]
    cases hh : attachIfNeeded s a with
    | raised e s1 => rw [hh] at h; exact h
    | ok v s1 =>
      rw [hh] at h
      simp only at h ⊢
      cases hh2 : attachIfNeeded s1 b with
      | raised e s2 => rw [hh2] at h; exact h
      | ok v s2 => rw [hh2] at h; exact h
  | removeInput a b => rfl
  | removeOutput a b => rfl
  | removeInputs a => rfl
  | removeOutputs a => rfl

theorem runOps_this (ops : List Op) : ∀ s : Environment, (runOps s ops).this = s.this := by
  induction ops with
  | nil => intro s; rfl
  | cons o t ih =>
    intro s
    simp only [runOps, List.foldl_cons]
    exact (ih (o.run s)).trans (opRun_this s o)

theorem create_last_id (this root : Ptr) (objects : Ptr → EnvironmentItem) :
    (Environment.create this root objects).last_id ≤ 1 := by
  unfold Environment.create
  by_cases hx : root = NULL
  · simp [attachItem, hx, Exec.state, Environment.init]
  · rw [attachItem_eq _ root hx]
    have hw : wrapLong ((Environment.init this root objects).last_id + 1) = 1 := by
      simp [Environment.init, wrapLong]
    split_ifs <;> simp [Exec.state, hw] <;> simp [Environment.init]

/-- The registry side of the id invariant.  In every state reached from a
fresh environment by a sequence of calls of the public mutating operations
short enough for the id counter not to overflow, the entries of the
registry satisfy: every item is stored under the id it carries, `getItem`
of that id returns it, its back-reference is this environment, and two
distinct items carry different ids. -/
theorem registry_ids_unique (this root : Ptr) (objects : Ptr → EnvironmentItem)
    (ops : List Op) (hb : 1 + 2 * (ops.length : Int) ≤ LONG_MAX) :
    (∀ e ∈ (runOps (Environment.create this root objects) ops).items,
      getUniqueId (runOps (Environment.create this root objects) ops) e.2 = e.1 ∧
      getItem (runOps (Environment.create this root objects) ops) e.1 = e.2 ∧
      getEnvironment (runOps (Environment.create this root objects) ops) e.2 = this) ∧
    (∀ e ∈ (runOps (Environment.create this root objects) ops).items,
      ∀ e' ∈ (runOps (Environment.create this root objects) ops).items,
        e.2 ≠ e'.2 →
        getUniqueId (runOps (Environment.create this root objects) ops) e.2 ≠
          getUniqueId (runOps (Environment.create this root objects) ops) e'.2) := by
  have hc := create_last_id this root objects
  obtain ⟨⟨hm, hk, _⟩, _⟩ :=
    StateOk_runOps ops (StateOk_create this root objects) (by omega)
  have hthis : (runOps (Environment.create this root objects) ops).this = this :=
    (runOps_this ops _).trans (attachItem_fields _ root).2.2.2.2.2.1
  have hfind : ∀ e ∈ (runOps (Environment.create this root objects) ops).items,
      mapFind (runOps (Environment.create this root objects) ops).items e.1 = some e.2 :=
    fun e he => mapFind_of_mem hm he
  refine ⟨fun e he => ⟨(hk e he).1, by simp [getItem, hfind e he],
    by rw [(hk e he).2.2, hthis]⟩, ?_⟩
  intro e he e' he' hne hid
  rw [(hk e he).1, (hk e' he').1] at hid
  have h1 := hfind e he
  rw [hid, hfind e' he'] at h1
  exact hne (Option.some.inj h1).symm

/-- C5: two distinct attached items with the same id.  The items `6` and
`9` carry the pre-set id `1`.  In a fresh environment `attachItem(2)` gives
the frame node `2` the id `1`; `detachItem(6)`, of an item that was never
attached, passes the test of the id and erases the entry of `2`;
`attachItem(9)` then finds the id `1` free.  Afterwards `2` and `9` both
report `isAttached()`, refer to this environment and carry the id `1`; the
registry holds `9` under `1` and does not hold `2`. -/
theorem attached_ids_collide :
    isAttached (runOps (Environment.create 100 1 twinObjects)
      [.attachItem 2, .detachItem 6, .attachItem 9]) 2 = true ∧
    isAttached (runOps (Environment.create 100 1 twinObjects)
      [.attachItem 2, .detachItem 6, .attachItem 9]) 9 = true ∧
    getEnvironment (runOps (Environment.create 100 1 twinObjects)
      [.attachItem 2, .detachItem 6, .attachItem 9]) 2 = 100 ∧
    getEnvironment (runOps (Environment.create 100 1 twinObjects)
      [.attachItem 2, .detachItem 6, .attachItem 9]) 9 = 100 ∧
    getUniqueId (runOps (Environment.create 100 1 twinObjects)
      [.attachItem 2, .detachItem 6, .attachItem 9]) 2 = 1 ∧
    getUniqueId (runOps (Environment.create 100 1 twinObjects)
      [.attachItem 2, .detachItem 6, .attachItem 9]) 9 = 1 ∧
    (runOps (Environment.create 100 1 twinObjects)
      [.attachItem 2, .detachItem 6, .attachItem 9]).items = [(0, 1), (1, 9)] ∧
    (attachItem (Environment.create 100 1 twinObjects) 2).isOk = true ∧
    (detachItem (runOps (Environment.create 100 1 twinObjects) [.attachItem 2]) 6).isOk
      = true ∧
    (attachItem (runOps (Environment.create 100 1 twinObjects)
      [.attachItem 2, .detachItem 6]) 9).isOk = true := by
  decide

theorem attachIfNeeded_attached {s : Environment} {x : Ptr} (h : isAttached s x = true) :
    attachIfNeeded s x = .ok () s := by
  simp [attachIfNeeded, h]

theorem attachIfNeeded_ok_emitted {s s1 : Environment} {x : Ptr} {v : Unit}
    (h : attachIfNeeded s x = .ok v s1) :
    ∃ pre, s1.emitted = s.emitted ++ pre ∧ (∀ e ∈ pre, e.type = .ITEM) ∧
      (isAttached s x = true → pre = []) := by
  by_cases hat : isAttached s x = true
  · rw [attachIfNeeded_attached hat] at h
    injection h with _ h2
    subst h2
    exact ⟨[], by simp, by simp, fun _ => rfl⟩
  · have h1 : attachIfNeeded s x = attachItem s x := by
      simp [attachIfNeeded, hat]
    rw [h1] at h
    have hx : x ≠ NULL := by
      intro h0
      simp [attachItem, h0] at h
    rw [attachItem_eq s x hx] at h
    split_ifs at h <;> injection h with _ h2 <;> subst h2 <;>
      exact ⟨[_], rfl, by simp, fun h3 => absurd h3 hat⟩

theorem addChild_ok_eq {s s' : Environment} {p c : Ptr} (h : addChild s p c = .ok () s') :
    ∃ s1 pre, s1.frameNodeTree = s.frameNodeTree ∧ s1.emitted = s.emitted ++ pre ∧
      ((∀ e ∈ pre, e.type = .ITEM) ∧ (isAttached s c = true → pre = [])) ∧
      s' = emit
        { (if getParent s1 c ≠ NULL then removeChild s1 (getParent s1 c) c else s1) with
          frameNodeTree := mapInsert
            (if getParent s1 c ≠ NULL then removeChild s1 (getParent s1 c) c
              else s1).frameNodeTree c p }
        ⟨.FRAMENODE_TREE, .ADD, p, c⟩ := by
  unfold addChild at h
  have hf := attachIfNeeded_fields s c
  cases hh : attachIfNeeded s c with
  | raised e s1 => rw [hh] at h; exact Exec.noConfusion h
  | ok v s1 =>
    rw [hh] at h hf
    obtain ⟨pre, hpre, hty⟩ := attachIfNeeded_ok_emitted hh
    simp only [Exec.ok.injEq, true_and] at h
    exact ⟨s1, pre, hf.1, hpre, hty, h.symm⟩

/-- C10: (1) if the frame node `c` has the parent `p1` and `addChild(p2, c)`
returns, the events of the call end with `(FRAMENODE_TREE, REMOVE, p1, c)`
followed by `(FRAMENODE_TREE, ADD, p2, c)`; what precedes them are item
events only (the auto-attach of `c`) and nothing when `c` was attached;
afterwards `getParent(c)` is `p2` and, unless `p1 = p2`, `c` is not in
`getChildren(p1)`.  (2) The call returns whenever `c` is attached.  (3) If
`c` has no parent, the only frame-tree event is the `ADD` and
`getParent(c)` is `p2`.  (4) In every state reached from a fresh
environment by the public mutating operations a frame node is the child
end of at most one edge. -/
theorem addChild_replaces_parent :
    (∀ (s s' : Environment) (p1 p2 c : Ptr), MapOk s.frameNodeTree → p1 ≠ NULL →
      getParent s c = p1 → addChild s p2 c = .ok () s' →
      ∃ pre, s'.emitted = s.emitted ++ pre ++
          [⟨.FRAMENODE_TREE, .REMOVE, p1, c⟩, ⟨.FRAMENODE_TREE, .ADD, p2, c⟩] ∧
        ((∀ e ∈ pre, e.type = .ITEM) ∧ (isAttached s c = true → pre = [])) ∧
        getParent s' c = p2 ∧ (p1 ≠ p2 → c ∉ getChildren s' p1) ∧
        mapCount s'.frameNodeTree c ≤ 1) ∧
    (∀ (s : Environment) (p2 c : Ptr), isAttached s c = true →
      ∃ s', addChild s p2 c = .ok () s') ∧
    (∀ (s s' : Environment) (p2 c : Ptr), MapOk s.frameNodeTree →
      (∀ e ∈ s.frameNodeTree, e.2 ≠ NULL) →
      getParent s c = NULL → addChild s p2 c = .ok () s' →
      ∃ pre, s'.emitted = s.emitted ++ pre ++ [⟨.FRAMENODE_TREE, .ADD, p2, c⟩] ∧
        ((∀ e ∈ pre, e.type = .ITEM) ∧ (isAttached s c = true → pre = [])) ∧
        getParent s' c = p2) ∧
    (∀ (this root : Ptr) (objects : Ptr → EnvironmentItem) (ops : List Op) (c : Ptr),
      mapCount (runOps (Environment.create this root objects) ops).frameNodeTree c ≤ 1) := by
  refine ⟨?_, ?_, ?_, ?_⟩
  · intro s s' p1 p2 c hm hp1 hpar hok
    obtain ⟨s1, pre, hf, hpre, hty, hs'⟩ := addChild_ok_eq hok
    have hpar1 : getParent s1 c = p1 := by rw [← hpar]; simp [getParent, hf]
    rw [hpar1, if_pos hp1] at hs'
    have hrm : removeChild s1 p1 c =
        { s1 with emitted := s1.emitted ++ [⟨.FRAMENODE_TREE, .REMOVE, p1, c⟩],
                  frameNodeTree := mapEraseFound s1.frameNodeTree c } := by
      simp [removeChild, hpar1, emit]
    rw [hrm] at hs'
    subst hs'
    have hnone : mapFind (mapEraseFound s.frameNodeTree c) c = none := by
      rw [mapFind_mapEraseFound hm]; simp
    refine ⟨pre, by simp [emit, hpre], hty, ?_, ?_, ?_⟩
    · simp [getParent, emit, hf, mapFind_mapInsert hnone]
    · intro hne hc
      simp only [getChildren, emit, hf, List.mem_map, List.mem_filter, decide_eq_true_eq]
        at hc
      obtain ⟨e, ⟨he, he2⟩, he1⟩ := hc
      rcases mem_mapInsert he with h | h
      · rw [h] at he2
        exact hne he2.symm
      · exact mapFind_none_iff.1 hnone e h he1
    · apply mapCount_le_one
      simp only [emit, hf]
      exact MapOk_mapInsert (MapOk_mapEraseFound hm c) c p2
  · intro s p2 c hat
    simp [addChild, attachIfNeeded_attached hat]
  · intro s s' p2 c hm hnn hpar hok
    obtain ⟨s1, pre, hf, hpre, hty, hs'⟩ := addChild_ok_eq hok
    have hpar1 : getParent s1 c = NULL := by rw [← hpar]; simp [getParent, hf]
    rw [hpar1] at hs'
    simp only [ne_eq, not_true_eq_false, if_false] at hs'
    subst hs'
    have hnone : mapFind s.frameNodeTree c = none := by
      cases hfind : mapFind s.frameNodeTree c with
      | none => rfl
      | some q =>
        have hq : q = NULL := by simpa [getParent, hfind] using hpar
        exact absurd hq (hnn _ (mapFind_some_mem hfind))
    refine ⟨pre, by simp [emit, hpre], hty, ?_⟩
    simp [getParent, emit, hf, mapFind_mapInsert hnone]
  · intro this root objects ops c
    exact mapCount_le_one (TreesOk_runOps ops (TreesOk_create this root objects)).1 c

/-- Witness of C10: in the fresh environment the frame at address `2` is
moved from under the root (address `1`) to under the frame at `8`, and the
parentless frame at `8` is put under the root. -/
theorem addChild_replaces_parent_witness :
    (∃ pre, (runOps env0 [.addChild 1 2, .attachItem 8, .addChild 8 2]).emitted =
        (runOps env0 [.addChild 1 2, .attachItem 8]).emitted ++ pre ++
          [⟨.FRAMENODE_TREE, .REMOVE, 1, 2⟩, ⟨.FRAMENODE_TREE, .ADD, 8, 2⟩] ∧
      getParent (runOps env0 [.addChild 1 2, .attachItem 8, .addChild 8 2]) 2 = 8) ∧
    (∃ s', addChild (runOps env0 [.addChild 1 2, .attachItem 8]) 8 2 = .ok () s') ∧
    (∃ pre, (runOps env0 [.attachItem 8, .addChild 1 8]).emitted =
        (runOps env0 [.attachItem 8]).emitted ++ pre ++ [⟨.FRAMENODE_TREE, .ADD, 1, 8⟩] ∧
      getParent (runOps env0 [.attachItem 8, .addChild 1 8]) 8 = 1) := by
  refine ⟨?_, ?_, ?_⟩
  · obtain ⟨pre, h1, _, h2, _⟩ := addChild_replaces_parent.1
      (runOps env0 [.addChild 1 2, .attachItem 8])
      (runOps env0 [.addChild 1 2, .attachItem 8, .addChild 8 2]) 1 8 2
      (by decide) (by decide) (by decide) (by rfl)
    exact ⟨pre, h1, h2⟩
  · exact addChild_replaces_parent.2.1 (runOps env0 [.addChild 1 2, .attachItem 8]) 8 2
      (by decide)
  · obtain ⟨pre, h1, _, h2⟩ := addChild_replaces_parent.2.2.1
      (runOps env0 [.attachItem 8]) (runOps env0 [.attachItem 8, .addChild 1 8]) 1 8
      (by decide) (by decide) (by decide) (by rfl)
    exact ⟨pre, h1, h2⟩

/-! ## Auto-attach of `addChild` and `setFrameNode` -/

/-- C11, the code at the failing input: in a fresh environment with two
freshly constructed frame nodes at addresses `2` and `8`,
`addChild(2, 8)` returns and attaches the child `8` but not the parent
`2`: the parent is not in the registry and does not report
`isAttached()`, while the frame tree holds the edge.  The layer overload
behaves alike for the layers at `4` (parent) and `5` (child). -/
theorem addChild_parent_not_attached :
    isAttached env0 2 = false ∧ isAttached env0 8 = false ∧
    (addChild env0 2 8).error = none ∧
    (addChild env0 2 8).state.items = [(0, 1), (1, 8)] ∧
    isAttached (addChild env0 2 8).state 8 = true ∧
    isAttached (addChild env0 2 8).state 2 = false ∧
    (addChild env0 2 8).state.frameNodeTree = [(8, 2)] ∧
    (addChildLayer env0 4 5).error = none ∧
    (addChildLayer env0 4 5).state.items = [(0, 1), (1, 5)] ∧
    isAttached (addChildLayer env0 4 5).state 4 = false := by
  decide

/-- C13, the code at the failing input: the map at address `5` is bound to
the frame at `2`; `setFrameNode(5, 8)` emits the one event
`(FRAMENODE, ADD, 5, 8)` and no `(FRAMENODE, REMOVE, 5, 2)`. -/
theorem setFrameNode_rebind_events :
    (getFrameNode (runOps env0 [.attachItem 2, .attachItem 8, .attachItem 5,
      .setFrameNode 5 2]) 5).1 = 2 ∧
    (setFrameNode (runOps env0 [.attachItem 2, .attachItem 8, .attachItem 5,
      .setFrameNode 5 2]) 5 8).error = none ∧
    (setFrameNode (runOps env0 [.attachItem 2, .attachItem 8, .attachItem 5,
      .setFrameNode 5 2]) 5 8).state.emitted =
      (runOps env0 [.attachItem 2, .attachItem 8, .attachItem 5, .setFrameNode 5 2]).emitted
        ++ [⟨.FRAMENODE, .ADD, 5, 8⟩] ∧
    (⟨.FRAMENODE, .REMOVE, 5, 2⟩ : Event) ∉
      (setFrameNode (runOps env0 [.attachItem 2, .attachItem 8, .attachItem 5,
        .setFrameNode 5 2]) 5 8).state.emitted := by
  decide

theorem attachIfNeeded_ok_registered {s s1 : Environment} {y : Ptr} {v : Unit}
    (h : attachIfNeeded s y = .ok v s1) :
    (∀ x, mapFind s.items (getUniqueId s x) = some x →
      mapFind s1.items (getUniqueId s1 x) = some x) ∧
    (isAttached s y = false → mapFind s1.items (getUniqueId s1 y) = some y) ∧
    (∀ x, isAttached s x = true → s.this ≠ NULL → isAttached s1 x = true) ∧
    (s.this ≠ NULL → isAttached s1 y = true) ∧ s1.this = s.this ∧
    s1.cartesianMapGraph = s.cartesianMapGraph := by
  by_cases hat : isAttached s y = true
  · rw [attachIfNeeded_attached hat] at h
    injection h with _ h2
    subst h2
    exact ⟨fun _ hx => hx, fun h0 => by simp [hat] at h0, fun _ hx _ => hx, fun _ => hat, rfl,
      rfl⟩
  · have h1 : attachIfNeeded s y = attachItem s y := by
      simp [attachIfNeeded, hat]
    rw [h1] at h
    have hy : y ≠ NULL := by
      intro h0
      simp [attachItem, h0] at h
    rw [attachItem_eq s y hy] at h
    have key : ∀ (k : Int) (objs : Ptr → EnvironmentItem) (x : Ptr),
        mapFind s.items k = none → (objs x).unique_id = (s.objects x).unique_id ∨ x = y →
        (objs y).unique_id = k →
        mapFind s.items (getUniqueId s x) = some x →
        mapFind (mapAssign s.items k y) (objs x).unique_id = some x := by
      intro k objs x hk hx hyk hreg
      rw [mapFind_mapAssign]
      by_cases hxy : x = y
      · subst hxy; simp [hyk]
      · rcases hx with hx | hx
        · rw [hx, if_neg]
          · exact hreg
          · intro h3
            simp only [getUniqueId] at hreg
            rw [h3, hk] at hreg
            exact Option.noConfusion hreg
        · exact absurd hx hxy
    split_ifs at h with hid hc hc
    · have hnone := mapCount_eq_zero_iff.1 (not_not.1 hc)
      injection h with _ h2
      subst h2
      refine ⟨?_, ?_, ?_, ?_, rfl, rfl⟩
      · intro x hreg
        refine key s.last_id _ x hnone ?_ (by simp [setEnv, setUniqueId]) hreg
        by_cases hxy : x = y
        · exact Or.inr hxy
        · left; simp [setEnv, setUniqueId, hxy]
      · intro _
        simp [getUniqueId, setEnv, setUniqueId, mapFind_mapAssign]
      · intro x hx hthis
        simp only [isAttached, setEnv, setUniqueId, decide_eq_true_eq] at hx ⊢
        by_cases hxy : x = y
        · simp [hxy, hthis]
        · simpa [hxy] using hx
      · intro hthis
        simpa [isAttached, setEnv] using hthis
    · have hnone := mapCount_eq_zero_iff.1 (not_not.1 hc)
      injection h with _ h2
      subst h2
      refine ⟨?_, ?_, ?_, ?_, rfl, rfl⟩
      · intro x hreg
        refine key (getUniqueId s y) _ x hnone ?_ (by simp [setEnv, getUniqueId]) hreg
        by_cases hxy : x = y
        · exact Or.inr hxy
        · left; simp [setEnv, hxy]
      · intro _
        simp [getUniqueId, setEnv, mapFind_mapAssign]
      · intro x hx hthis
        simp only [isAttached, setEnv, decide_eq_true_eq] at hx ⊢
        by_cases hxy : x = y
        · simp [hxy, hthis]
        · simpa [hxy] using hx
      · intro hthis
        simpa [isAttached, setEnv] using hthis

theorem setFrameNode_ok_eq {s s' : Environment} {M N : Ptr}
    (h : setFrameNode s M N = .ok () s') :
    ∃ s1 s2, attachIfNeeded s N = .ok () s1 ∧ attachIfNeeded s1 M = .ok () s2 ∧
      s' = { s2 with cartesianMapGraph := mapAssign s2.cartesianMapGraph M N,
                     emitted := s2.emitted ++ [⟨.FRAMENODE, .ADD, M, N⟩] } := by
  unfold setFrameNode at h
  cases hh : attachIfNeeded s N with
  | raised e s1 => rw [hh] at h; exact Exec.noConfusion h
  | ok v s1 =>
    rw [hh] at h
    simp only at h
    cases hh2 : attachIfNeeded s1 M with
    | raised e s2 => rw [hh2] at h; exact Exec.noConfusion h
    | ok v2 s2 =>
      rw [hh2] at h
      simp only [Exec.ok.injEq, true_and] at h
      exact ⟨s1, s2, rfl, hh2, h.symm⟩

/-- C14: when `setFrameNode(M, N)` returns, `M` and `N` report
`isAttached()`, each of them is in the registry under its id (provided
that, before the call, it was not flagged attached without being in the
registry), `getFrameNode(M)` is `N`, `M` is in `getMaps(N)` and in
`getMaps(N')` for no other `N'`.  The call returns whenever both are
attached already.  In the scenario (fresh environment with root `R` at
address `1`, frame `A` at `2`, map `M` at `5`) `getParent(A)` is `R` and
`getFrameNode(M)` is `A`. -/
theorem setFrameNode_binds :
    (∀ (s s' : Environment) (M N : Ptr), s.this ≠ NULL → MapOk s.cartesianMapGraph →
      setFrameNode s M N = .ok () s' →
      isAttached s' M = true ∧ isAttached s' N = true ∧
      ((isAttached s M = true → mapFind s.items (getUniqueId s M) = some M) →
        mapFind s'.items (getUniqueId s' M) = some M) ∧
      ((isAttached s N = true → mapFind s.items (getUniqueId s N) = some N) →
        mapFind s'.items (getUniqueId s' N) = some N) ∧
      (getFrameNode s' M).1 = N ∧ M ∈ getMaps s' N ∧
      (∀ N', N' ≠ N → M ∉ getMaps s' N')) ∧
    (∀ (s : Environment) (M N : Ptr), isAttached s M = true → isAttached s N = true →
      ∃ s', setFrameNode s M N = .ok () s') ∧
    (getParent (runOps env0 [.attachItem 2, .addChild 1 2, .attachItem 5,
        .setFrameNode 5 2]) 2 = 1 ∧
      (getFrameNode (runOps env0 [.attachItem 2, .addChild 1 2, .attachItem 5,
        .setFrameNode 5 2]) 5).1 = 2) := by
  refine ⟨?_, ?_, by decide⟩
  · intro s s' M N hthis hmap hok
    obtain ⟨s1, s2, h1, h2, hs'⟩ := setFrameNode_ok_eq hok
    obtain ⟨a1, a2, a3, a4, a5, a6⟩ := attachIfNeeded_ok_registered h1
    obtain ⟨b1, b2, b3, b4, b5, b6⟩ := attachIfNeeded_ok_registered h2
    have hthis1 : s1.this ≠ NULL := by rw [a5]; exact hthis
    have hfind : mapFind (mapAssign s2.cartesianMapGraph M N) M = some N := by
      rw [mapFind_mapAssign]; simp
    have hok2 : MapOk (mapAssign s2.cartesianMapGraph M N) := by
      apply MapOk_mapAssign
      rw [b6, a6]; exact hmap
    subst hs'
    refine ⟨b4 hthis1, b3 N (a4 hthis) hthis1, ?_, ?_, ?_, ?_, ?_⟩
    · intro hM
      by_cases hat : isAttached s1 M = true
      · by_cases hat0 : isAttached s M = true
        · exact b1 M (a1 M (hM hat0))
        · -- `M` was attached by the first step, so `M = N`
          by_cases hMN : M = N
          · subst hMN
            exact b1 M (a2 (by simpa using hat0))
          · exfalso
            rcases attachIfNeeded_cases s N with hc | hc
            · rw [hc] at h1
              injection h1 with _ h3
              subst h3
              exact hat0 hat
            · rw [hc] at h1
              have hN : N ≠ NULL := by
                intro h0
                simp [attachItem, h0] at h1
              rw [attachItem_eq s N hN] at h1
              split_ifs at h1 <;> injection h1 with _ h3 <;> subst h3 <;>
                simp [isAttached, setEnv, setUniqueId, hMN] at hat hat0 <;>
                exact hat hat0
      · exact b2 (by simpa using hat)
    · intro hN
      by_cases hat0 : isAttached s N = true
      · exact b1 N (a1 N (hN hat0))
      · exact b1 N (a2 (by simpa using hat0))
    · simp [getFrameNode, mapIndex, hfind]
    · simp only [getMaps, List.mem_map, List.mem_filter, decide_eq_true_eq]
      exact ⟨(M, N), ⟨mapFind_some_mem hfind, rfl⟩, rfl⟩
    · intro N' hN' hmem
      simp only [getMaps, List.mem_map, List.mem_filter, decide_eq_true_eq] at hmem
      obtain ⟨e, ⟨he, he2⟩, he1⟩ := hmem
      have : mapFind (mapAssign s2.cartesianMapGraph M N) e.1 = some e.2 :=
        mapFind_of_mem hok2 he
      rw [he1, he2, hfind] at this
      exact hN' (Option.some.inj this).symm
  · intro s M N hM hN
    simp [setFrameNode, attachIfNeeded_attached hN, attachIfNeeded_attached hM]

/-- Witness of C14: binding the fresh map at address `5` to the fresh
frame at `2` in a fresh environment. -/
theorem setFrameNode_binds_witness :
    isAttached (setFrameNode env0 5 2).state 5 = true ∧
    isAttached (setFrameNode env0 5 2).state 2 = true ∧
    mapFind (setFrameNode env0 5 2).state.items
      (getUniqueId (setFrameNode env0 5 2).state 5) = some 5 ∧
    (getFrameNode (setFrameNode env0 5 2).state 5).1 = 2 := by
  obtain ⟨h1, h2, h3, _, h4, _⟩ := setFrameNode_binds.1 env0 (setFrameNode env0 5 2).state 5 2
    (by decide) (by decide) (by rfl)
  exact ⟨h1, h2, h3 (by decide), h4⟩

/-- C15: if the map `M` is bound to `N`, `detachFrameNode(M, N)` emits the
one event `(FRAMENODE, REMOVE, M, N)`, removes the binding of `M` and
changes nothing else: every other entry of the binding relation stays and
every other member of the environment is as before.  If `M` is unbound or
bound to another frame, `detachFrameNode(M, N)` returns the state
unchanged. -/
theorem detachFrameNode_exact :
    (∀ (s : Environment) (M N : Ptr), mapFind s.cartesianMapGraph M = some N →
      detachFrameNode s M N =
        { s with emitted := s.emitted ++ [⟨.FRAMENODE, .REMOVE, M, N⟩],
                 cartesianMapGraph := mapErase s.cartesianMapGraph M } ∧
      mapFind (detachFrameNode s M N).cartesianMapGraph M = none ∧
      (∀ M', M' ≠ M → mapFind (detachFrameNode s M N).cartesianMapGraph M' =
        mapFind s.cartesianMapGraph M') ∧
      (∀ e ∈ s.cartesianMapGraph, e.1 ≠ M → e ∈ (detachFrameNode s M N).cartesianMapGraph)) ∧
    (∀ (s : Environment) (M N : Ptr), mapFind s.cartesianMapGraph M ≠ some N →
      detachFrameNode s M N = s) := by
  constructor
  · intro s M N h
    rw [detachFrameNode_of_find s M N h]
    refine ⟨rfl, by simp [mapFind_mapErase], ?_, ?_⟩
    · intro M' hM'
      simp [mapFind_mapErase, hM']
    · intro e he hne
      simp only [mem_mapErase]
      exact ⟨he, hne⟩
  · intro s M N h
    unfold detachFrameNode
    rw [if_neg]
    rintro ⟨h1, h2⟩
    cases hf : mapFind s.cartesianMapGraph M with
    | none => exact h1 (mapCount_eq_zero_iff.2 hf)
    | some q =>
      rw [hf] at h h2
      simp only [Option.getD_some] at h2
      exact h (by rw [h2])

/-- Witness of C15: the map at address `5` bound to the frame at `2`;
unbinding it from `2` removes the binding, unbinding it from `8` is a
no-op. -/
theorem detachFrameNode_exact_witness :
    mapFind (detachFrameNode (setFrameNode env0 5 2).state 5 2).cartesianMapGraph 5 = none ∧
    detachFrameNode (setFrameNode env0 5 2).state 5 8 = (setFrameNode env0 5 2).state :=
  ⟨(detachFrameNode_exact.1 (setFrameNode env0 5 2).state 5 2 (by decide)).2.1,
   detachFrameNode_exact.2 (setFrameNode env0 5 2).state 5 8 (by decide)⟩

/-! ## Relative transforms -/

section Transforms

variable {G : Type} [Group G]

theorem walkToRoot_root (s : Environment) (T : Ptr → G) (fuel : Nat) (t : Ptr) (C : G)
    (h : isRoot s t = true) : walkToRoot s T fuel t C = some (.ok C) := by
  cases fuel <;> simp [walkToRoot, h]

theorem walkToRoot_of_reachesRoot (s : Environment) (T : Ptr → G) :
    ∀ (n : Nat) (t : Ptr) (C : G) (fuel : Nat), reachesRoot s n t = true → n ≤ fuel →
      walkToRoot s T fuel t C = some (.ok (chainTransform s T n t * C)) := by
  intro n
  induction n with
  | zero =>
    intro t C fuel h _
    simp only [reachesRoot] at h
    simp [walkToRoot_root s T fuel t C h, chainTransform]
  | succ n ih =>
    intro t C fuel h hle
    simp only [reachesRoot, Bool.and_eq_true, Bool.not_eq_true', decide_eq_true_eq] at h
    obtain ⟨⟨h1, h2⟩, h3⟩ := h
    obtain ⟨fuel', rfl⟩ : ∃ f, fuel = f + 1 := ⟨fuel - 1, by omega⟩
    simp only [walkToRoot, h1, Bool.false_eq_true, if_false, if_neg h2]
    rw [ih (getParent s t) (T t * C) fuel' h3 (by omega)]
    simp [chainTransform, mul_assoc]

theorem walkToRoot_of_endsDetached (s : Environment) (T : Ptr → G) :
    ∀ (n : Nat) (t : Ptr) (C : G) (fuel : Nat), endsDetached s n t = true → n < fuel →
      walkToRoot s T fuel t C = some (.error .detachedFrame) := by
  intro n
  induction n with
  | zero =>
    intro t C fuel h hlt
    simp only [endsDetached, Bool.and_eq_true, Bool.not_eq_true', decide_eq_true_eq] at h
    obtain ⟨fuel', rfl⟩ : ∃ f, fuel = f + 1 := ⟨fuel - 1, by omega⟩
    simp [walkToRoot, h.1, h.2]
  | succ n ih =>
    intro t C fuel h hlt
    simp only [endsDetached, Bool.and_eq_true, Bool.not_eq_true', decide_eq_true_eq] at h
    obtain ⟨⟨h1, h2⟩, h3⟩ := h
    obtain ⟨fuel', rfl⟩ : ∃ f, fuel = f + 1 := ⟨fuel - 1, by omega⟩
    simp only [walkToRoot, h1, Bool.false_eq_true, if_false, if_neg h2]
    exact ih (getParent s t) (T t * C) fuel' h3 (by omega)

theorem walkToRoot_of_cycle (s : Environment) (T : Ptr → G) :
    ∀ (fuel : Nat) (t : Ptr) (C : G),
      (∀ k, isRoot s (ancestor s k t) = false ∧ getParent s (ancestor s k t) ≠ NULL) →
      walkToRoot s T fuel t C = none := by
  intro fuel
  induction fuel with
  | zero =>
    intro t C h
    have := (h 0).1
    simp only [ancestor] at this
    simp [walkToRoot, this]
  | succ fuel ih =>
    intro t C h
    have h0 := h 0
    simp only [ancestor] at h0
    simp only [walkToRoot, h0.1, Bool.false_eq_true, if_false, if_neg h0.2]
    exact ih (getParent s t) (T t * C) (fun k => h (k + 1))

theorem reachesRoot_not_of_cycle (s : Environment) :
    ∀ (n : Nat) (t : Ptr),
      (∀ k, isRoot s (ancestor s k t) = false ∧ getParent s (ancestor s k t) ≠ NULL) →
      reachesRoot s n t = false := by
  intro n
  induction n with
  | zero =>
    intro t h
    have := (h 0).1
    simpa [reachesRoot, ancestor] using this
  | succ n ih =>
    intro t h
    simp only [reachesRoot, ih (getParent s t) (fun k => h (k + 1)), Bool.and_false]

/-- C16, as stated, fails: the frame node at address `2` is attached to a
fresh environment and has no parent; `relativeTransform(2, 2)` raises the
detached-frame error, whatever the bound on the iterations, and never
returns the identity. -/
theorem relativeTransform_self_counterexample :
    isAttached (attachItem env0 2).state 2 = true ∧
    getItem (attachItem env0 2).state 1 = 2 ∧
    ¬ ∃ fuel, relativeTransform (attachItem env0 2).state
        (fun _ => (1 : Multiplicative ℤ)) fuel 2 2 = some (.ok 1) := by
  refine ⟨by decide, by decide, ?_⟩
  rintro ⟨fuel, h⟩
  cases fuel with
  | zero =>
    have hr : isRoot (attachItem env0 2).state 2 = false := by decide
    simp [relativeTransform, walkToRoot, hr] at h
  | succ f =>
    have hw := walkToRoot_of_endsDetached (attachItem env0 2).state
      (fun _ => (1 : Multiplicative ℤ)) 0 2 1 (f + 1) (by decide) (by omega)
    simp [relativeTransform, hw] at h

/-- C16, amended: for a frame node `f` whose parent chain reaches the root
(in `n` steps), `relativeTransform(f, f)` returns the identity as soon as
the bound on the iterations is at least `n`; for a frame node whose parent
chain stops at a parentless node that is not the root, attached or not,
it raises the detached-frame error. -/
theorem relativeTransform_self (s : Environment) (T : Ptr → G) (n : Nat) (f : Ptr) :
    (reachesRoot s n f = true → ∀ fuel, n ≤ fuel →
      relativeTransform s T fuel f f = some (.ok 1)) ∧
    (endsDetached s n f = true → ∀ fuel, n < fuel →
      relativeTransform s T fuel f f = some (.error .detachedFrame)) := by
  constructor
  · intro h fuel hle
    simp [relativeTransform, walkToRoot_of_reachesRoot s T n f 1 fuel h hle]
  · intro h fuel hlt
    simp [relativeTransform, walkToRoot_of_endsDetached s T n f 1 fuel h hlt]

/-- Witness of the amended C16: the frame at address `2` under the root of
a fresh environment, and the parentless frame at `8`. -/
theorem relativeTransform_self_witness :
    relativeTransform (runOps env0 [.addChild 1 2, .attachItem 8])
      (fun _ => (1 : Multiplicative ℤ)) 1 2 2 = some (.ok 1) ∧
    relativeTransform (runOps env0 [.addChild 1 2, .attachItem 8])
      (fun _ => (1 : Multiplicative ℤ)) 1 8 8 = some (.error .detachedFrame) :=
  ⟨(relativeTransform_self (runOps env0 [.addChild 1 2, .attachItem 8]) _ 1 2).1
      (by decide) 1 (le_refl 1),
   (relativeTransform_self (runOps env0 [.addChild 1 2, .attachItem 8]) _ 0 8).2
      (by decide) 1 (by decide)⟩

/-- C17: if `parent` is the direct parent of the non-root frame node
`child` and the parent chain of `parent` reaches the root (in `n` steps),
`relativeTransform(child, parent)` returns the transform stored in `child`
as soon as the bound on the iterations is at least `n + 1`; in particular
for a direct child of the root (`n = 0`). -/
theorem relativeTransform_child_parent (s : Environment) (T : Ptr → G) (n : Nat)
    (child parent : Ptr) (hroot : isRoot s child = false) (hp : parent ≠ NULL)
    (hpar : getParent s child = parent) (hreach : reachesRoot s n parent = true)
    (fuel : Nat) (hfuel : n + 1 ≤ fuel) :
    relativeTransform s T fuel child parent = some (.ok (T child)) := by
  have hc : reachesRoot s (n + 1) child = true := by
    simp [reachesRoot, hroot, hpar, hp, hreach]
  simp [relativeTransform, walkToRoot_of_reachesRoot s T (n + 1) child 1 fuel hc hfuel,
    walkToRoot_of_reachesRoot s T n parent 1 fuel hreach (by omega), chainTransform, hpar]

/-- Witness of C17: frame `A` at address `2` directly under the root `R`
at address `1`, and frame `8` under `A`; the transform stored in a frame
is taken to be its address, in the additive group of the integers. -/
theorem relativeTransform_child_parent_witness :
    relativeTransform (runOps env0 [.addChild 1 2, .addChild 2 8])
      (fun q => Multiplicative.ofAdd (q : ℤ)) 2 2 1 = some (.ok (Multiplicative.ofAdd 2)) ∧
    relativeTransform (runOps env0 [.addChild 1 2, .addChild 2 8])
      (fun q => Multiplicative.ofAdd (q : ℤ)) 2 8 2 = some (.ok (Multiplicative.ofAdd 8)) :=
  ⟨relativeTransform_child_parent (runOps env0 [.addChild 1 2, .addChild 2 8]) _ 0 2 1
      (by decide) (by decide) (by decide) (by decide) 2 (by decide),
   relativeTransform_child_parent (runOps env0 [.addChild 1 2, .addChild 2 8]) _ 1 8 2
      (by decide) (by decide) (by decide) (by decide) 2 (by decide)⟩

theorem ancestor_self_loop (s : Environment) (t : Ptr) (h : getParent s t = t) :
    ∀ k, ancestor s k t = t := by
  intro k
  induction k with
  | zero => rfl
  | succ k ih => simp only [ancestor, h, ih]

/-- C18, as stated, fails: after `addChild(A, A)` on a fresh environment
(`A` at address `2`) the parent links of `A` never reach the root, yet
`relativeTransform(A, root)` does not fail with the detached-frame error:
its first loop runs for ever, so no bound on the iterations gives a
result. -/
theorem relativeTransform_cycle_counterexample :
    (addChild env0 2 2).error = none ∧
    (¬ ∃ n, reachesRoot (addChild env0 2 2).state n 2 = true) ∧
    (¬ ∃ fuel, relativeTransform (addChild env0 2 2).state
        (fun _ => (1 : Multiplicative ℤ)) fuel 2 1 = some (.error .detachedFrame)) := by
  have hloop : ∀ k, isRoot (addChild env0 2 2).state (ancestor (addChild env0 2 2).state k 2)
        = false ∧
      getParent (addChild env0 2 2).state (ancestor (addChild env0 2 2).state k 2) ≠ NULL := by
    intro k
    rw [ancestor_self_loop _ 2 (by decide) k]
    decide
  refine ⟨by decide, ?_, ?_⟩
  · rintro ⟨n, hn⟩
    rw [reachesRoot_not_of_cycle _ n 2 hloop] at hn
    exact Bool.noConfusion hn
  · rintro ⟨fuel, h⟩
    have hw := walkToRoot_of_cycle (addChild env0 2 2).state
      (fun _ => (1 : Multiplicative ℤ)) fuel 2 1 hloop
    simp [relativeTransform, hw] at h

/-- C18, amended: `relativeTransform(from, to)` returns a transform when
both nodes reach the root; it raises the detached-frame error when the
parent chain of `from` stops at a parentless node that is not the root,
and when `from` reaches the root and the chain of `to` stops at such a
node; the walk of the root is empty and returns at once; and when the
parent chain of `from` never stops (a cycle of parent links that avoids
the root) the call gives no result under any bound on the iterations. -/
theorem relativeTransform_outcomes (s : Environment) (T : Ptr → G) (from_ to_ : Ptr) :
    (∀ n m, reachesRoot s n from_ = true → reachesRoot s m to_ = true →
      ∀ fuel, n ≤ fuel → m ≤ fuel →
      relativeTransform s T fuel from_ to_ =
        some (.ok ((chainTransform s T m to_)⁻¹ * chainTransform s T n from_))) ∧
    (∀ n, endsDetached s n from_ = true → ∀ fuel, n < fuel →
      relativeTransform s T fuel from_ to_ = some (.error .detachedFrame)) ∧
    (∀ n m, reachesRoot s n from_ = true → endsDetached s m to_ = true →
      ∀ fuel, n ≤ fuel → m < fuel →
      relativeTransform s T fuel from_ to_ = some (.error .detachedFrame)) ∧
    (∀ fuel C, walkToRoot s T fuel s.rootNode C = some (.ok C)) ∧
    ((∀ k, isRoot s (ancestor s k from_) = false ∧ getParent s (ancestor s k from_) ≠ NULL) →
      ∀ fuel, relativeTransform s T fuel from_ to_ = none) := by
  refine ⟨?_, ?_, ?_, ?_, ?_⟩
  · intro n m hn hm fuel h1 h2
    simp [relativeTransform, walkToRoot_of_reachesRoot s T n from_ 1 fuel hn h1,
      walkToRoot_of_reachesRoot s T m to_ 1 fuel hm h2]
  · intro n hn fuel h1
    simp [relativeTransform, walkToRoot_of_endsDetached s T n from_ 1 fuel hn h1]
  · intro n m hn hm fuel h1 h2
    simp [relativeTransform, walkToRoot_of_reachesRoot s T n from_ 1 fuel hn h1,
      walkToRoot_of_endsDetached s T m to_ 1 fuel hm h2]
  · intro fuel C
    exact walkToRoot_root s T fuel s.rootNode C (by simp [isRoot])
  · intro h fuel
    simp [relativeTransform, walkToRoot_of_cycle s T fuel from_ 1 h]

/-- Witness of the amended C18: frame `2` under the root, frame `8` under
`2`, frame `9` attached without a parent; every stored transform is the
identity. -/
theorem relativeTransform_outcomes_witness :
    relativeTransform (runOps env0 [.addChild 1 2, .addChild 2 8, .attachItem 9])
      (fun _ => (1 : Multiplicative ℤ)) 2 8 2 = some (.ok (1⁻¹ * (1 * 1 * 1))) ∧
    relativeTransform (runOps env0 [.addChild 1 2, .addChild 2 8, .attachItem 9])
      (fun _ => (1 : Multiplicative ℤ)) 2 9 2 = some (.error .detachedFrame) ∧
    relativeTransform (runOps env0 [.addChild 1 2, .addChild 2 8, .attachItem 9])
      (fun _ => (1 : Multiplicative ℤ)) 2 8 9 = some (.error .detachedFrame) :=
  ⟨(relativeTransform_outcomes (runOps env0 [.addChild 1 2, .addChild 2 8, .attachItem 9])
      _ 8 2).1 2 1 (by decide) (by decide) 2 (by decide) (by decide),
   (relativeTransform_outcomes (runOps env0 [.addChild 1 2, .addChild 2 8, .attachItem 9])
      _ 9 2).2.1 0 (by decide) 2 (by decide),
   (relativeTransform_outcomes (runOps env0 [.addChild 1 2, .addChild 2 8, .attachItem 9])
      _ 8 9).2.2.1 2 0 (by decide) (by decide) 2 (by decide) (by decide)⟩

end Transforms

/-! ## Shape of the frame tree -/

theorem callRun_frameNodeTree_subset (s : Environment) (c : Call) :
    ∀ e ∈ (c.run s).frameNodeTree, e ∈ s.frameNodeTree := by
  intro e he
  cases c with
  | removeChild a b =>
    simp only [Call.run, removeChild] at he
    split_ifs at he
    · exact (mapEraseFound_sublist _ _).subset he
    · exact he
  | removeChildLayer a b => simpa [Call.run] using he
  | removeInput a b => exact he
  | removeOutput a b => exact he
  | detachFrameNode a b => simpa [Call.run] using he

theorem runCalls_frameNodeTree_subset (cs : List Call) : ∀ (s : Environment),
    ∀ e ∈ (runCalls s cs).frameNodeTree, e ∈ s.frameNodeTree := by
  induction cs with
  | nil => intro s e he; exact he
  | cons c t ih =>
    intro s e he
    simp only [runCalls, List.foldl_cons] at he
    exact callRun_frameNodeTree_subset s c e (ih (c.run s) e he)

theorem attach2_frameNodeTree (s : Environment) (a b : Ptr) :
    (match attachIfNeeded s a with
      | .raised _ s1 => s1.frameNodeTree = s.frameNodeTree
      | .ok _ s1 => (attachIfNeeded s1 b).state.frameNodeTree = s.frameNodeTree) := by
  have h1 := (attachIfNeeded_fields s a).1
  cases hh : attachIfNeeded s a with
  | raised e s1 => rw [hh] at h1; exact h1
  | ok v s1 =>
    rw [hh] at h1
    exact ((attachIfNeeded_fields s1 b).1).trans h1

theorem opRun_frameNodeTree_subset (s : Environment) (o : Op)
    (ho : ∀ p c, o ≠ .addChild p c) :
    ∀ e ∈ (o.run s).frameNodeTree, e ∈ s.frameNodeTree := by
  intro e he
  cases o with
  | attachItem x => rwa [Op.run, (attachItem_fields s x).1] at he
  | detachItem x =>
    simp only [Op.run] at he
    rcases detachItem_state s x with h | h
    · rwa [h] at he
    · rw [h] at he
      exact runCalls_frameNodeTree_subset _ s e he
  | addChild p c => exact absurd rfl (ho p c)
  | addChildLayer p c =>
    have h1 := (attachIfNeeded_fields s c).1
    simp only [Op.run, addChildLayer] at he
    cases hh : attachIfNeeded s c with
    | raised e' s1 => rw [hh] at h1 he; rwa [← h1]
    | ok v s1 =>
      rw [hh] at h1 he
      simp only [Exec.state, emit] at h1 he
      split_ifs at he
      · rw [(removeChildLayer_fields _ _ _).2.2.2.2.1] at he
        rwa [← h1]
      · rwa [← h1]
  | removeChild p c =>
    simp only [Op.run, removeChild] at he
    split_ifs at he
    · exact (mapEraseFound_sublist _ _).subset he
    · exact he
  | removeChildLayer p c => simpa [Op.run] using he
  | setFrameNode m n =>
    have h := attach2_frameNodeTree s n m
    simp only [Op.run, setFrameNode] at he
    cases hh : attachIfNeeded s n with
    | raised e' s1 => rw [hh] at h he; rwa [← h]
    | ok v s1 =>
      rw [hh] at h he
      simp only at h he
      cases hh2 : attachIfNeeded s1 m with
      | raised e' s2 => rw [hh2] at h he; rwa [← h]
      | ok v s2 => rw [hh2] at h he; simp only [Exec.state, emit] at h he; rwa [← h]
  | detachFrameNode m n => simpa [Op.run] using he
  | addInput a b =>
    have h := attach2_frameNodeTree s a b
    simp only [Op.run, addInput] at he
    cases hh : attachIfNeeded s a with
    | raised e' s1 => rw [hh] at h he; rwa [← h]
    | ok v s1 =>
      rw [hh] at h he
      simp only at h he
      cases hh2 : attachIfNeeded s1 b with
      | raised e' s2 => rw [hh2] at h he; rwa [← h]
      | ok v s2 => rw [hh2] at h he; simp only [Exec.state] at h he; rwa [← h]
  | addOutput a b =>
    have h := attach2_frameNodeTree s a b
    simp only [Op.run, addOutput] at he
    cases hh : attachIfNeeded s a with
    | raised e' s1 => rw [hh] at h he; rwa [← h]
    | ok v s1 =>
      rw [hh] at h he
      simp only at h he
      cases hh2 : attachIfNeeded s1 b with
      | raised e' s2 => rw [hh2] at h he; rwa [← h]
      | ok v s2 => rw [hh2] at h he; simp only [Exec.state] at h he; rwa [← h]
  | removeInput a b => exact he
  | removeOutput a b => exact he
  | removeInputs a => exact he
  | removeOutputs a => exact he

theorem FrameAcyclic_of_subset {s s' : Environment}
    (h : ∀ e ∈ s'.frameNodeTree, e ∈ s.frameNodeTree) (ha : FrameAcyclic s) :
    FrameAcyclic s' := by
  intro t ht
  exact ha t (Relation.TransGen.mono (fun a b hab => h (a, b) hab) ht)

theorem mapInsert_of_find {K V : Type} [LinearOrder K] {m : List (K × V)} {k : K} {v v' : V}
    (hm : MapOk m) (h : mapFind m k = some v) : mapInsert m k v' = m := by
  induction m with
  | nil => simp [mapFind] at h
  | cons x t ih =>
    obtain ⟨a, b⟩ := x
    rw [MapOk_cons] at hm
    simp only [mapFind] at h
    simp only [mapInsert]
    by_cases h1 : a = k
    · subst h1
      simp
    · rw [if_neg h1] at h
      have hlt : a < k := by
        have := hm.1 _ (mapFind_some_mem h)
        exact this
      rw [if_neg (not_lt.2 (le_of_lt hlt)), if_neg h1, ih hm.2 h]

/-- The edges after `addChild(p, c)`: either the tree is as before, or
the new edge from `c` to `p` has replaced whatever edge left `c`. -/
theorem addChild_edges (s : Environment) (p c : Ptr) (hm : MapOk s.frameNodeTree) :
    (addChild s p c).state.frameNodeTree = s.frameNodeTree ∨
    (∀ e ∈ (addChild s p c).state.frameNodeTree,
      e = (c, p) ∨ (e ∈ s.frameNodeTree ∧ e.1 ≠ c)) := by
  have hf := (attachIfNeeded_fields s c).1
  unfold addChild
  cases hh : attachIfNeeded s c with
  | raised e s1 => rw [hh] at hf; exact Or.inl hf
  | ok v s1 =>
    rw [hh] at hf
    simp only [Exec.state] at hf ⊢
    by_cases hpar : getParent s1 c ≠ NULL
    · right
      rw [if_pos hpar]
      have hrm : (removeChild s1 (getParent s1 c) c).frameNodeTree
          = mapEraseFound s.frameNodeTree c := by
        simp [removeChild, emit, hf]
      intro e he
      simp only [emit, hrm] at he
      rcases mem_mapInsert he with h | h
      · exact Or.inl h
      · refine Or.inr ⟨(mapEraseFound_sublist _ _).subset h, ?_⟩
        have hnone : mapFind (mapEraseFound s.frameNodeTree c) c = none := by
          rw [mapFind_mapEraseFound hm]; simp
        exact mapFind_none_iff.1 hnone e h
    · rw [if_neg hpar]
      simp only [emit, hf]
      cases hfind : mapFind s.frameNodeTree c with
      | none =>
        right
        intro e he
        rcases mem_mapInsert he with h | h
        · exact Or.inl h
        · exact Or.inr ⟨h, mapFind_none_iff.1 hfind e h⟩
      | some q =>
        left
        exact mapInsert_of_find hm hfind

theorem FrameAcyclic_addChild (s : Environment) (p c : Ptr) (hm : MapOk s.frameNodeTree)
    (ha : FrameAcyclic s) (hnot : ¬ Relation.ReflTransGen (frameEdge s) p c) :
    FrameAcyclic (addChild s p c).state := by
  rcases addChild_edges s p c hm with h | h
  · exact FrameAcyclic_of_subset (fun e he => h ▸ he) ha
  · -- a path of the new tree is a path of the old tree, or it passes through the new edge
    have key : ∀ t u, Relation.TransGen (frameEdge (addChild s p c).state) t u →
        Relation.TransGen (frameEdge s) t u ∨
        (Relation.ReflTransGen (frameEdge (addChild s p c).state) t c ∧
          Relation.ReflTransGen (frameEdge (addChild s p c).state) p u) := by
      intro t u htu
      induction htu with
      | single hab =>
        rcases h _ hab with h1 | h1
        · injection h1 with h2 h3
          subst h2; subst h3
          exact Or.inr ⟨Relation.ReflTransGen.refl, Relation.ReflTransGen.refl⟩
        · exact Or.inl (Relation.TransGen.single h1.1)
      | tail hab hbc ih =>
        rename_i b d
        rcases h _ hbc with h1 | h1
        · injection h1 with h2 h3
          subst h2; subst h3
          exact Or.inr ⟨hab.to_reflTransGen, Relation.ReflTransGen.refl⟩
        · rcases ih with ih | ih
          · exact Or.inl (Relation.TransGen.tail ih h1.1)
          · exact Or.inr ⟨ih.1, Relation.ReflTransGen.tail ih.2 hbc⟩
    -- a path of the new tree that ends in `c` comes from a path of the old tree
    have back : ∀ q, Relation.ReflTransGen (frameEdge (addChild s p c).state) q c →
        Relation.ReflTransGen (frameEdge s) q c := by
      intro q hq
      refine Relation.ReflTransGen.head_induction_on hq Relation.ReflTransGen.refl ?_
      intro a b hab _ ih
      by_cases hac : a = c
      · subst hac; exact Relation.ReflTransGen.refl
      · rcases h _ hab with h1 | h1
        · injection h1 with h2 _
          exact absurd h2 hac
        · exact Relation.ReflTransGen.head h1.1 ih
    intro t ht
    rcases key t t ht with h1 | ⟨h1, h2⟩
    · exact ha t h1
    · exact hnot (back p (h2.trans h1))

theorem detachItem_rootNode (s : Environment) (x : Ptr) :
    (detachItem s x).state.rootNode = s.rootNode := by
  rcases detachItem_state s x with h | h
  · rw [h]
  · rw [h]; exact (runCalls_registry (detachCalls s x) s).2.2.2.2

theorem opRun_rootNode (s : Environment) (o : Op) : (o.run s).rootNode = s.rootNode := by
  have two : ∀ (s : Environment) (a b : Ptr),
      (match attachIfNeeded s a with
        | .raised _ s1 => s1.rootNode = s.rootNode
        | .ok _ s1 => (attachIfNeeded s1 b).state.rootNode = s.rootNode) := by
    intro s a b
    have h1 := (attachIfNeeded_fields s a).2.2.2.2.2.2
    cases hh : attachIfNeeded s a with
    | raised e s1 => rw [hh] at h1; exact h1
    | ok v s1 =>
      rw [hh] at h1
      exact ((attachIfNeeded_fields s1 b).2.2.2.2.2.2).trans h1
  cases o with
  | attachItem x => exact (attachItem_fields s x).2.2.2.2.2.2
  | detachItem x => exact detachItem_rootNode s x
  | addChild p c =>
    have h1 := (attachIfNeeded_fields s c).2.2.2.2.2.2
    simp only [Op.run, addChild]
    cases hh : attachIfNeeded s c with
    | raised e s1 => rw [hh] at h1; exact h1
    | ok v s1 =>
      rw [hh] at h1
      simp only [Exec.state, emit] at h1 ⊢
      split_ifs
      · rw [← h1]; exact (callRun_registry s1 (.removeChild _ c)).2.2.2.2
      · exact h1
  | addChildLayer p c =>
    have h1 := (attachIfNeeded_fields s c).2.2.2.2.2.2
    simp only [Op.run, addChildLayer]
    cases hh : attachIfNeeded s c with
    | raised e s1 => rw [hh] at h1; exact h1
    | ok v s1 =>
      rw [hh] at h1
      simp only [Exec.state, emit] at h1 ⊢
      split_ifs
      · rw [← h1]; exact (callRun_registry s1 (.removeChildLayer _ c)).2.2.2.2
      · exact h1
  | removeChild p c => exact (callRun_registry s (.removeChild p c)).2.2.2.2
  | removeChildLayer p c => exact (callRun_registry s (.removeChildLayer p c)).2.2.2.2
  | setFrameNode m n =>
    have h := two s n m
    simp only [Op.run, setFrameNode]
    cases hh : attachIfNeeded s n with
    | raised e s1 => rw [hh] at h; exact h
    | ok v s1 =>
      rw [hh] at h
      simp only at h ⊢
      cases hh2 : attachIfNeeded s1 m with
      | raised e s2 => rw [hh2] at h; exact h
      | ok v s2 => rw [hh2] at h; exact h
  | detachFrameNode m n => exact (callRun_registry s (.detachFrameNode m n)).2.2.2.2
  | addInput a b =>
    have h := two s a b
    simp only [Op.run, addInput]
    cases hh : attachIfNeeded s a with
    | raised e s1 => rw [hh] at h; exact h
    | ok v s1 =>
      rw [hh] at h
      simp only at h ⊢
      cases hh2 : attachIfNeeded s1 b with
      | raised e s2 => rw [hh2] at h; exact h
      | ok v s2 => rw [hh2] at h; exact h
  | addOutput a b =>
    have h := two s a b
    simp only [Op.run, addOutput]
    cases hh : attachIfNeeded s a with
    | raised e s1 => rw [hh] at h; exact h
    | ok v s1 =>
      rw [hh] at h
      simp only at h ⊢
      cases hh2 : attachIfNeeded s1 b with
      | raised e s2 => rw [hh2] at h; exact h
      | ok v s2 => rw [hh2] at h; exact h
  | removeInput a b => rfl
  | removeOutput a b => rfl
  | removeInputs a => rfl
  | removeOutputs a => rfl

/-- One step keeps the tree acyclic and the root parentless, provided an
`addChild(p, c)` is called with `c` not the root and neither `p` nor an
ancestor of `p`. -/
theorem opRun_keeps_tree (s : Environment) (o : Op) (hm : MapOk s.frameNodeTree)
    (ho : ∀ p c, o = .addChild p c →
      c ≠ s.rootNode ∧ ¬ Relation.ReflTransGen (frameEdge s) p c)
    (ha : FrameAcyclic s) (hr : mapFind s.frameNodeTree s.rootNode = none) :
    FrameAcyclic (o.run s) ∧ mapFind (o.run s).frameNodeTree (o.run s).rootNode = none := by
  rw [opRun_rootNode]
  by_cases hadd : ∃ p c, o = .addChild p c
  · obtain ⟨p, c, rfl⟩ := hadd
    obtain ⟨hc, hnot⟩ := ho p c rfl
    refine ⟨FrameAcyclic_addChild s p c hm ha hnot, ?_⟩
    simp only [Op.run]
    rcases addChild_edges s p c hm with h | h
    · rw [h]; exact hr
    · rw [mapFind_none_iff] at hr ⊢
      intro e he
      rcases h e he with h1 | h1
      · rw [h1]; exact hc
      · exact hr e h1.1
  · have hsub := opRun_frameNodeTree_subset s o (fun p c h => hadd ⟨p, c, h⟩)
    refine ⟨FrameAcyclic_of_subset hsub ha, ?_⟩
    rw [mapFind_none_iff] at hr ⊢
    exact fun e he => hr e (hsub e he)

theorem runOps_keeps_tree (ops : List Op) : ∀ (s : Environment), TreesOk s →
    addChildGuarded s ops → FrameAcyclic s → mapFind s.frameNodeTree s.rootNode = none →
    FrameAcyclic (runOps s ops) ∧
      mapFind (runOps s ops).frameNodeTree (runOps s ops).rootNode = none := by
  induction ops with
  | nil => intro s _ _ ha hr; exact ⟨ha, hr⟩
  | cons o t ih =>
    intro s hs hg ha hr
    obtain ⟨h1, h2⟩ := opRun_keeps_tree s o hs.1 hg.1 ha hr
    simp only [runOps, List.foldl_cons]
    exact ih (o.run s) (TreesOk_opRun hs o) hg.2 h1 h2

/-- C12, as stated, fails: on a fresh environment `addChild(A, A)` makes
`A` its own parent, and `addChild(A, B)` followed by `addChild(B, A)`
makes a cycle of two (`A` at address `2`, `B` at `8`); an attached frame
node can be without a parent, and `addChild(A, root)` gives the root a
parent. -/
theorem frameTree_counterexample :
    getParent (runOps env0 [.addChild 2 2]) 2 = 2 ∧
    ¬ FrameAcyclic (runOps env0 [.addChild 2 2]) ∧
    (getParent (runOps env0 [.addChild 2 8, .addChild 8 2]) 2 = 8 ∧
      getParent (runOps env0 [.addChild 2 8, .addChild 8 2]) 8 = 2) ∧
    ¬ FrameAcyclic (runOps env0 [.addChild 2 8, .addChild 8 2]) ∧
    (isAttached (runOps env0 [.attachItem 2]) 2 = true ∧
      isRoot (runOps env0 [.attachItem 2]) 2 = false ∧
      getParent (runOps env0 [.attachItem 2]) 2 = NULL) ∧
    getParent (runOps env0 [.attachItem 2, .addChild 2 1]) 1 = 2 := by
  refine ⟨by decide, ?_, by decide, ?_, by decide, by decide⟩
  · intro h
    exact h 2 (Relation.TransGen.single (by unfold frameEdge; decide))
  · intro h
    exact h 2 (Relation.TransGen.tail
      (Relation.TransGen.single (show frameEdge _ 2 8 by unfold frameEdge; decide))
      (show frameEdge _ 8 2 by unfold frameEdge; decide))

/-- C12, amended: (1) in every state reached from a fresh environment by
the public mutating operations a frame node is the child end of at most
one edge; (2) in a fresh environment the frame tree is empty, so the root
has no parent and there is no cycle; (3) along a sequence of operations
in which every `addChild(p, c)` is called with `c` not the root and
neither `p` nor an ancestor of `p`, the root stays without a parent and
no frame node is reached from itself by parent links.  Nothing makes an
attached frame node have a parent, and `addChild` itself refuses no
pair. -/
theorem frameTree_shape (this root : Ptr) (objects : Ptr → EnvironmentItem) (ops : List Op) :
    (∀ c, mapCount (runOps (Environment.create this root objects) ops).frameNodeTree c ≤ 1) ∧
    ((Environment.create this root objects).frameNodeTree = [] ∧
      getParent (Environment.create this root objects) root = NULL ∧
      FrameAcyclic (Environment.create this root objects)) ∧
    (addChildGuarded (Environment.create this root objects) ops →
      FrameAcyclic (runOps (Environment.create this root objects) ops) ∧
      getParent (runOps (Environment.create this root objects) ops) root = NULL) := by
  have hnil : (Environment.create this root objects).frameNodeTree = [] :=
    (attachItem_fields _ root).1
  have hroot : (Environment.create this root objects).rootNode = root :=
    (attachItem_fields _ root).2.2.2.2.2.2
  have hacyc : FrameAcyclic (Environment.create this root objects) := by
    intro t ht
    have : ∀ a b, ¬ frameEdge (Environment.create this root objects) a b := by
      intro a b hab
      simp [frameEdge, hnil] at hab
    cases ht with
    | single h => exact this _ _ h
    | tail _ h => exact this _ _ h
  refine ⟨?_, ⟨hnil, by simp [getParent, hnil, mapFind], hacyc⟩, ?_⟩
  · intro c
    exact mapCount_le_one (TreesOk_runOps ops (TreesOk_create this root objects)).1 c
  · intro hg
    obtain ⟨h1, h2⟩ := runOps_keeps_tree ops _ (TreesOk_create this root objects) hg hacyc
      (by rw [hnil]; rfl)
    refine ⟨h1, ?_⟩
    have hr : (runOps (Environment.create this root objects) ops).rootNode = root := by
      have : ∀ (l : List Op) (s : Environment), (runOps s l).rootNode = s.rootNode := by
        intro l
        induction l with
        | nil => intro s; rfl
        | cons o t ih =>
          intro s
          simp only [runOps, List.foldl_cons]
          exact (ih (o.run s)).trans (opRun_rootNode s o)
      rw [this, hroot]
    rw [hr] at h2
    simp [getParent, h2]

/-- Witness of the amended C12: frame `2` under the root, frame `8` under
`2`, then `8` moved under the root. -/
theorem frameTree_shape_witness :
    FrameAcyclic (runOps env0 [.addChild 1 2, .addChild 2 8, .addChild 1 8]) ∧
    getParent (runOps env0 [.addChild 1 2, .addChild 2 8, .addChild 1 8]) 1 = NULL := by
  refine (frameTree_shape 100 1 freshObjects [.addChild 1 2, .addChild 2 8, .addChild 1 8]).2.2 ?_
  have e1 : ∀ a b, ¬ frameEdge env0 a b := by
    intro a b h
    have : env0.frameNodeTree = [] := by decide
    simp [frameEdge, this] at h
  have e2 : ∀ a b, frameEdge (Op.run env0 (.addChild 1 2)) a b → a = 2 ∧ b = 1 := by
    intro a b h
    have : (Op.run env0 (.addChild 1 2)).frameNodeTree = [(2, 1)] := by decide
    simpa [frameEdge, this] using h
  have e3 : ∀ a b, frameEdge (Op.run (Op.run env0 (.addChild 1 2)) (.addChild 2 8)) a b →
      (a = 2 ∧ b = 1) ∨ (a = 8 ∧ b = 2) := by
    intro a b h
    have : (Op.run (Op.run env0 (.addChild 1 2)) (.addChild 2 8)).frameNodeTree
        = [(2, 1), (8, 2)] := by decide
    simpa [frameEdge, this] using h
  refine ⟨?_, ?_, ?_, trivial⟩
  · intro p c h
    injection h with h1 h2
    subst h1; subst h2
    refine ⟨by decide, ?_⟩
    intro hp
    cases hp with
    | tail _ h => exact e1 _ _ h
  · intro p c h
    injection h with h1 h2
    subst h1; subst h2
    refine ⟨by decide, ?_⟩
    intro hp
    cases hp with
    | tail _ h => exact absurd (e2 _ _ h).2 (by decide)
  · intro p c h
    injection h with h1 h2
    subst h1; subst h2
    refine ⟨by decide, ?_⟩
    intro hp
    cases hp with
    | tail _ h =>
      rcases e3 _ _ h with h3 | h3
      · exact absurd h3.2 (by decide)
      · exact absurd h3.2 (by decide)

/-! ## Depth of the nodes under the root -/

theorem mem_getChildren (s : Environment) (p c : Ptr) :
    c ∈ getChildren s p ↔ (c, p) ∈ s.frameNodeTree := by
  simp only [getChildren, List.mem_map, List.mem_filter, decide_eq_true_eq]
  constructor
  · rintro ⟨e, ⟨he, h2⟩, h1⟩
    rw [← h1, ← h2]
    exact he
  · intro h
    exact ⟨(c, p), ⟨h, rfl⟩, rfl⟩

theorem getChildren_nodup (s : Environment) (hm : MapOk s.frameNodeTree) (p : Ptr) :
    (getChildren s p).Nodup := by
  have h1 : (s.frameNodeTree.map Prod.fst).Nodup :=
    List.Pairwise.imp (fun h => ne_of_lt h) hm
  exact List.Nodup.sublist ((List.filter_sublist _).map _) h1

theorem edge_facts {s : Environment} (hs : FrameTreeOk s) {c p : Ptr}
    (h : (c, p) ∈ s.frameNodeTree) :
    getParent s c = p ∧ p ≠ NULL ∧ isRoot s c = false := by
  refine ⟨by simp [getParent, mapFind_of_mem hs.1 h], hs.2.2 _ h, ?_⟩
  simp only [isRoot, decide_eq_false_iff_not]
  intro hc
  exact mapFind_none_iff.1 hs.2.1 _ h hc

theorem frameEdge_rightUnique {s : Environment} (hm : MapOk s.frameNodeTree) :
    Relator.RightUnique (frameEdge s) := by
  intro a b c hab hac
  have h1 := mapFind_of_mem hm hab
  have h2 := mapFind_of_mem hm hac
  rw [h1] at h2
  exact Option.some.inj h2

theorem reachesRoot_child {s : Environment} (hs : FrameTreeOk s) {c p : Ptr} {k : Nat}
    (hk : reachesRoot s k p = true) (h : (c, p) ∈ s.frameNodeTree) :
    reachesRoot s (k + 1) c = true := by
  obtain ⟨h1, h2, h3⟩ := edge_facts hs h
  simp [reachesRoot, h1, h2, h3, hk]

theorem reachesRoot_unique (s : Environment) :
    ∀ (n m : Nat) (t : Ptr), reachesRoot s n t = true → reachesRoot s m t = true → n = m := by
  intro n
  induction n with
  | zero =>
    intro m t h1 h2
    cases m with
    | zero => rfl
    | succ m =>
      simp only [reachesRoot, Bool.and_eq_true, Bool.not_eq_true'] at h1 h2
      rw [h1] at h2
      exact Bool.noConfusion h2.1.1
  | succ n ih =>
    intro m t h1 h2
    cases m with
    | zero =>
      simp only [reachesRoot, Bool.and_eq_true, Bool.not_eq_true'] at h1 h2
      rw [h2] at h1
      exact Bool.noConfusion h1.1.1
    | succ m =>
      simp only [reachesRoot, Bool.and_eq_true] at h1 h2
      rw [ih m _ h1.2 h2.2]

theorem reachesRoot_step {s : Environment} (hs : FrameTreeOk s) {t u : Ptr} {k : Nat}
    (hk : reachesRoot s k t = true) (h : frameEdge s t u) :
    ∃ k', k = k' + 1 ∧ reachesRoot s k' u = true := by
  obtain ⟨h1, _, h3⟩ := edge_facts hs h
  cases k with
  | zero =>
    simp only [reachesRoot] at hk
    rw [hk] at h3
    exact Bool.noConfusion h3
  | succ k =>
    simp only [reachesRoot, Bool.and_eq_true, h1] at hk
    exact ⟨k, rfl, hk.2⟩

theorem reachesRoot_path {s : Environment} (hs : FrameTreeOk s) {t u : Ptr}
    (h : Relation.TransGen (frameEdge s) t u) :
    ∀ k, reachesRoot s k t = true → ∃ k', k' < k ∧ reachesRoot s k' u = true := by
  induction h with
  | single hab =>
    intro k hk
    obtain ⟨k', h1, h2⟩ := reachesRoot_step hs hk hab
    exact ⟨k', by omega, h2⟩
  | tail _ hbc ih =>
    intro k hk
    obtain ⟨k1, h1, h2⟩ := ih k hk
    obtain ⟨k', h3, h4⟩ := reachesRoot_step hs h2 hbc
    exact ⟨k', by omega, h4⟩

theorem no_cycle_of_reachesRoot {s : Environment} (hs : FrameTreeOk s) {t : Ptr} {k : Nat}
    (hk : reachesRoot s k t = true) : ¬ Relation.TransGen (frameEdge s) t t := by
  intro h
  obtain ⟨k', h1, h2⟩ := reachesRoot_path hs h k hk
  have := reachesRoot_unique s k k' t hk h2
  omega

theorem reachesRoot_of_path {s : Environment} (hs : FrameTreeOk s) {t u : Ptr}
    (h : Relation.ReflTransGen (frameEdge s) t u) :
    ∀ k, reachesRoot s k u = true → ∃ k', reachesRoot s k' t = true := by
  induction h with
  | refl => intro k hk; exact ⟨k, hk⟩
  | tail _ hbc ih =>
    intro k hk
    exact ih (k + 1) (reachesRoot_child hs hk hbc)

theorem reachesRoot_ancestor (s : Environment) :
    ∀ (i k : Nat) (t : Ptr), reachesRoot s k t = true → i ≤ k →
      reachesRoot s (k - i) (ancestor s i t) = true := by
  intro i
  induction i with
  | zero => intro k t h _; simpa [ancestor] using h
  | succ i ih =>
    intro k t h hle
    obtain ⟨k', rfl⟩ : ∃ k', k = k' + 1 := ⟨k - 1, by omega⟩
    simp only [reachesRoot, Bool.and_eq_true] at h
    have := ih k' (getParent s t) h.2 (by omega)
    simpa [ancestor] using this

/-- A node that reaches the root does so in at most as many parent steps
as the frame tree has edges. -/
theorem reachesRoot_le_length (s : Environment) (k : Nat) (t : Ptr)
    (h : reachesRoot s k t = true) : k ≤ s.frameNodeTree.length := by
  have hnodup : ((List.range k).map (fun i => ancestor s i t)).Nodup := by
    refine List.Nodup.map_on ?_ (List.nodup_range k)
    intro i hi j hj hij
    have h1 := reachesRoot_ancestor s i k t h (le_of_lt (List.mem_range.1 hi))
    have h2 := reachesRoot_ancestor s j k t h (le_of_lt (List.mem_range.1 hj))
    rw [hij] at h1
    have := reachesRoot_unique s _ _ _ h1 h2
    have := List.mem_range.1 hi
    have := List.mem_range.1 hj
    omega
  have hsub : (List.range k).map (fun i => ancestor s i t) ⊆ s.frameNodeTree.map Prod.fst := by
    intro x hx
    simp only [List.mem_map, List.mem_range] at hx
    obtain ⟨i, hi, rfl⟩ := hx
    have h1 := reachesRoot_ancestor s i k t h (le_of_lt hi)
    obtain ⟨m, hm⟩ : ∃ m, k - i = m + 1 := ⟨k - i - 1, by omega⟩
    rw [hm] at h1
    simp only [reachesRoot, Bool.and_eq_true, decide_eq_true_eq] at h1
    have h2 := h1.1.2
    cases hf : mapFind s.frameNodeTree (ancestor s i t) with
    | none => simp [getParent, hf, NULL] at h2
    | some q => exact List.mem_map_of_mem Prod.fst (mapFind_some_mem hf)
  have := (List.subperm_of_subset hnodup hsub).length_le
  simpa using this

/-! ## Replaying the frame tree to a new handler -/

theorem occursBefore_cons {α : Type} {x y z : α} {l : List α} (h : occursBefore x y l) :
    occursBefore x y (z :: l) := by
  obtain ⟨l1, l2, h1, h2⟩ := h
  exact ⟨z :: l1, l2, by simp [h1], List.mem_cons_of_mem _ h2⟩

theorem occursBefore_head {α : Type} {x y : α} {l : List α} (h : y ∈ l) :
    occursBefore x y (x :: l) := by
  obtain ⟨l1, l2, h1⟩ := List.append_of_mem h
  exact ⟨x :: l1, l2, by simp [h1], List.mem_cons_self _ _⟩

theorem occursBefore_append_left {α : Type} {x y : α} {l : List α} (r : List α)
    (h : occursBefore x y l) : occursBefore x y (l ++ r) := by
  obtain ⟨l1, l2, h1, h2⟩ := h
  exact ⟨l1, l2 ++ r, by simp [h1], h2⟩

theorem occursBefore_append_right {α : Type} {x y : α} {l : List α} (r : List α)
    (h : occursBefore x y l) : occursBefore x y (r ++ l) := by
  obtain ⟨l1, l2, h1, h2⟩ := h
  exact ⟨r ++ l1, l2, by simp [h1], List.mem_append_right _ h2⟩

theorem occursBefore_append_mem {α : Type} {x y : α} {l r : List α} (hx : x ∈ l)
    (hy : y ∈ r) : occursBefore x y (l ++ r) := by
  obtain ⟨l1, l2, h1⟩ := List.append_of_mem hy
  exact ⟨l ++ l1, l2, by simp [h1], List.mem_append_left _ hx⟩

theorem publishEach_some (p : Ptr) (rec : Ptr → Option (List Event)) (cs : List Ptr)
    (h : ∀ c ∈ cs, ∃ l, rec c = some l) : ∃ l, publishEach p rec cs = some l := by
  induction cs with
  | nil => exact ⟨[], rfl⟩
  | cons c t ih =>
    obtain ⟨sub, hsub⟩ := h c (List.mem_cons_self _ _)
    obtain ⟨rest, hrest⟩ := ih (fun c' hc' => h c' (List.mem_cons_of_mem _ hc'))
    exact ⟨⟨.FRAMENODE_TREE, .ADD, p, c⟩ :: sub ++ rest, by simp [publishEach, hsub, hrest]⟩

theorem publishEach_cons {p : Ptr} {rec : Ptr → Option (List Event)} {c : Ptr}
    {cs : List Ptr} {l : List Event} (h : publishEach p rec (c :: cs) = some l) :
    ∃ sub rest, rec c = some sub ∧ publishEach p rec cs = some rest ∧
      l = ⟨.FRAMENODE_TREE, .ADD, p, c⟩ :: sub ++ rest := by
  simp only [publishEach] at h
  cases h1 : rec c with
  | none => simp [h1] at h
  | some sub =>
    cases h2 : publishEach p rec cs with
    | none => simp [h1, h2] at h
    | some rest =>
      simp only [h1, h2, Option.some.injEq] at h
      exact ⟨sub, rest, rfl, rfl, h.symm⟩

theorem publishEach_mem {p : Ptr} {rec : Ptr → Option (List Event)} {cs : List Ptr} :
    ∀ {l : List Event}, publishEach p rec cs = some l → ∀ e ∈ l,
      ∃ c ∈ cs, e = ⟨.FRAMENODE_TREE, .ADD, p, c⟩ ∨ ∃ sub, rec c = some sub ∧ e ∈ sub := by
  induction cs with
  | nil =>
    intro l h e he
    simp only [publishEach, Option.some.injEq] at h
    rw [← h] at he
    simp at he
  | cons c t ih =>
    intro l h e he
    obtain ⟨sub, rest, h1, h2, rfl⟩ := publishEach_cons h
    simp only [List.cons_append, List.mem_cons, List.mem_append] at he
    rcases he with he | he | he
    · exact ⟨c, List.mem_cons_self _ _, Or.inl he⟩
    · exact ⟨c, List.mem_cons_self _ _, Or.inr ⟨sub, h1, he⟩⟩
    · obtain ⟨c', hc', h3⟩ := ih h2 e he
      exact ⟨c', List.mem_cons_of_mem _ hc', h3⟩

theorem publishEach_sub {p : Ptr} {rec : Ptr → Option (List Event)} {cs : List Ptr} :
    ∀ {l : List Event}, publishEach p rec cs = some l → ∀ c ∈ cs,
      ∃ sub, rec c = some sub ∧
        (⟨.FRAMENODE_TREE, .ADD, p, c⟩ : Event) ∈ l ∧ (∀ e ∈ sub, e ∈ l) ∧
        (∀ e ∈ sub, occursBefore ⟨.FRAMENODE_TREE, .ADD, p, c⟩ e l) ∧
        (∀ x y, occursBefore x y sub → occursBefore x y l) := by
  induction cs with
  | nil => intro l _ c hc; simp at hc
  | cons c0 t ih =>
    intro l h c hc
    obtain ⟨sub, rest, h1, h2, rfl⟩ := publishEach_cons h
    rcases List.mem_cons.1 hc with hc | hc
    · subst hc
      refine ⟨sub, h1, by simp, ?_, ?_, ?_⟩
      · intro e he; simp [he]
      · intro e he
        exact occursBefore_head (List.mem_append_left _ he)
      · intro x y hxy
        exact occursBefore_cons (occursBefore_append_left _ hxy)
    · obtain ⟨sub', h3, h4, h5, h6, h7⟩ := ih h2 c hc
      refine ⟨sub', h3, ?_, ?_, ?_, ?_⟩
      · simp [h4]
      · intro e he; simp [h5 e he]
      · intro e he
        exact occursBefore_cons (occursBefore_append_right _ (h6 e he))
      · intro x y hxy
        exact occursBefore_cons (occursBefore_append_right _ (h7 x y hxy))

theorem publishChilds_terminates {s : Environment} (hs : FrameTreeOk s) :
    ∀ (fuel : Nat) (p : Ptr) (k : Nat), reachesRoot s k p = true →
      s.frameNodeTree.length - k < fuel → ∃ l, publishChilds s fuel p = some l := by
  intro fuel
  induction fuel with
  | zero => intro p k _ h; omega
  | succ fuel ih =>
    intro p k hk hlt
    simp only [publishChilds]
    apply publishEach_some
    intro c hc
    have hc' := reachesRoot_child hs hk ((mem_getChildren s p c).1 hc)
    have := reachesRoot_le_length s (k + 1) c hc'
    exact ih c (k + 1) hc' (by omega)

theorem publishChilds_events {s : Environment} :
    ∀ (fuel : Nat) (p : Ptr) (l : List Event), publishChilds s fuel p = some l →
      ∀ e ∈ l, e.type = .FRAMENODE_TREE ∧ e.operation = .ADD ∧
        (e.b, e.a) ∈ s.frameNodeTree ∧ Relation.ReflTransGen (frameEdge s) e.a p := by
  intro fuel
  induction fuel with
  | zero => intro p l h; simp [publishChilds] at h
  | succ fuel ih =>
    intro p l h e he
    simp only [publishChilds] at h
    obtain ⟨c, hc, h1 | ⟨sub, h1, h2⟩⟩ := publishEach_mem h e he
    · subst h1
      exact ⟨rfl, rfl, (mem_getChildren s p c).1 hc, Relation.ReflTransGen.refl⟩
    · obtain ⟨a1, a2, a3, a4⟩ := ih c sub h1 e h2
      exact ⟨a1, a2, a3, Relation.ReflTransGen.tail a4 ((mem_getChildren s p c).1 hc)⟩

theorem publishChilds_complete {s : Environment} :
    ∀ (fuel : Nat) (p : Ptr) (l : List Event), publishChilds s fuel p = some l →
      ∀ c q, (c, q) ∈ s.frameNodeTree → Relation.ReflTransGen (frameEdge s) q p →
        (⟨.FRAMENODE_TREE, .ADD, q, c⟩ : Event) ∈ l := by
  intro fuel
  induction fuel with
  | zero => intro p l h; simp [publishChilds] at h
  | succ fuel ih =>
    intro p l h c q hcq hqp
    simp only [publishChilds] at h
    rcases Relation.ReflTransGen.cases_tail hqp with hpq | ⟨b, hqb, hbp⟩
    · subst hpq
      obtain ⟨_, _, h1, _⟩ := publishEach_sub h c ((mem_getChildren s p c).2 hcq)
      exact h1
    · obtain ⟨sub, h1, _, h2, _⟩ := publishEach_sub h b ((mem_getChildren s p b).2 hbp)
      exact h2 _ (ih b sub h1 c q hcq hqb)

theorem publishChilds_order {s : Environment} (hs : FrameTreeOk s) :
    ∀ (fuel : Nat) (p : Ptr) (l : List Event), publishChilds s fuel p = some l →
      ∀ e ∈ l, e.a ≠ p →
        occursBefore ⟨.FRAMENODE_TREE, .ADD, getParent s e.a, e.a⟩ e l := by
  intro fuel
  induction fuel with
  | zero => intro p l h; simp [publishChilds] at h
  | succ fuel ih =>
    intro p l h e he hne
    simp only [publishChilds] at h
    obtain ⟨c, hc, h1 | ⟨sub, h1, h2⟩⟩ := publishEach_mem h e he
    · subst h1
      exact absurd rfl hne
    · obtain ⟨sub', h3, _, _, h4, h5⟩ := publishEach_sub h c hc
      rw [h1] at h3
      injection h3 with h3
      subst h3
      by_cases hac : e.a = c
      · have := (edge_facts hs ((mem_getChildren s p c).1 hc)).1
        rw [hac, this]
        exact h4 e h2
      · exact h5 _ _ (ih c sub h1 e h2 hac)

theorem publishEach_nodup {s : Environment} (hs : FrameTreeOk s) {p : Ptr} {k : Nat}
    (hk : reachesRoot s k p = true) {rec : Ptr → Option (List Event)}
    (hrec : ∀ c sub, (c, p) ∈ s.frameNodeTree → rec c = some sub → sub.Nodup ∧
      ∀ e ∈ sub, (e.b, e.a) ∈ s.frameNodeTree ∧ Relation.ReflTransGen (frameEdge s) e.a c) :
    ∀ (cs : List Ptr), cs.Nodup → (∀ c ∈ cs, (c, p) ∈ s.frameNodeTree) →
      ∀ l, publishEach p rec cs = some l →
        l.Nodup ∧ ∀ e ∈ l, ∃ c ∈ cs, Relation.ReflTransGen (frameEdge s) e.b c := by
  intro cs
  induction cs with
  | nil =>
    intro _ _ l h
    simp only [publishEach, Option.some.injEq] at h
    subst h
    simp
  | cons c t ih =>
    intro hnd hcs l h
    obtain ⟨sub, rest, h1, h2, rfl⟩ := publishEach_cons h
    have hcp := hcs c (List.mem_cons_self _ _)
    obtain ⟨hsubnd, hsub⟩ := hrec c sub hcp h1
    obtain ⟨hrestnd, hrest⟩ := ih (List.nodup_cons.1 hnd).2
      (fun c' hc' => hcs c' (List.mem_cons_of_mem _ hc')) rest h2
    have hpk : ¬ Relation.TransGen (frameEdge s) p p := no_cycle_of_reachesRoot hs hk
    -- events of the segment of `c` descend from `c`
    have hseg : ∀ e ∈ sub, Relation.ReflTransGen (frameEdge s) e.b c := by
      intro e he
      exact Relation.ReflTransGen.head (hsub e he).1 (hsub e he).2
    -- two children of `p` have no common descendant
    have hdisj : ∀ x c', c' ∈ t → Relation.ReflTransGen (frameEdge s) x c →
        Relation.ReflTransGen (frameEdge s) x c' → False := by
      intro x c' hc' hxc hxc'
      have hne : c ≠ c' := fun h => (List.nodup_cons.1 hnd).1 (h ▸ hc')
      have hc'p := hcs c' (List.mem_cons_of_mem _ hc')
      rcases Relation.ReflTransGen.total_of_right_unique (frameEdge_rightUnique hs.1) hxc hxc'
        with h3 | h3
      · rcases Relation.ReflTransGen.cases_head h3 with h4 | ⟨d, h4, h5⟩
        · exact hne h4
        · have : d = p := frameEdge_rightUnique hs.1 h4 hcp
          subst this
          exact hpk (Relation.TransGen.tail' h5 hc'p)
      · rcases Relation.ReflTransGen.cases_head h3 with h4 | ⟨d, h4, h5⟩
        · exact hne h4.symm
        · have : d = p := frameEdge_rightUnique hs.1 h4 hc'p
          subst this
          exact hpk (Relation.TransGen.tail' h5 hcp)
    refine ⟨?_, ?_⟩
    · simp only [List.cons_append, List.nodup_cons, List.mem_append, not_or]
      refine ⟨⟨?_, ?_⟩, ?_⟩
      · intro hin
        exact hpk (Relation.TransGen.tail' (hsub _ hin).2 hcp)
      · intro hin
        obtain ⟨c', hc', h3⟩ := hrest _ hin
        exact hdisj c c' hc' Relation.ReflTransGen.refl h3
      · rw [List.nodup_append]
        refine ⟨hsubnd, hrestnd, ?_⟩
        intro e he1 he2
        obtain ⟨c', hc', h3⟩ := hrest e he2
        exact hdisj e.b c' hc' (hseg e he1) h3
    · intro e he
      simp only [List.cons_append, List.mem_cons, List.mem_append] at he
      rcases he with he | he | he
      · subst he
        exact ⟨c, List.mem_cons_self _ _, Relation.ReflTransGen.refl⟩
      · exact ⟨c, List.mem_cons_self _ _, hseg e he⟩
      · obtain ⟨c', hc', h3⟩ := hrest e he
        exact ⟨c', List.mem_cons_of_mem _ hc', h3⟩

theorem publishChilds_nodup {s : Environment} (hs : FrameTreeOk s) :
    ∀ (fuel : Nat) (p : Ptr) (k : Nat) (l : List Event), reachesRoot s k p = true →
      publishChilds s fuel p = some l → l.Nodup := by
  intro fuel
  induction fuel with
  | zero => intro p k l _ h; simp [publishChilds] at h
  | succ fuel ih =>
    intro p k l hk h
    simp only [publishChilds] at h
    refine (publishEach_nodup hs hk ?_ (getChildren s p) (getChildren_nodup s hs.1 p)
      (fun c hc => (mem_getChildren s p c).1 hc) l h).1
    intro c sub hcp hsub
    refine ⟨ih c (k + 1) sub (reachesRoot_child hs hk hcp) hsub, ?_⟩
    intro e he
    obtain ⟨_, _, a3, a4⟩ := publishChilds_events fuel c sub hsub e he
    exact ⟨a3, a4⟩

theorem publishEach_congr {p : Ptr} {rec rec' : Ptr → Option (List Event)}
    (h : ∀ c sub, rec c = some sub → rec' c = some sub) :
    ∀ (cs : List Ptr) (l : List Event), publishEach p rec cs = some l →
      publishEach p rec' cs = some l := by
  intro cs
  induction cs with
  | nil => intro l hl; exact hl
  | cons c t ih =>
    intro l hl
    obtain ⟨sub, rest, h1, h2, rfl⟩ := publishEach_cons hl
    simp [publishEach, h c sub h1, ih rest h2]

theorem publishChilds_mono (s : Environment) :
    ∀ (fuel : Nat) (p : Ptr) (l : List Event), publishChilds s fuel p = some l →
      ∀ fuel', fuel ≤ fuel' → publishChilds s fuel' p = some l := by
  intro fuel
  induction fuel with
  | zero => intro p l h; simp [publishChilds] at h
  | succ fuel ih =>
    intro p l h fuel' hle
    obtain ⟨f, rfl⟩ : ∃ f, fuel' = f + 1 := ⟨fuel' - 1, by omega⟩
    simp only [publishChilds] at h ⊢
    exact publishEach_congr (fun c sub hc => ih c sub hc f (by omega)) _ l h

/-- C19: in a state with a well-formed frame tree, `addEventHandler(h)`
(with the recursion bound above the number of frame-tree edges, whatever
its value) hands to `h` one `(ITEM, ADD)` per entry of the registry in
registry order, then `(ROOT, ADD, root)`, then the frame-tree events, then
one `(FRAMENODE, ADD, map, frame)` per entry of the binding relation in
its order.  The frame-tree events are `(FRAMENODE_TREE, ADD, parent,
child)` events of edges whose parent end reaches the root; every such edge
has its event, no event occurs twice, and the event of an edge whose
parent is not the root comes after the event of the edge that leads to
that parent.  The state afterwards differs only in that `h` is registered
as the last handler: registry, relations and the events emitted to the
other handlers are as before. -/
theorem addEventHandler_replay (s : Environment) (handler : Ptr) (fuel : Nat)
    (hs : FrameTreeOk s) (hfuel : s.frameNodeTree.length < fuel) :
    ∃ tree, addEventHandler s fuel handler =
        some (s.items.map (fun it => (⟨.ITEM, .ADD, it.2, NULL⟩ : Event))
          ++ [⟨.ROOT, .ADD, s.rootNode, NULL⟩] ++ tree
          ++ s.cartesianMapGraph.map (fun it => (⟨.FRAMENODE, .ADD, it.1, it.2⟩ : Event)),
          { s with eventHandlers := s.eventHandlers ++ [handler] }) ∧
      (∀ fuel', s.frameNodeTree.length < fuel' →
        addEventHandler s fuel' handler = addEventHandler s fuel handler) ∧
      (∀ e ∈ tree, e.type = .FRAMENODE_TREE ∧ e.operation = .ADD ∧
        (e.b, e.a) ∈ s.frameNodeTree ∧
        Relation.ReflTransGen (frameEdge s) e.a s.rootNode) ∧
      (∀ c q, (c, q) ∈ s.frameNodeTree →
        Relation.ReflTransGen (frameEdge s) q s.rootNode →
        (⟨.FRAMENODE_TREE, .ADD, q, c⟩ : Event) ∈ tree) ∧
      tree.Nodup ∧
      (∀ e ∈ tree, e.a ≠ s.rootNode →
        occursBefore ⟨.FRAMENODE_TREE, .ADD, getParent s e.a, e.a⟩ e tree) := by
  have hroot : reachesRoot s 0 s.rootNode = true := by simp [reachesRoot, isRoot]
  have hterm : ∀ f, s.frameNodeTree.length < f →
      ∃ l, publishChilds s f s.rootNode = some l :=
    fun f hf => publishChilds_terminates hs f s.rootNode 0 hroot (by omega)
  obtain ⟨tree, htree⟩ := hterm fuel hfuel
  have hsame : ∀ f, s.frameNodeTree.length < f → publishChilds s f s.rootNode = some tree := by
    intro f hf
    obtain ⟨l', hl'⟩ := hterm f hf
    rcases Nat.le_total f fuel with h | h
    · have := publishChilds_mono s f s.rootNode l' hl' fuel h
      rw [htree] at this
      rw [hl', ← Option.some.inj this]
    · exact publishChilds_mono s fuel s.rootNode tree htree f h
  refine ⟨tree, by simp [addEventHandler, getRootNode, htree], ?_,
    publishChilds_events fuel s.rootNode tree htree,
    publishChilds_complete fuel s.rootNode tree htree,
    publishChilds_nodup hs fuel s.rootNode 0 tree hroot htree,
    publishChilds_order hs fuel s.rootNode tree htree⟩
  intro fuel' hf'
  simp [addEventHandler, getRootNode, htree, hsame fuel' hf']

/-- Witness of C19: frames `2` and `9` under the root, frame `8` under
`2`, the map `5` bound to `8`. -/
theorem addEventHandler_replay_witness :
    (addEventHandler
        (runOps env0 [.addChild 1 2, .addChild 2 8, .addChild 1 9, .setFrameNode 5 8])
        4 50).map Prod.fst =
      some [⟨.ITEM, .ADD, 1, NULL⟩, ⟨.ITEM, .ADD, 2, NULL⟩, ⟨.ITEM, .ADD, 8, NULL⟩,
        ⟨.ITEM, .ADD, 9, NULL⟩, ⟨.ITEM, .ADD, 5, NULL⟩, ⟨.ROOT, .ADD, 1, NULL⟩,
        ⟨.FRAMENODE_TREE, .ADD, 1, 2⟩, ⟨.FRAMENODE_TREE, .ADD, 2, 8⟩,
        ⟨.FRAMENODE_TREE, .ADD, 1, 9⟩, ⟨.FRAMENODE, .ADD, 5, 8⟩] ∧
    ∃ tree, addEventHandler
        (runOps env0 [.addChild 1 2, .addChild 2 8, .addChild 1 9, .setFrameNode 5 8])
        4 50 =
      some ((runOps env0 [.addChild 1 2, .addChild 2 8, .addChild 1 9,
            .setFrameNode 5 8]).items.map (fun it => (⟨.ITEM, .ADD, it.2, NULL⟩ : Event))
          ++ [⟨.ROOT, .ADD, 1, NULL⟩] ++ tree
          ++ (runOps env0 [.addChild 1 2, .addChild 2 8, .addChild 1 9,
            .setFrameNode 5 8]).cartesianMapGraph.map
              (fun it => (⟨.FRAMENODE, .ADD, it.1, it.2⟩ : Event)),
          { runOps env0 [.addChild 1 2, .addChild 2 8, .addChild 1 9, .setFrameNode 5 8] with
            eventHandlers := [50] }) ∧ tree.Nodup := by
  refine ⟨by decide, ?_⟩
  obtain ⟨tree, h1, _, _, _, h2, _⟩ := addEventHandler_replay
    (runOps env0 [.addChild 1 2, .addChild 2 8, .addChild 1 9, .setFrameNode 5 8]) 50 4
    (by decide) (by decide)
  exact ⟨tree, h1, h2⟩

/-! ## Tearing the frame tree down for a leaving handler -/

theorem detachEach_cons {s : Environment} {p : Ptr} {rec : Ptr → Option (List Event)}
    {c : Ptr} {cs : List Ptr} {l : List Event} (h : detachEach s p rec (c :: cs) = some l) :
    ∃ sub rest, (if (getChildren s c).length > 0 then rec c else some []) = some sub ∧
      detachEach s p rec cs = some rest ∧
      l = sub ++ (getMaps s c).map (fun m => (⟨.FRAMENODE, .REMOVE, m, c⟩ : Event))
        ++ [⟨.FRAMENODE_TREE, .REMOVE, p, c⟩] ++ rest := by
  simp only [detachEach] at h
  cases h1 : (if (getChildren s c).length > 0 then rec c else some []) with
  | none => simp [h1] at h
  | some sub =>
    cases h2 : detachEach s p rec cs with
    | none => simp [h1, h2] at h
    | some rest =>
      simp only [h1, h2, Option.some.injEq] at h
      exact ⟨sub, rest, rfl, rfl, h.symm⟩

theorem detachEach_some (s : Environment) (p : Ptr) (rec : Ptr → Option (List Event))
    (cs : List Ptr) (h : ∀ c ∈ cs, ∃ l, rec c = some l) :
    ∃ l, detachEach s p rec cs = some l := by
  induction cs with
  | nil => exact ⟨[], rfl⟩
  | cons c t ih =>
    obtain ⟨sub0, hsub0⟩ := h c (List.mem_cons_self _ _)
    obtain ⟨rest, hrest⟩ := ih (fun c' hc' => h c' (List.mem_cons_of_mem _ hc'))
    have : ∃ sub, (if (getChildren s c).length > 0 then rec c else some []) = some sub := by
      split_ifs
      · exact ⟨sub0, hsub0⟩
      · exact ⟨[], rfl⟩
    obtain ⟨sub, hsub⟩ := this
    exact ⟨sub ++ (getMaps s c).map (fun m => (⟨.FRAMENODE, .REMOVE, m, c⟩ : Event))
        ++ [⟨.FRAMENODE_TREE, .REMOVE, p, c⟩] ++ rest,
      by simp only [detachEach, hsub, hrest]⟩

theorem detachEach_mem {s : Environment} {p : Ptr} {rec : Ptr → Option (List Event)}
    {cs : List Ptr} :
    ∀ {l : List Event}, detachEach s p rec cs = some l → ∀ e ∈ l,
      ∃ c ∈ cs, e = ⟨.FRAMENODE_TREE, .REMOVE, p, c⟩ ∨
        (∃ m ∈ getMaps s c, e = ⟨.FRAMENODE, .REMOVE, m, c⟩) ∨
        (∃ sub, (getChildren s c).length > 0 ∧ rec c = some sub ∧ e ∈ sub) := by
  induction cs with
  | nil =>
    intro l h e he
    simp only [detachEach, Option.some.injEq] at h
    rw [← h] at he
    simp at he
  | cons c t ih =>
    intro l h e he
    obtain ⟨sub, rest, h1, h2, rfl⟩ := detachEach_cons h
    simp only [List.mem_append, List.mem_map, List.mem_singleton] at he
    rcases he with ((he | ⟨m, hm, he⟩) | he) | he
    · refine ⟨c, List.mem_cons_self _ _, Or.inr (Or.inr ?_)⟩
      split_ifs at h1 with hc
      · exact ⟨sub, hc, h1, he⟩
      · simp only [Option.some.injEq] at h1
        rw [← h1] at he
        simp at he
    · exact ⟨c, List.mem_cons_self _ _, Or.inr (Or.inl ⟨m, hm, he.symm⟩)⟩
    · exact ⟨c, List.mem_cons_self _ _, Or.inl he⟩
    · obtain ⟨c', hc', h3⟩ := ih h2 e he
      exact ⟨c', List.mem_cons_of_mem _ hc', h3⟩

theorem detachEach_sub {s : Environment} {p : Ptr} {rec : Ptr → Option (List Event)}
    {cs : List Ptr} :
    ∀ {l : List Event}, detachEach s p rec cs = some l → ∀ c ∈ cs,
      ∃ sub, (if (getChildren s c).length > 0 then rec c else some []) = some sub ∧
        (⟨.FRAMENODE_TREE, .REMOVE, p, c⟩ : Event) ∈ l ∧ (∀ e ∈ sub, e ∈ l) ∧
        (∀ m ∈ getMaps s c, (⟨.FRAMENODE, .REMOVE, m, c⟩ : Event) ∈ l) ∧
        (∀ e ∈ sub, occursBefore e ⟨.FRAMENODE_TREE, .REMOVE, p, c⟩ l) ∧
        (∀ m ∈ getMaps s c,
          occursBefore ⟨.FRAMENODE, .REMOVE, m, c⟩ ⟨.FRAMENODE_TREE, .REMOVE, p, c⟩ l) ∧
        (∀ x y, occursBefore x y sub → occursBefore x y l) := by
  induction cs with
  | nil => intro l _ c hc; simp at hc
  | cons c0 t ih =>
    intro l h c hc
    obtain ⟨sub, rest, h1, h2, rfl⟩ := detachEach_cons h
    rcases List.mem_cons.1 hc with hc | hc
    · subst hc
      refine ⟨sub, h1, by simp, ?_, ?_, ?_, ?_, ?_⟩
      · intro e he; simp [he]
      · intro m hm
        simp only [List.mem_append, List.mem_map, List.mem_singleton]
        exact Or.inl (Or.inl (Or.inr ⟨m, hm, rfl⟩))
      · intro e he
        refine ⟨sub ++ (getMaps s c).map (fun m => (⟨.FRAMENODE, .REMOVE, m, c⟩ : Event)),
          rest, by simp, List.mem_append_left _ he⟩
      · intro m hm
        refine ⟨sub ++ (getMaps s c).map (fun m => (⟨.FRAMENODE, .REMOVE, m, c⟩ : Event)),
          rest, by simp, List.mem_append_right _ (List.mem_map_of_mem _ hm)⟩
      · intro x y hxy
        have := occursBefore_append_left
          ((getMaps s c).map (fun m => (⟨.FRAMENODE, .REMOVE, m, c⟩ : Event))
            ++ [⟨.FRAMENODE_TREE, .REMOVE, p, c⟩] ++ rest) hxy
        simpa [List.append_assoc] using this
    · obtain ⟨sub', h3, h4, h5, h6, h7, h8, h9⟩ := ih h2 c hc
      refine ⟨sub', h3, List.mem_append_right _ h4, fun e he => List.mem_append_right _ (h5 e he),
        fun m hm => List.mem_append_right _ (h6 m hm),
        fun e he => occursBefore_append_right _ (h7 e he),
        fun m hm => occursBefore_append_right _ (h8 m hm),
        fun x y hxy => occursBefore_append_right _ (h9 x y hxy)⟩

theorem detachChilds_terminates {s : Environment} (hs : FrameTreeOk s) :
    ∀ (fuel : Nat) (p : Ptr) (k : Nat), reachesRoot s k p = true →
      s.frameNodeTree.length - k < fuel → ∃ l, detachChilds s fuel p = some l := by
  intro fuel
  induction fuel with
  | zero => intro p k _ h; omega
  | succ fuel ih =>
    intro p k hk hlt
    simp only [detachChilds]
    apply detachEach_some
    intro c hc
    have hc' := reachesRoot_child hs hk ((mem_getChildren s p c).1 hc)
    have := reachesRoot_le_length s (k + 1) c hc'
    exact ih c (k + 1) hc' (by omega)

theorem detachEach_congr {s : Environment} {p : Ptr} {rec rec' : Ptr → Option (List Event)}
    (h : ∀ c sub, rec c = some sub → rec' c = some sub) :
    ∀ (cs : List Ptr) (l : List Event), detachEach s p rec cs = some l →
      detachEach s p rec' cs = some l := by
  intro cs
  induction cs with
  | nil => intro l hl; exact hl
  | cons c t ih =>
    intro l hl
    obtain ⟨sub, rest, h1, h2, rfl⟩ := detachEach_cons hl
    have h1' : (if (getChildren s c).length > 0 then rec' c else some []) = some sub := by
      split_ifs at h1 ⊢
      · exact h c sub h1
      · exact h1
    simp only [detachEach, h1', ih rest h2]

theorem detachChilds_mono (s : Environment) :
    ∀ (fuel : Nat) (p : Ptr) (l : List Event), detachChilds s fuel p = some l →
      ∀ fuel', fuel ≤ fuel' → detachChilds s fuel' p = some l := by
  intro fuel
  induction fuel with
  | zero => intro p l h; simp [detachChilds] at h
  | succ fuel ih =>
    intro p l h fuel' hle
    obtain ⟨f, rfl⟩ : ∃ f, fuel' = f + 1 := ⟨fuel' - 1, by omega⟩
    simp only [detachChilds] at h ⊢
    exact detachEach_congr (fun c sub hc => ih c sub hc f (by omega)) _ l h

theorem detachChilds_events {s : Environment} :
    ∀ (fuel : Nat) (p : Ptr) (l : List Event), detachChilds s fuel p = some l →
      ∀ e ∈ l,
        (e.type = .FRAMENODE_TREE ∧ e.operation = .REMOVE ∧
          (e.b, e.a) ∈ s.frameNodeTree ∧ Relation.ReflTransGen (frameEdge s) e.a p) ∨
        (e.type = .FRAMENODE ∧ e.operation = .REMOVE ∧
          (e.a, e.b) ∈ s.cartesianMapGraph ∧
          Relation.TransGen (frameEdge s) e.b p) := by
  intro fuel
  induction fuel with
  | zero => intro p l h; simp [detachChilds] at h
  | succ fuel ih =>
    intro p l h e he
    simp only [detachChilds] at h
    obtain ⟨c, hc, h1 | ⟨m, hm, h1⟩ | ⟨sub, _, h1, h2⟩⟩ := detachEach_mem h e he
    · subst h1
      exact Or.inl ⟨rfl, rfl, (mem_getChildren s p c).1 hc, Relation.ReflTransGen.refl⟩
    · subst h1
      refine Or.inr ⟨rfl, rfl, ?_, Relation.TransGen.single ((mem_getChildren s p c).1 hc)⟩
      simp only [getMaps, List.mem_map, List.mem_filter, decide_eq_true_eq] at hm
      obtain ⟨x, ⟨hx, hx2⟩, hx1⟩ := hm
      rw [← hx1, ← hx2]
      exact hx
    · rcases ih c sub h1 e h2 with ⟨a1, a2, a3, a4⟩ | ⟨a1, a2, a3, a4⟩
      · exact Or.inl ⟨a1, a2, a3,
          Relation.ReflTransGen.tail a4 ((mem_getChildren s p c).1 hc)⟩
      · exact Or.inr ⟨a1, a2, a3, Relation.TransGen.tail a4 ((mem_getChildren s p c).1 hc)⟩

theorem detachChilds_sub {s : Environment} {fuel : Nat} {p b : Ptr} {l : List Event}
    (h : detachChilds s (fuel + 1) p = some l) (hbp : (b, p) ∈ s.frameNodeTree)
    {c : Ptr} (hc : (c, b) ∈ s.frameNodeTree) :
    ∃ sub, detachChilds s fuel b = some sub ∧ (∀ e ∈ sub, e ∈ l) ∧
      (∀ e ∈ sub, occursBefore e ⟨.FRAMENODE_TREE, .REMOVE, p, b⟩ l) ∧
      (∀ x y, occursBefore x y sub → occursBefore x y l) := by
  simp only [detachChilds] at h
  obtain ⟨sub, h1, _, h2, _, h3, _, h4⟩ := detachEach_sub h b ((mem_getChildren s p b).2 hbp)
  have hlen : (getChildren s b).length > 0 :=
    List.length_pos_of_mem ((mem_getChildren s b c).2 hc)
  rw [if_pos hlen] at h1
  exact ⟨sub, h1, h2, h3, h4⟩

theorem detachChilds_complete {s : Environment} :
    ∀ (fuel : Nat) (p : Ptr) (l : List Event), detachChilds s fuel p = some l →
      ∀ c q, (c, q) ∈ s.frameNodeTree → Relation.ReflTransGen (frameEdge s) q p →
        (⟨.FRAMENODE_TREE, .REMOVE, q, c⟩ : Event) ∈ l := by
  intro fuel
  induction fuel with
  | zero => intro p l h; simp [detachChilds] at h
  | succ fuel ih =>
    intro p l h c q hcq hqp
    rcases Relation.ReflTransGen.cases_tail hqp with hpq | ⟨b, hqb, hbp⟩
    · subst hpq
      simp only [detachChilds] at h
      obtain ⟨_, _, h1, _⟩ := detachEach_sub h c ((mem_getChildren s p c).2 hcq)
      exact h1
    · -- `b` has a child: `c` itself, or the node before `b` on the path
      have hchild : ∃ c', (c', b) ∈ s.frameNodeTree := by
        rcases Relation.ReflTransGen.cases_tail hqb with h1 | ⟨d, _, hdb⟩
        · subst h1; exact ⟨c, hcq⟩
        · exact ⟨d, hdb⟩
      obtain ⟨c', hc'⟩ := hchild
      obtain ⟨sub, h1, h2, _⟩ := detachChilds_sub h hbp hc'
      exact h2 _ (ih b sub h1 c q hcq hqb)

theorem detachChilds_order {s : Environment} :
    ∀ (fuel : Nat) (p : Ptr) (l : List Event), detachChilds s fuel p = some l →
      ∀ q c, (⟨.FRAMENODE_TREE, .REMOVE, q, c⟩ : Event) ∈ l →
      ∀ c' q', (c', q') ∈ s.frameNodeTree → Relation.ReflTransGen (frameEdge s) q' c →
        occursBefore ⟨.FRAMENODE_TREE, .REMOVE, q', c'⟩ ⟨.FRAMENODE_TREE, .REMOVE, q, c⟩ l := by
  intro fuel
  induction fuel with
  | zero => intro p l h; simp [detachChilds] at h
  | succ fuel ih =>
    intro p l h q c he c' q' hedge hpath
    have h' := h
    simp only [detachChilds] at h'
    obtain ⟨c0, hc0, h1 | ⟨m, _, h1⟩ | ⟨sub, _, h1, h2⟩⟩ := detachEach_mem h' _ he
    · injection h1 with _ _ h3 h4
      subst h3; subst h4
      have hcp := (mem_getChildren s q c).1 hc0
      have hchild : ∃ d, (d, c) ∈ s.frameNodeTree := by
        rcases Relation.ReflTransGen.cases_tail hpath with h1 | ⟨d, _, hdb⟩
        · subst h1; exact ⟨c', hedge⟩
        · exact ⟨d, hdb⟩
      obtain ⟨d, hd⟩ := hchild
      obtain ⟨sub, h1, _, h3, _⟩ := detachChilds_sub h hcp hd
      exact h3 _ (detachChilds_complete fuel c sub h1 c' q' hedge hpath)
    · injection h1 with h3 _ _ _
      exact EventType.noConfusion h3
    · have hcp := (mem_getChildren s p c0).1 hc0
      obtain ⟨sub', h3, _, _, _, _, _, h4⟩ := detachEach_sub h' c0 hc0
      have hlen : (getChildren s c0).length > 0 := by assumption
      rw [if_pos hlen, h1] at h3
      injection h3 with h3
      subst h3
      exact h4 _ _ (ih c0 sub h1 q c h2 c' q' hedge hpath)

theorem detachChilds_maps_order {s : Environment} :
    ∀ (fuel : Nat) (p : Ptr) (l : List Event), detachChilds s fuel p = some l →
      ∀ q c, (⟨.FRAMENODE_TREE, .REMOVE, q, c⟩ : Event) ∈ l → ∀ m ∈ getMaps s c,
        occursBefore ⟨.FRAMENODE, .REMOVE, m, c⟩ ⟨.FRAMENODE_TREE, .REMOVE, q, c⟩ l := by
  intro fuel
  induction fuel with
  | zero => intro p l h; simp [detachChilds] at h
  | succ fuel ih =>
    intro p l h q c he m hm
    simp only [detachChilds] at h
    obtain ⟨c0, hc0, h1 | ⟨m', _, h1⟩ | ⟨sub, hlen, h1, h2⟩⟩ := detachEach_mem h _ he
    · injection h1 with _ _ h3 h4
      subst h3; subst h4
      obtain ⟨_, _, _, _, _, _, h8, _⟩ := detachEach_sub h c hc0
      exact h8 m hm
    · injection h1 with h3 _ _ _
      exact EventType.noConfusion h3
    · obtain ⟨sub', h3, _, _, _, _, _, h4⟩ := detachEach_sub h c0 hc0
      rw [if_pos hlen, h1] at h3
      injection h3 with h3
      subst h3
      exact h4 _ _ (ih c0 sub h1 q c h2 m hm)

/-- C20, as stated, fails: with the frame at address `2` under the root of
a fresh environment, `removeEventHandler` hands over the frame-tree remove
event, then `(ROOT, REMOVE, root)`, and only then the `(ITEM, REMOVE)`
events: the root event is not the last event. -/
theorem removeEventHandler_counterexample :
    FrameTreeOk (runOps env0 [.addChild 1 2]) ∧
    (removeEventHandler (runOps env0 [.addChild 1 2]) 2 50).map Prod.fst =
      some [⟨.FRAMENODE_TREE, .REMOVE, 1, 2⟩, ⟨.ROOT, .REMOVE, 1, NULL⟩,
        ⟨.ITEM, .REMOVE, 1, NULL⟩, ⟨.ITEM, .REMOVE, 2, NULL⟩] ∧
    ((removeEventHandler (runOps env0 [.addChild 1 2]) 2 50).map
        (fun r => r.1.getLast?) ≠ some (some ⟨.ROOT, .REMOVE, 1, NULL⟩)) := by
  decide

/-- C20, amended: in a state with a well-formed frame tree,
`removeEventHandler(h)` (with the recursion bound above the number of
frame-tree edges, whatever its value) hands to `h` first the events of the
frame tree, then `(ROOT, REMOVE, root)`, then one `(ITEM, REMOVE)` per
entry of the registry in registry order, and removes `h` from the
handlers.  The events of the frame tree are `(FRAMENODE_TREE, REMOVE,
parent, child)` events of edges whose parent end reaches the root and
`(FRAMENODE, REMOVE, map, node)` events of bindings to nodes below the
root; every edge whose parent end reaches the root has its event; the
event of every edge below a node comes before the event of the edge that
joins the node to its parent, and so do the events of the maps bound to
the node. -/
theorem removeEventHandler_teardown (s : Environment) (handler : Ptr) (fuel : Nat)
    (hs : FrameTreeOk s) (hfuel : s.frameNodeTree.length < fuel) :
    ∃ tree, removeEventHandler s fuel handler =
        some (tree ++ [⟨.ROOT, .REMOVE, s.rootNode, NULL⟩]
          ++ s.items.map (fun it => (⟨.ITEM, .REMOVE, it.2, NULL⟩ : Event)),
          { s with eventHandlers :=
              s.eventHandlers.filter (fun h => decide (h ≠ handler)) }) ∧
      (∀ fuel', s.frameNodeTree.length < fuel' →
        removeEventHandler s fuel' handler = removeEventHandler s fuel handler) ∧
      (∀ e ∈ tree,
        (e.type = .FRAMENODE_TREE ∧ e.operation = .REMOVE ∧
          (e.b, e.a) ∈ s.frameNodeTree ∧
          Relation.ReflTransGen (frameEdge s) e.a s.rootNode) ∨
        (e.type = .FRAMENODE ∧ e.operation = .REMOVE ∧
          (e.a, e.b) ∈ s.cartesianMapGraph ∧
          Relation.TransGen (frameEdge s) e.b s.rootNode)) ∧
      (∀ c q, (c, q) ∈ s.frameNodeTree →
        Relation.ReflTransGen (frameEdge s) q s.rootNode →
        (⟨.FRAMENODE_TREE, .REMOVE, q, c⟩ : Event) ∈ tree) ∧
      (∀ q c, (⟨.FRAMENODE_TREE, .REMOVE, q, c⟩ : Event) ∈ tree →
        ∀ c' q', (c', q') ∈ s.frameNodeTree → Relation.ReflTransGen (frameEdge s) q' c →
          occursBefore ⟨.FRAMENODE_TREE, .REMOVE, q', c'⟩
            ⟨.FRAMENODE_TREE, .REMOVE, q, c⟩ tree) ∧
      (∀ q c, (⟨.FRAMENODE_TREE, .REMOVE, q, c⟩ : Event) ∈ tree → ∀ m ∈ getMaps s c,
        occursBefore ⟨.FRAMENODE, .REMOVE, m, c⟩ ⟨.FRAMENODE_TREE, .REMOVE, q, c⟩ tree) := by
  have hroot : reachesRoot s 0 s.rootNode = true := by simp [reachesRoot, isRoot]
  have hterm : ∀ f, s.frameNodeTree.length < f →
      ∃ l, detachChilds s f s.rootNode = some l :=
    fun f hf => detachChilds_terminates hs f s.rootNode 0 hroot (by omega)
  obtain ⟨tree, htree⟩ := hterm fuel hfuel
  have hsame : ∀ f, s.frameNodeTree.length < f → detachChilds s f s.rootNode = some tree := by
    intro f hf
    obtain ⟨l', hl'⟩ := hterm f hf
    rcases Nat.le_total f fuel with h | h
    · have := detachChilds_mono s f s.rootNode l' hl' fuel h
      rw [htree] at this
      rw [hl', ← Option.some.inj this]
    · exact detachChilds_mono s fuel s.rootNode tree htree f h
  refine ⟨tree, by simp [removeEventHandler, getRootNode, htree], ?_,
    detachChilds_events fuel s.rootNode tree htree,
    detachChilds_complete fuel s.rootNode tree htree,
    detachChilds_order fuel s.rootNode tree htree,
    detachChilds_maps_order fuel s.rootNode tree htree⟩
  intro fuel' hf'
  simp [removeEventHandler, getRootNode, htree, hsame fuel' hf']

/-- Witness of the amended C20: frames `2` and `9` under the root, frame
`8` under `2`, the map `5` bound to `8`. -/
theorem removeEventHandler_teardown_witness :
    (removeEventHandler
        (runOps env0 [.addChild 1 2, .addChild 2 8, .addChild 1 9, .setFrameNode 5 8])
        4 50).map Prod.fst =
      some [⟨.FRAMENODE, .REMOVE, 5, 8⟩, ⟨.FRAMENODE_TREE, .REMOVE, 2, 8⟩,
        ⟨.FRAMENODE_TREE, .REMOVE, 1, 2⟩, ⟨.FRAMENODE_TREE, .REMOVE, 1, 9⟩,
        ⟨.ROOT, .REMOVE, 1, NULL⟩,
        ⟨.ITEM, .REMOVE, 1, NULL⟩, ⟨.ITEM, .REMOVE, 2, NULL⟩, ⟨.ITEM, .REMOVE, 8, NULL⟩,
        ⟨.ITEM, .REMOVE, 9, NULL⟩, ⟨.ITEM, .REMOVE, 5, NULL⟩] ∧
    ∃ tree, removeEventHandler
        (runOps env0 [.addChild 1 2, .addChild 2 8, .addChild 1 9, .setFrameNode 5 8])
        4 50 =
      some (tree ++ [⟨.ROOT, .REMOVE, 1, NULL⟩]
          ++ (runOps env0 [.addChild 1 2, .addChild 2 8, .addChild 1 9,
            .setFrameNode 5 8]).items.map (fun it => (⟨.ITEM, .REMOVE, it.2, NULL⟩ : Event)),
          { runOps env0 [.addChild 1 2, .addChild 2 8, .addChild 1 9, .setFrameNode 5 8] with
            eventHandlers := [] }) := by
  refine ⟨by decide, ?_⟩
  obtain ⟨tree, h1, _⟩ := removeEventHandler_teardown
    (runOps env0 [.addChild 1 2, .addChild 2 8, .addChild 1 9, .setFrameNode 5 8]) 50 4
    (by decide) (by decide)
  exact ⟨tree, h1⟩

/-! ## A fresh environment -/

/-- C24: a freshly constructed environment (the constructor's `attachItem`
of the root returns) holds exactly one registered item, the root frame
node, under the first value of the id counter; the root reports
`isAttached()`, its back-reference is the environment, `getRootNode()`
returns it; the frame tree, the layer tree, the operator inputs and outputs
and the map bindings are empty; `getParent(root)` is `NULL` and
`getChildren(root)` is empty. -/
theorem fresh_environment (this root : Ptr) (objects : Ptr → EnvironmentItem)
    (hroot : root ≠ NULL) (hthis : this ≠ NULL) :
    (attachItem (Environment.init this root objects) root).isOk = true ∧
    (Environment.create this root objects).items =
      [((Environment.init this root objects).last_id, root)] ∧
    getUniqueId (Environment.create this root objects) root =
      (Environment.init this root objects).last_id ∧
    (Environment.init this root objects).last_id = 0 ∧
    (Environment.create this root objects).last_id = 1 ∧
    isAttached (Environment.create this root objects) root = true ∧
    getEnvironment (Environment.create this root objects) root = this ∧
    getRootNode (Environment.create this root objects) = root ∧
    getItem (Environment.create this root objects) 0 = root ∧
    (Environment.create this root objects).frameNodeTree = [] ∧
    (Environment.create this root objects).layerTree = [] ∧
    (Environment.create this root objects).operatorGraphInput = [] ∧
    (Environment.create this root objects).operatorGraphOutput = [] ∧
    (Environment.create this root objects).cartesianMapGraph = [] ∧
    getParent (Environment.create this root objects) root = NULL ∧
    getChildren (Environment.create this root objects) root = [] ∧
    (Environment.create this root objects).emitted = [⟨.ITEM, .ADD, root, NULL⟩] := by
  have hs : getUniqueId (Environment.init this root objects) root = ITEM_NOT_ATTACHED := by
    simp [getUniqueId, Environment.init]
  have hc : mapCount (Environment.init this root objects).items
      (Environment.init this root objects).last_id = 0 := by
    simp [Environment.init, mapCount]
  unfold Environment.create
  rw [attachItem_eq _ root hroot, if_pos hs, if_neg (by rw [hc]; simp)]
  have hw : wrapLong ((Environment.init this root objects).last_id + 1) = 1 := by
    simp [Environment.init, wrapLong]
  rw [hw]
  simp [Exec.isOk, Exec.state, Environment.init, mapAssign, getUniqueId, isAttached,
    getEnvironment, getRootNode, getItem, mapFind, getParent, getChildren, setEnv,
    setUniqueId, hthis]

/-- Witness of C24: the environment at address `100` with its root at
address `1`. -/
theorem fresh_environment_witness :
    env0.items = [(0, 1)] ∧ isAttached env0 1 = true ∧ getRootNode env0 = 1 ∧
    env0.frameNodeTree = [] ∧ getChildren env0 1 = [] :=
  have h := fresh_environment 100 1 freshObjects (by decide) (by decide)
  ⟨h.2.1, h.2.2.2.2.2.1, h.2.2.2.2.2.2.2.1, h.2.2.2.2.2.2.2.2.2.1,
    h.2.2.2.2.2.2.2.2.2.2.2.2.2.2.2.1⟩

/-! ## Relative transforms compose -/

section TransformsCompose

variable {G : Type} [Group G]

/-- C30: for frame nodes `a`, `b`, `c` whose parent chains reach the root
(in `na`, `nb`, `nc` steps), as soon as the bound on the iterations is at
least the three depths, `relativeTransform` returns for every pair, the
result for `(b, c)` times the result for `(a, b)` is the result for
`(a, c)`, and the result for `(b, a)` is the inverse of the result for
`(a, b)`. -/
theorem relativeTransform_compose (s : Environment) (T : Ptr → G) (na nb nc : Nat)
    (a b c : Ptr) (ha : reachesRoot s na a = true) (hb : reachesRoot s nb b = true)
    (hc : reachesRoot s nc c = true) (fuel : Nat) (hfa : na ≤ fuel) (hfb : nb ≤ fuel)
    (hfc : nc ≤ fuel) :
    ∃ ab bc ac ba : G,
      relativeTransform s T fuel a b = some (.ok ab) ∧
      relativeTransform s T fuel b c = some (.ok bc) ∧
      relativeTransform s T fuel a c = some (.ok ac) ∧
      relativeTransform s T fuel b a = some (.ok ba) ∧
      bc * ab = ac ∧ ba = ab⁻¹ := by
  have wa := walkToRoot_of_reachesRoot s T na a 1 fuel ha hfa
  have wb := walkToRoot_of_reachesRoot s T nb b 1 fuel hb hfb
  have wc := walkToRoot_of_reachesRoot s T nc c 1 fuel hc hfc
  refine ⟨(chainTransform s T nb b * 1)⁻¹ * (chainTransform s T na a * 1),
    (chainTransform s T nc c * 1)⁻¹ * (chainTransform s T nb b * 1),
    (chainTransform s T nc c * 1)⁻¹ * (chainTransform s T na a * 1),
    (chainTransform s T na a * 1)⁻¹ * (chainTransform s T nb b * 1), ?_, ?_, ?_, ?_, ?_, ?_⟩
  · simp only [relativeTransform, wa, wb]
  · simp only [relativeTransform, wb, wc]
  · simp only [relativeTransform, wa, wc]
  · simp only [relativeTransform, wa, wb]
  · group
  · group

/-- Witness of C30: the chain `R ← 2 ← 8` and the frame `9` under the root
`R` at address `1`; the transform stored in a frame is its address, in the
additive group of the integers.  From `8` to `9` by way of `2`. -/
theorem relativeTransform_compose_witness :
    ∃ ab bc ac ba : Multiplicative ℤ,
      relativeTransform (runOps env0 [.addChild 1 2, .addChild 2 8, .addChild 1 9])
        (fun q => Multiplicative.ofAdd (q : ℤ)) 2 8 2 = some (.ok ab) ∧
      relativeTransform (runOps env0 [.addChild 1 2, .addChild 2 8, .addChild 1 9])
        (fun q => Multiplicative.ofAdd (q : ℤ)) 2 2 9 = some (.ok bc) ∧
      relativeTransform (runOps env0 [.addChild 1 2, .addChild 2 8, .addChild 1 9])
        (fun q => Multiplicative.ofAdd (q : ℤ)) 2 8 9 = some (.ok ac) ∧
      relativeTransform (runOps env0 [.addChild 1 2, .addChild 2 8, .addChild 1 9])
        (fun q => Multiplicative.ofAdd (q : ℤ)) 2 2 8 = some (.ok ba) ∧
      bc * ab = ac ∧ ba = ab⁻¹ :=
  relativeTransform_compose (runOps env0 [.addChild 1 2, .addChild 2 8, .addChild 1 9]) _
    2 1 1 8 2 9 (by decide) (by decide) (by decide) 2 (by decide) (by decide) (by decide)

end TransformsCompose

/-! ## The id counter -/

theorem attachItem_minted (s : Environment) (x : Ptr) (hx : x ≠ NULL)
    (hs : getUniqueId s x = ITEM_NOT_ATTACHED) :
    getUniqueId (attachItem s x).state x = s.last_id ∧
    (attachItem s x).state.last_id = wrapLong (s.last_id + 1) := by
  rw [attachItem_eq s x hx, if_pos hs]
  split_ifs <;> simp [Exec.state, getUniqueId, setEnv, setUniqueId]

theorem attachItem_other_id (s : Environment) (x y : Ptr) (hxy : y ≠ x) :
    getUniqueId (attachItem s x).state y = getUniqueId s y := by
  by_cases hx : x = NULL
  · simp [attachItem, hx, Exec.state]
  · rw [attachItem_eq s x hx]
    split_ifs <;> simp [Exec.state, getUniqueId, setEnv, setUniqueId, hxy]

theorem CounterAt_cycle (s : Environment) (k : Int) (h : CounterAt s k) (h1 : 1 ≤ k)
    (h2 : k < LONG_MAX) :
    CounterAt (runOps s [.attachItem 2, .detachItem 2]) (k + 1) := by
  obtain ⟨hi, hl, hs2, hs8⟩ := h
  have hw : wrapLong (k + 1) = k + 1 :=
    wrapLong_eq _ (by have e1 : LONG_MIN = -9223372036854775808 := rfl; omega) (by omega)
  have hk0 : (0 : Int) ≠ k := by omega
  have hk1 : ¬ k < 0 := by omega
  have hcount : ¬ mapCount s.items s.last_id ≠ 0 := by
    rw [hi, hl]
    simp [mapCount, hk0]
  have ha : (attachItem s 2).state =
      { s with objects := setEnv (setUniqueId s.objects 2 s.last_id) 2 s.this,
               last_id := wrapLong (s.last_id + 1),
               items := mapAssign s.items s.last_id 2,
               emitted := s.emitted ++ [⟨.ITEM, .ADD, 2, NULL⟩] } := by
    rw [attachItem_eq s 2 (by decide), if_pos hs2, if_neg hcount]
    rfl
  have hitems1 : (attachItem s 2).state.items = [(0, 1), (k, 2)] := by
    rw [ha]
    simp only [hi, hl]
    simp [mapAssign, hk0, hk1]
  have hid1 : getUniqueId (attachItem s 2).state 2 = k := by
    rw [(attachItem_minted s 2 (by decide) hs2).1, hl]
  have hlast1 : (attachItem s 2).state.last_id = k + 1 := by
    rw [(attachItem_minted s 2 (by decide) hs2).2, hl, hw]
  have hfind : mapFind (attachItem s 2).state.items
      (getUniqueId (attachItem s 2).state 2) = some 2 := by
    rw [hid1, hitems1]
    simp [mapFind, hk0]
  have hs81 : getUniqueId (attachItem s 2).state 8 = ITEM_NOT_ATTACHED := by
    rw [attachItem_other_id s 2 8 (by decide)]; exact hs8
  have hrun : runOps s [.attachItem 2, .detachItem 2] =
      (detachItem (attachItem s 2).state 2).state := rfl
  rw [hrun]
  generalize (attachItem s 2).state = s1 at hitems1 hid1 hlast1 hfind hs81 ⊢
  have hr := runCalls_registry (detachCalls s1 2) s1
  rw [detachItem_eq s1 2 (by decide) hfind]
  refine ⟨?_, ?_, ?_, ?_⟩
  · show mapErase s1.items (getUniqueId s1 2) = [(0, 1)]
    rw [hid1, hitems1]
    simp [mapErase, hk0]
  · show (runCalls s1 (detachCalls s1 2)).last_id = k + 1
    rw [hr.2.2.1, hlast1]
  · show (setEnv (setUniqueId s1.objects 2 ITEM_NOT_ATTACHED) 2 NULL 2).unique_id
      = ITEM_NOT_ATTACHED
    simp [setEnv, setUniqueId]
  · show (setEnv (setUniqueId s1.objects 2 ITEM_NOT_ATTACHED) 2 NULL 8).unique_id
      = ITEM_NOT_ATTACHED
    simp only [setEnv, setUniqueId]
    rw [if_neg (by decide), if_neg (by decide)]
    exact hs81

theorem CounterAt_mintCycles : ∀ (n : Nat) (s : Environment) (k : Int), CounterAt s k →
    1 ≤ k → k + (n : Int) ≤ LONG_MAX → CounterAt (runOps s (mintCycles n)) (k + (n : Int)) := by
  intro n
  induction n with
  | zero => intro s k h _ _; simpa [mintCycles, runOps] using h
  | succ n ih =>
    intro s k h h1 h2
    simp only [Nat.cast_add, Nat.cast_one] at h2 ⊢
    have hstep := CounterAt_cycle s k h h1 (by omega)
    have := ih (runOps s [.attachItem 2, .detachItem 2]) (k + 1) hstep (by omega) (by omega)
    have e : runOps s (mintCycles (n + 1)) =
        runOps (runOps s [.attachItem 2, .detachItem 2]) (mintCycles n) := rfl
    rw [e, show k + ((n : Int) + 1) = k + 1 + (n : Int) by ring]
    exact this

theorem CounterAt_env0 : CounterAt env0 1 := by
  refine ⟨?_, ?_, ?_, ?_⟩ <;> decide

/-- Counterexample to C26: starting from a fresh environment, the calls
`attachItem(2); detachItem(2);` repeated `2^63 - 2` times leave the id
counter at `LONG_MAX`.  The next `attachItem(2)` gives the item the id
`LONG_MAX` and the increment takes the counter to `LONG_MIN`: the counter
has decreased, and the following `attachItem(8)` gives the item `8` the id
`LONG_MIN`, smaller than the id minted just before.  (Signed overflow is
undefined in C++; the compiled increment wraps.) -/
theorem minted_ids_wrap_counterexample :
    (runOps env0 (mintCycles 9223372036854775806)).last_id = LONG_MAX ∧
    getUniqueId (attachItem (runOps env0 (mintCycles 9223372036854775806)) 2).state 2
      = LONG_MAX ∧
    (attachItem (runOps env0 (mintCycles 9223372036854775806)) 2).state.last_id
      = LONG_MIN ∧
    getUniqueId (attachItem (attachItem (runOps env0
      (mintCycles 9223372036854775806)) 2).state 8).state 8 = LONG_MIN ∧
    LONG_MIN < LONG_MAX := by
  have hN : (1 : Int) + ((9223372036854775806 : Nat) : Int) = LONG_MAX := by decide
  have h := CounterAt_mintCycles 9223372036854775806 env0 1 CounterAt_env0 (le_refl 1)
    (le_of_eq hN)
  rw [hN] at h
  obtain ⟨_, hl, hs2, hs8⟩ := h
  have m2 := attachItem_minted _ 2 (by decide) hs2
  have hs8' : getUniqueId (attachItem (runOps env0 (mintCycles 9223372036854775806)) 2).state 8
      = ITEM_NOT_ATTACHED := by
    rw [attachItem_other_id _ 2 8 (by decide)]; exact hs8
  have m8 := attachItem_minted _ 8 (by decide) hs8'
  have hwrap : wrapLong (LONG_MAX + 1) = LONG_MIN := by decide
  refine ⟨hl, ?_, ?_, ?_, by decide⟩
  · rw [m2.1, hl]
  · rw [m2.2, hl, hwrap]
  · rw [m8.1, m2.2, hl, hwrap]

/-- C26, amended: as long as the id counter does not overflow (it starts in
the range of a `long` and `LONG_MAX` leaves room for the ids the calls can
mint, two per call at most), the counter never decreases over a sequence
of calls of the public mutating operations; `attachItem` of an item `x` that carries the
sentinel gives it the counter value and advances the counter by one; and
when, after any further sequence of calls, `attachItem` gives an id to an
item `y` that carries the sentinel (`y` may be `x` again, detached in
between), that id is strictly greater than the one given to `x`, and at
least the counter value after the first call, so it differs from every id
minted before. -/
theorem minted_ids_increase (s : Environment) (x y : Ptr) (ops : List Op)
    (hx : x ≠ NULL) (hy : y ≠ NULL) (hsx : getUniqueId s x = ITEM_NOT_ATTACHED)
    (hsy : getUniqueId (runOps (attachItem s x).state ops) y = ITEM_NOT_ATTACHED)
    (hmin : LONG_MIN ≤ s.last_id)
    (hmax : s.last_id + 2 * (ops.length : Int) + 2 ≤ LONG_MAX) :
    s.last_id ≤ (runOps s ops).last_id ∧
    getUniqueId (attachItem s x).state x = s.last_id ∧
    (attachItem s x).state.last_id = s.last_id + 1 ∧
    getUniqueId (attachItem (runOps (attachItem s x).state ops) y).state y =
      (runOps (attachItem s x).state ops).last_id ∧
    getUniqueId (attachItem s x).state x <
      getUniqueId (attachItem (runOps (attachItem s x).state ops) y).state y ∧
    (attachItem s x).state.last_id ≤
      getUniqueId (attachItem (runOps (attachItem s x).state ops) y).state y ∧
    (attachItem (runOps (attachItem s x).state ops) y).state.last_id =
      (runOps (attachItem s x).state ops).last_id + 1 := by
  have h1 := attachItem_minted s x hx hsx
  have hw1 : wrapLong (s.last_id + 1) = s.last_id + 1 := wrapLong_eq _ (by omega) (by omega)
  rw [hw1] at h1
  have h2 := attachItem_minted (runOps (attachItem s x).state ops) y hy hsy
  have h3 := runOps_last_id ops (attachItem s x).state (by omega) (by omega)
  have hw2 : wrapLong ((runOps (attachItem s x).state ops).last_id + 1) =
      (runOps (attachItem s x).state ops).last_id + 1 :=
    wrapLong_eq _ (by omega) (by omega)
  rw [hw2] at h2
  refine ⟨(runOps_last_id ops s hmin (by omega)).1, h1.1, h1.2, h2.1, ?_, ?_, h2.2⟩
  · rw [h1.1, h2.1]; omega
  · rw [h2.1]; exact h3.1

/-- Witness of C26: in a fresh environment the frame node `2` is attached
(id `1`), detached, and attached again: it gets the id `2`. -/
theorem minted_ids_increase_witness :
    getUniqueId (attachItem env0 2).state 2 = 1 ∧
    getUniqueId (attachItem (runOps (attachItem env0 2).state [.detachItem 2]) 2).state 2
      = 2 ∧
    getUniqueId (attachItem env0 2).state 2 <
      getUniqueId (attachItem (runOps (attachItem env0 2).state [.detachItem 2]) 2).state 2 :=
  have h := minted_ids_increase env0 2 2 [.detachItem 2] (by decide) (by decide)
    (by decide) (by decide) (by decide) (by decide)
  ⟨by decide, by decide, h.2.2.2.2.1⟩

/-! ## The only item of a type -/

theorem dynamicCast_ne_null (s : Environment) (T : ItemClass) (p : Ptr) :
    dynamicCast s T p ≠ NULL ↔ p ≠ NULL ∧ (s.objects p).cls.isA T = true := by
  unfold dynamicCast
  split_ifs with h
  · exact ⟨fun _ => h, fun _ => h.1⟩
  · exact ⟨fun h1 => absurd rfl h1, fun h1 => absurd h1 h⟩

theorem dynamicCast_eq_self (s : Environment) (T : ItemClass) (p : Ptr)
    (h : dynamicCast s T p ≠ NULL) : dynamicCast s T p = p := by
  unfold dynamicCast at h ⊢
  split_ifs with h1
  · rfl
  · rw [if_neg h1] at h; exact absurd rfl h

theorem getItemLoop_set (s : Environment) (T : ItemClass) (r : Ptr) (hr : r ≠ NULL) :
    ∀ l : List (Int × Ptr),
      getItemLoop s T l r =
        match (l.filter (fun it => decide (dynamicCast s T it.2 ≠ NULL))).map Prod.snd with
        | [] => .ok r
        | _ :: _ => .error .ambiguousType := by
  intro l
  induction l with
  | nil => simp [getItemLoop]
  | cons it rest ih =>
    by_cases h : dynamicCast s T it.2 ≠ NULL
    · simp [getItemLoop, h, hr]
    · simp only [getItemLoop, if_neg h, ih]
      simp [h]

theorem getItemLoop_null (s : Environment) (T : ItemClass) :
    ∀ l : List (Int × Ptr),
      getItemLoop s T l NULL =
        match (l.filter (fun it => decide (dynamicCast s T it.2 ≠ NULL))).map Prod.snd with
        | [] => .ok NULL
        | [x] => .ok x
        | _ :: _ :: _ => .error .ambiguousType := by
  intro l
  induction l with
  | nil => simp [getItemLoop]
  | cons it rest ih =>
    by_cases h : dynamicCast s T it.2 ≠ NULL
    · have hself := dynamicCast_eq_self s T it.2 h
      simp only [getItemLoop, if_pos h, ne_eq, not_true_eq_false, if_false,
        getItemLoop_set s T _ h rest]
      rw [List.filter_cons_of_pos (by simpa using h)]
      simp only [List.map_cons]
      cases hm : List.map Prod.snd
          (List.filter (fun it => decide (dynamicCast s T it.2 ≠ NULL)) rest) with
      | nil => simp [hself]
      | cons a t => simp
    · simp only [getItemLoop, if_neg h, ih]
      rw [List.filter_cons_of_neg (by simpa using h)]

/-- C22: the items `getItems<T>()` lists are exactly the registered items
that are `T`s (the cast to `T` succeeds); `getItem<T>()` returns the item
when there is exactly one of them, fails with the not-found error when
there is none, and fails with the ambiguous-type error, returning no item,
when there are two or more. -/
theorem getItemOfType_spec (s : Environment) (T : ItemClass) :
    (∀ x : Ptr, x ∈ getItems s T ↔
      (∃ id : Int, (id, x) ∈ s.items) ∧ x ≠ NULL ∧ (s.objects x).cls.isA T = true) ∧
    getItemOfType s T =
      match getItems s T with
      | [] => .error .notFound
      | [x] => .ok x
      | _ :: _ :: _ => .error .ambiguousType := by
  constructor
  · intro x
    simp only [getItems, List.mem_map, List.mem_filter, decide_eq_true_eq,
      dynamicCast_ne_null]
    constructor
    · rintro ⟨⟨id, y⟩, ⟨hmem, h1, h2⟩, rfl⟩
      exact ⟨⟨id, hmem⟩, h1, h2⟩
    · rintro ⟨⟨id, hmem⟩, h1, h2⟩
      exact ⟨(id, x), ⟨hmem, h1, h2⟩, rfl⟩
  · have hnn : ∀ x ∈ getItems s T, x ≠ NULL := by
      intro x hx
      simp only [getItems, List.mem_map, List.mem_filter, decide_eq_true_eq,
        dynamicCast_ne_null] at hx
      obtain ⟨⟨id, y⟩, ⟨_, h1, _⟩, rfl⟩ := hx
      exact h1
    unfold getItemOfType
    rw [getItemLoop_null]
    unfold getItems at hnn ⊢
    cases hm : List.map Prod.snd
        (List.filter (fun it => decide (dynamicCast s T it.2 ≠ NULL)) s.items) with
    | nil => simp
    | cons a t =>
      cases t with
      | nil =>
        have := hnn a (by rw [hm]; simp)
        simp [this]
      | cons b u => simp

/-- Two cartesian maps `5` and `7` in a fresh environment: the lookup of
the only cartesian map is ambiguous and there is no operator; with one
cartesian map `5` the lookup returns it; with the layer `4` beside it the
lookup of the only layer is ambiguous, a cartesian map being a layer. -/
theorem getItemOfType_examples :
    getItemOfType (runOps env0 [.attachItem 5, .attachItem 7]) .CartesianMap
      = .error .ambiguousType ∧
    getItemOfType (runOps env0 [.attachItem 5, .attachItem 7]) .Operator
      = .error .notFound ∧
    getItemOfType (runOps env0 [.attachItem 5, .attachItem 3]) .CartesianMap = .ok 5 ∧
    getItemOfType (runOps env0 [.attachItem 5, .attachItem 4]) .Layer
      = .error .ambiguousType :=
  ⟨rfl, rfl, rfl, rfl⟩

/-! ## The operator sweep -/

theorem foldl_itemModified (outs : List Ptr) : ∀ s : Environment,
    (outs.foldl itemModified s).emitted = s.emitted ++ itemUpdates outs ∧
    (outs.foldl itemModified s).operatorGraphOutput = s.operatorGraphOutput := by
  induction outs with
  | nil => intro s; simp [itemUpdates]
  | cons a t ih =>
    intro s
    simp only [List.foldl_cons, ih, itemModified, emit, itemUpdates, List.map_cons,
      List.append_assoc, List.singleton_append, and_self]

theorem getOutputs_congr {s s' : Environment}
    (h : s'.operatorGraphOutput = s.operatorGraphOutput) (op : Ptr) :
    getOutputs s' op = getOutputs s op := by
  simp [getOutputs, h]

theorem updateOperatorsLoop_calls (U : Ptr → Environment → Environment) (ops : List Ptr) :
    ∀ (s : Environment) (calls : List Ptr),
      (updateOperatorsLoop U ops s calls).1 = calls ++ ops := by
  induction ops with
  | nil => intro s calls; simp [updateOperatorsLoop]
  | cons op rest ih =>
    intro s calls
    simp only [updateOperatorsLoop, ih, List.append_assoc, List.singleton_append]

theorem updateOperatorsLoop_emitted (U : Ptr → Environment → Environment)
    (hU : ∀ (op : Ptr) (s1 : Environment), (U op s1).emitted = s1.emitted ∧
      (U op s1).operatorGraphOutput = s1.operatorGraphOutput) (ops : List Ptr) :
    ∀ (s : Environment) (calls : List Ptr),
      (updateOperatorsLoop U ops s calls).2.emitted =
        s.emitted ++ (ops.map (fun op => itemUpdates (getOutputs s op))).flatten ∧
      (updateOperatorsLoop U ops s calls).2.operatorGraphOutput = s.operatorGraphOutput := by
  induction ops with
  | nil => intro s calls; simp [updateOperatorsLoop]
  | cons op rest ih =>
    intro s calls
    simp only [updateOperatorsLoop]
    have hf := foldl_itemModified (getOutputs (U op s) op) (U op s)
    have h := ih ((getOutputs (U op s) op).foldl itemModified (U op s)) (calls ++ [op])
    have hout := hf.2.trans (hU op s).2
    have hg : ∀ o, getOutputs ((getOutputs (U op s) op).foldl itemModified (U op s)) o
        = getOutputs s o := fun o => getOutputs_congr hout o
    rw [h.1, h.2, hf.1, hout]
    simp only [hg]
    simp only [(hU op s).1, getOutputs_congr (hU op s).2 op,
      List.map_cons, List.flatten_cons, List.append_assoc, and_self]

theorem getItems_nodup (s : Environment) (h : RegistryOk s) (T : ItemClass) :
    (getItems s T).Nodup := by
  obtain ⟨hm, hk, _⟩ := h
  unfold getItems
  have hinj : ∀ e1 ∈ s.items, ∀ e2 ∈ s.items, e1.2 = e2.2 → e1 = e2 := by
    intro e1 h1 e2 h2 h12
    have a1 := (hk e1 h1).1
    have a2 := (hk e2 h2).1
    rw [h12] at a1
    exact Prod.ext (a1.symm.trans a2) h12
  have hnd : s.items.Nodup := by
    have : (s.items.map Prod.fst).Nodup := (List.Pairwise.imp ne_of_lt hm)
    exact List.Nodup.of_map _ this
  have hf : (s.items.filter (fun it => decide (dynamicCast s T it.2 ≠ NULL))).Nodup :=
    hnd.filter _
  refine List.Nodup.map_on ?_ hf
  intro e1 h1 e2 h2 h12
  exact hinj e1 (List.mem_of_mem_filter h1) e2 (List.mem_of_mem_filter h2) h12
theorem mem_getItems (s : Environment) (T : ItemClass) (x : Ptr) :
    x ∈ getItems s T ↔
      (∃ id : Int, (id, x) ∈ s.items) ∧ x ≠ NULL ∧ (s.objects x).cls.isA T = true := by
  simp only [getItems, List.mem_map, List.mem_filter, decide_eq_true_eq,
    dynamicCast_ne_null]
  constructor
  · rintro ⟨⟨id, y⟩, ⟨hmem, h1, h2⟩, rfl⟩
    exact ⟨⟨id, hmem⟩, h1, h2⟩
  · rintro ⟨⟨id, hmem⟩, h1, h2⟩
    exact ⟨(id, x), ⟨hmem, h1, h2⟩, rfl⟩

theorem updateOperators_emitted (U : Ptr → Environment → Environment)
    (hU : ∀ (op : Ptr) (s1 : Environment), (U op s1).emitted = s1.emitted ∧
      (U op s1).operatorGraphOutput = s1.operatorGraphOutput) (s : Environment) :
    (updateOperators U s).2.emitted =
      s.emitted ++
        ((getItems s .Operator).map (fun op => itemUpdates (getOutputs s op))).flatten :=
  (updateOperatorsLoop_emitted U hU (getItems s .Operator) s []).1

theorem updateOperatorsLoop_emitted_mark (U : Ptr → Environment → Environment)
    (mark : Ptr → List Event)
    (hU : ∀ (op : Ptr) (s1 : Environment), (U op s1).emitted = s1.emitted ++ mark op ∧
      (U op s1).operatorGraphOutput = s1.operatorGraphOutput) (ops : List Ptr) :
    ∀ (s : Environment) (calls : List Ptr),
      (updateOperatorsLoop U ops s calls).2.emitted =
        s.emitted ++
          (ops.map (fun op => mark op ++ itemUpdates (getOutputs s op))).flatten ∧
      (updateOperatorsLoop U ops s calls).2.operatorGraphOutput = s.operatorGraphOutput := by
  induction ops with
  | nil => intro s calls; simp [updateOperatorsLoop]
  | cons op rest ih =>
    intro s calls
    simp only [updateOperatorsLoop]
    have hf := foldl_itemModified (getOutputs (U op s) op) (U op s)
    have h := ih ((getOutputs (U op s) op).foldl itemModified (U op s)) (calls ++ [op])
    have hout := hf.2.trans (hU op s).2
    have hg : ∀ o, getOutputs ((getOutputs (U op s) op).foldl itemModified (U op s)) o
        = getOutputs s o := fun o => getOutputs_congr hout o
    rw [h.1, h.2, hf.1, hout]
    simp only [hg]
    simp only [(hU op s).1, getOutputs_congr (hU op s).2 op,
      List.map_cons, List.flatten_cons, List.append_assoc, and_self]

theorem foldl_itemModified_obs {α : Type} (obs : Environment → α)
    (hemit : ∀ (s1 : Environment) (e : Event), obs (emit s1 e) = obs s1) (outs : List Ptr) :
    ∀ s : Environment, obs (outs.foldl itemModified s) = obs s := by
  induction outs with
  | nil => intro s; rfl
  | cons a t ih =>
    intro s
    simp only [List.foldl_cons]
    rw [ih, itemModified, hemit]

theorem updateOperatorsLoop_obs {α : Type} (U : Ptr → Environment → Environment)
    (obs : Environment → α)
    (hemit : ∀ (s1 : Environment) (e : Event), obs (emit s1 e) = obs s1)
    (hresp : ∀ (op : Ptr) (s1 s2 : Environment), obs s1 = obs s2 →
      obs (U op s1) = obs (U op s2)) (ops : List Ptr) :
    ∀ (s s' : Environment) (calls : List Ptr), obs s = obs s' →
      obs (updateOperatorsLoop U ops s calls).2 = obs (ops.foldl (fun st op => U op st) s') := by
  induction ops with
  | nil => intro s s' calls h; simpa [updateOperatorsLoop] using h
  | cons op rest ih =>
    intro s s' calls h
    simp only [updateOperatorsLoop, List.foldl_cons]
    apply ih
    rw [foldl_itemModified_obs obs hemit]
    exact hresp op s s' h

/-- C23: let `updateAll()` of an operator `op` emit the events `mark op`
(none, for an operator that only recomputes its outputs) and leave the
output edges alone.  In a state with a consistent registry
`updateOperators()` invokes `updateAll()` on the registered operators in
registry order, on each exactly once and on nothing else, whatever the
state of any layer: the events of the sweep are, operator after operator
in that order, the events `mark op` of its `updateAll()` followed by one
`(ITEM, UPDATE, out)` for each entry `out` of `getOutputs(op)`, and
nothing else; and whatever part of the state `updateAll()` works on (an
observation `obs` that no event changes and on which the effect of
`updateAll()` depends only through itself) is, after the sweep, what
applying `updateAll()` once to each registered operator in that order
makes of it. -/
theorem updateOperators_sweep (U : Ptr → Environment → Environment)
    (mark : Ptr → List Event) (s : Environment) (hreg : RegistryOk s)
    (hU : ∀ (op : Ptr) (s1 : Environment), (U op s1).emitted = s1.emitted ++ mark op ∧
      (U op s1).operatorGraphOutput = s1.operatorGraphOutput) :
    (updateOperators U s).1 = getItems s .Operator ∧
    (getItems s .Operator).Nodup ∧
    (∀ x : Ptr, x ∈ getItems s .Operator ↔
      (∃ id : Int, (id, x) ∈ s.items) ∧ x ≠ NULL ∧
        (s.objects x).cls.isA .Operator = true) ∧
    (updateOperators U s).2.emitted =
      s.emitted ++
        ((getItems s .Operator).map
          (fun op => mark op ++ itemUpdates (getOutputs s op))).flatten ∧
    (∀ (α : Type) (obs : Environment → α),
      (∀ (s1 : Environment) (e : Event), obs (emit s1 e) = obs s1) →
      (∀ (op : Ptr) (s1 s2 : Environment), obs s1 = obs s2 →
        obs (U op s1) = obs (U op s2)) →
      obs (updateOperators U s).2 =
        obs ((getItems s .Operator).foldl (fun st op => U op st) s)) := by
  have hc : (updateOperators U s).1 = getItems s .Operator := by
    simp [updateOperators, updateOperatorsLoop_calls]
  refine ⟨hc, getItems_nodup s hreg _, fun x => mem_getItems s _ x,
    (updateOperatorsLoop_emitted_mark U mark hU (getItems s .Operator) s []).1, ?_⟩
  intro α obs hemit hresp
  exact updateOperatorsLoop_obs U obs hemit hresp (getItems s .Operator) s s [] rfl

/-- Witness of C23: the operator `3` with the input layer `4` and the
output map `5` in a fresh environment.  With an `updateAll()` that emits
nothing the sweep emits exactly `(ITEM, UPDATE, 5)`; with an `updateAll()`
that reports its operator modified the sweep emits `(ITEM, UPDATE, 3)`,
once, and then `(ITEM, UPDATE, 5)`; with an `updateAll()` that writes `777`
into the id field of its operator, the operator `3` holds `777` after the
sweep. -/
theorem updateOperators_sweep_witness :
    (updateOperators (fun _ s1 => s1)
      (runOps env0 [.attachItem 3, .attachItem 4, .attachItem 5, .addInput 3 4,
        .addOutput 3 5])).2.emitted =
      (runOps env0 [.attachItem 3, .attachItem 4, .attachItem 5, .addInput 3 4,
        .addOutput 3 5]).emitted ++ [⟨.ITEM, .UPDATE, 5, NULL⟩] ∧
    (updateOperators (fun op s1 => itemModified s1 op)
      (runOps env0 [.attachItem 3, .attachItem 4, .attachItem 5, .addInput 3 4,
        .addOutput 3 5])).2.emitted =
      (runOps env0 [.attachItem 3, .attachItem 4, .attachItem 5, .addInput 3 4,
        .addOutput 3 5]).emitted ++ [⟨.ITEM, .UPDATE, 3, NULL⟩, ⟨.ITEM, .UPDATE, 5, NULL⟩] ∧
    getUniqueId
      (updateOperators (fun op s1 => { s1 with objects := setUniqueId s1.objects op 777 })
        (runOps env0 [.attachItem 3, .attachItem 4, .attachItem 5, .addInput 3 4,
          .addOutput 3 5])).2 3 = 777 :=
  have hreg : RegistryOk (runOps env0 [.attachItem 3, .attachItem 4, .attachItem 5,
      .addInput 3 4, .addOutput 3 5]) :=
    (StateOk_runOps [.attachItem 3, .attachItem 4, .attachItem 5, .addInput 3 4,
      .addOutput 3 5] (StateOk_create 100 1 freshObjects) (by decide)).1
  have h1 := updateOperators_sweep (fun _ s1 => s1) (fun _ => []) _ hreg
    (fun _ _ => ⟨(List.append_nil _).symm, rfl⟩)
  have h2 := updateOperators_sweep (fun op s1 => itemModified s1 op)
    (fun op => [⟨.ITEM, .UPDATE, op, NULL⟩]) _ hreg (fun _ _ => ⟨rfl, rfl⟩)
  have h3 := (updateOperators_sweep
    (fun op s1 => { s1 with objects := setUniqueId s1.objects op 777 }) (fun _ => []) _ hreg
    (fun _ _ => ⟨(List.append_nil _).symm, rfl⟩)).2.2.2.2 _ (fun st => st.objects)
    (fun _ _ => rfl) (fun op s1 s2 h12 => by simp only [h12])
  ⟨h1.2.2.2.1.trans (by decide), h2.2.2.2.1.trans (by decide),
    (congrArg (fun o => (o 3).unique_id) h3).trans (by decide)⟩

/-! ## Repeated operator edges -/

theorem multimapInsert_perm {K V : Type} [LinearOrder K] (m : List (K × V)) (k : K) (v : V) :
    (multimapInsert m k v).Perm ((k, v) :: m) := by
  induction m with
  | nil => simp [multimapInsert]
  | cons x t ih =>
    obtain ⟨a, b⟩ := x
    simp only [multimapInsert]
    split_ifs with h1
    · exact List.Perm.refl _
    · exact (List.Perm.cons _ ih).trans (List.Perm.swap _ _ _)

theorem count_edges_multimapInsert (g : List (Ptr × Ptr)) (op L o l : Ptr) :
    (((multimapInsert g op L).filter (fun e => decide (e.1 = o))).map Prod.snd).count l =
      ((g.filter (fun e => decide (e.1 = o))).map Prod.snd).count l +
        (if o = op ∧ l = L then 1 else 0) := by
  have hp := ((multimapInsert_perm g op L).filter (fun e => decide (e.1 = o))).map Prod.snd
  rw [hp.count_eq]
  by_cases h1 : op = o
  · subst h1
    by_cases h2 : L = l
    · subst h2; simp
    · have h3 : ¬ l = L := fun h => h2 h.symm
      simp [h2, h3, List.count_cons]
  · have h3 : ¬ o = op := fun h => h1 h.symm
    simp [h1, h3]

theorem addInput_ok_graph (s s' : Environment) (op L : Ptr) (v : Bool)
    (h : addInput s op L = .ok v s') :
    v = true ∧ s'.operatorGraphInput = multimapInsert s.operatorGraphInput op L ∧
    s'.operatorGraphOutput = s.operatorGraphOutput := by
  unfold addInput at h
  have f1 := attachIfNeeded_fields s op
  cases hh : attachIfNeeded s op with
  | raised e s1 => rw [hh] at h; simp at h
  | ok u s1 =>
    rw [hh] at h f1
    have f2 := attachIfNeeded_fields s1 L
    simp only at h
    cases hh2 : attachIfNeeded s1 L with
    | raised e s2 => rw [hh2] at h; simp at h
    | ok u2 s2 =>
      rw [hh2] at h f2
      simp only [Exec.ok.injEq] at h
      simp only [Exec.state] at f1 f2
      obtain ⟨hv, hs⟩ := h
      subst hs
      exact ⟨hv.symm, by simp [f2.2.2.1, f1.2.2.1], by simp [f2.2.2.2.1, f1.2.2.2.1]⟩

theorem addOutput_ok_graph (s s' : Environment) (op L : Ptr) (v : Bool)
    (h : addOutput s op L = .ok v s') :
    v = true ∧ s'.operatorGraphOutput = multimapInsert s.operatorGraphOutput op L ∧
    s'.operatorGraphInput = s.operatorGraphInput := by
  unfold addOutput at h
  have f1 := attachIfNeeded_fields s op
  cases hh : attachIfNeeded s op with
  | raised e s1 => rw [hh] at h; simp at h
  | ok u s1 =>
    rw [hh] at h f1
    have f2 := attachIfNeeded_fields s1 L
    simp only at h
    cases hh2 : attachIfNeeded s1 L with
    | raised e s2 => rw [hh2] at h; simp at h
    | ok u2 s2 =>
      rw [hh2] at h f2
      simp only [Exec.ok.injEq] at h
      simp only [Exec.state] at f1 f2
      obtain ⟨hv, hs⟩ := h
      subst hs
      exact ⟨hv.symm, by simp [f2.2.2.2.1, f1.2.2.2.1], by simp [f2.2.2.1, f1.2.2.1]⟩

theorem count_itemUpdates (outs : List Ptr) (l : Ptr) :
    (itemUpdates outs).count (⟨.ITEM, .UPDATE, l, NULL⟩ : Event) = outs.count l := by
  unfold itemUpdates
  refine List.count_map_of_injective outs (fun out => (⟨.ITEM, .UPDATE, out, NULL⟩ : Event)) ?_ l
  intro a b hab
  simpa using hab

theorem count_flatten_itemUpdates (s : Environment) (ops : List Ptr) (l : Ptr) :
    ((ops.map (fun op => itemUpdates (getOutputs s op))).flatten).count
        (⟨.ITEM, .UPDATE, l, NULL⟩ : Event) =
      (ops.map (fun op => (getOutputs s op).count l)).sum := by
  induction ops with
  | nil => simp
  | cons a t ih =>
    simp only [List.map_cons, List.flatten_cons, List.count_append, List.sum_cons, ih,
      count_itemUpdates]

/-- Counterexample to C27: in a fresh environment with the operator `3`,
the layer `4` and the map `5`, after `addInput(3, 4)` twice and
`addOutput(3, 5)` twice, `getInputs(3)` holds `4` twice, `getOutputs(3)`
holds `5` twice, and a sweep emits `(ITEM, UPDATE, 5)` twice. -/
theorem addInput_twice_counterexample :
    getInputs (runOps env0 [.attachItem 3, .attachItem 4, .attachItem 5, .addInput 3 4,
      .addInput 3 4, .addOutput 3 5, .addOutput 3 5]) 3 = [4, 4] ∧
    getOutputs (runOps env0 [.attachItem 3, .attachItem 4, .attachItem 5, .addInput 3 4,
      .addInput 3 4, .addOutput 3 5, .addOutput 3 5]) 3 = [5, 5] ∧
    (updateOperators (fun _ s1 => s1)
      (runOps env0 [.attachItem 3, .attachItem 4, .attachItem 5, .addInput 3 4,
        .addInput 3 4, .addOutput 3 5, .addOutput 3 5])).2.emitted =
      (runOps env0 [.attachItem 3, .attachItem 4, .attachItem 5, .addInput 3 4,
        .addInput 3 4, .addOutput 3 5, .addOutput 3 5]).emitted ++
      [⟨.ITEM, .UPDATE, 5, NULL⟩, ⟨.ITEM, .UPDATE, 5, NULL⟩] := by
  decide

/-- C27, amended: an operator's inputs and outputs form multisets.  Every
returning call `addInput(op, L)` returns `true` and makes `getInputs(op)`
hold `L` once more than before, changing no other count of an input and
no output; every returning call `addOutput(op, L)` does the same for
`getOutputs(op)`; and a sweep after it, `updateAll()` emitting nothing and
leaving the output edges alone, emits `(ITEM, UPDATE, l)` once for every
occurrence of `l` in `getOutputs` of a registered operator. -/
theorem operator_edges_multiset (s s' : Environment) (op L : Ptr) (v : Bool) :
    (addInput s op L = .ok v s' →
      v = true ∧
      (∀ o l : Ptr, (getInputs s' o).count l =
        (getInputs s o).count l + (if o = op ∧ l = L then 1 else 0)) ∧
      (∀ o : Ptr, getOutputs s' o = getOutputs s o)) ∧
    (addOutput s op L = .ok v s' →
      v = true ∧
      (∀ o l : Ptr, (getOutputs s' o).count l =
        (getOutputs s o).count l + (if o = op ∧ l = L then 1 else 0)) ∧
      (∀ o : Ptr, getInputs s' o = getInputs s o) ∧
      ∀ U : Ptr → Environment → Environment,
        (∀ (op1 : Ptr) (s1 : Environment), (U op1 s1).emitted = s1.emitted ∧
          (U op1 s1).operatorGraphOutput = s1.operatorGraphOutput) →
        ∃ new : List Event,
          (updateOperators U s').2.emitted = s'.emitted ++ new ∧
          ∀ l : Ptr, new.count (⟨.ITEM, .UPDATE, l, NULL⟩ : Event) =
            ((getItems s' .Operator).map (fun o => (getOutputs s' o).count l)).sum) := by
  constructor
  · intro h
    obtain ⟨hv, hi, ho⟩ := addInput_ok_graph s s' op L v h
    refine ⟨hv, ?_, ?_⟩
    · intro o l
      simp only [getInputs, hi]
      exact count_edges_multimapInsert _ op L o l
    · intro o; simp [getOutputs, ho]
  · intro h
    obtain ⟨hv, ho, hi⟩ := addOutput_ok_graph s s' op L v h
    refine ⟨hv, ?_, ?_, ?_⟩
    · intro o l
      simp only [getOutputs, ho]
      exact count_edges_multimapInsert _ op L o l
    · intro o; simp [getInputs, hi]
    · intro U hU
      exact ⟨_, updateOperators_emitted U hU s', fun l => count_flatten_itemUpdates s' _ l⟩

/-- Witness of C27: the operator `3`, the layer `4` and the map `5` in a
fresh environment; the second `addInput(3, 4)` and the second
`addOutput(3, 5)` return, and each edge is then held twice. -/
theorem operator_edges_multiset_witness :
    addInput (runOps env0 [.attachItem 3, .attachItem 4, .addInput 3 4]) 3 4 =
      .ok true (runOps env0 [.attachItem 3, .attachItem 4, .addInput 3 4, .addInput 3 4]) ∧
    (getInputs (runOps env0 [.attachItem 3, .attachItem 4, .addInput 3 4, .addInput 3 4])
      3).count 4 = 2 ∧
    addOutput (runOps env0 [.attachItem 3, .attachItem 5, .addOutput 3 5]) 3 5 =
      .ok true (runOps env0 [.attachItem 3, .attachItem 5, .addOutput 3 5, .addOutput 3 5]) ∧
    (getOutputs (runOps env0 [.attachItem 3, .attachItem 5, .addOutput 3 5, .addOutput 3 5])
      3).count 5 = 2 :=
  ⟨rfl,
   (((operator_edges_multiset
      (runOps env0 [.attachItem 3, .attachItem 4, .addInput 3 4])
      (runOps env0 [.attachItem 3, .attachItem 4, .addInput 3 4, .addInput 3 4])
      3 4 true).1 rfl).2.1 3 4).trans (by decide),
   rfl,
   (((operator_edges_multiset
      (runOps env0 [.attachItem 3, .attachItem 5, .addOutput 3 5])
      (runOps env0 [.attachItem 3, .attachItem 5, .addOutput 3 5, .addOutput 3 5])
      3 5 true).2 rfl).2.1 3 5).trans (by decide)⟩

/-! ## Reading the frame of a map -/

/-- C28: `getFrameNode` writes to the binding relation.  In a fresh
environment with the attached, unbound map `5`, `getFrameNode(5)` returns
`NULL` and leaves the entry `(5, NULL)` in `cartesianMapGraph`, which was
empty; `getMaps(NULL)` then lists `5`, and the replay of `addEventHandler`
gains the event `(FRAMENODE, ADD, 5, NULL)`. -/
theorem getFrameNode_inserts :
    (runOps env0 [.attachItem 5]).cartesianMapGraph = [] ∧
    (getFrameNode (runOps env0 [.attachItem 5]) 5).1 = NULL ∧
    (getFrameNode (runOps env0 [.attachItem 5]) 5).2.cartesianMapGraph = [(5, NULL)] ∧
    getMaps (runOps env0 [.attachItem 5]) NULL = [] ∧
    getMaps (getFrameNode (runOps env0 [.attachItem 5]) 5).2 NULL = [5] ∧
    (addEventHandler (runOps env0 [.attachItem 5]) 1 9).map Prod.fst =
      some [⟨.ITEM, .ADD, 1, NULL⟩, ⟨.ITEM, .ADD, 5, NULL⟩, ⟨.ROOT, .ADD, 1, NULL⟩] ∧
    (addEventHandler (getFrameNode (runOps env0 [.attachItem 5]) 5).2 1 9).map Prod.fst =
      some [⟨.ITEM, .ADD, 1, NULL⟩, ⟨.ITEM, .ADD, 5, NULL⟩, ⟨.ROOT, .ADD, 1, NULL⟩,
        ⟨.FRAMENODE, .ADD, 5, NULL⟩] := by
  decide

/-! ## A failed attach -/

/-- C29: a failed `attachItem` keeps what it did before the test.  In a
fresh environment (counter `1`) the item `6`, which carries the pre-set id
`1`, is attached; then `attachItem(2)` of a fresh item fails with the
duplicate-id error, the registry and the events are as before, `2` is not
attached, but `2` now carries the id `1` instead of the sentinel and the
counter is `2` instead of `1`. -/
theorem attachItem_failed_not_atomic :
    (attachItem (runOps env0 [.attachItem 6]) 2).error = some .duplicateId ∧
    (attachItem (runOps env0 [.attachItem 6]) 2).state.items =
      (runOps env0 [.attachItem 6]).items ∧
    (attachItem (runOps env0 [.attachItem 6]) 2).state.emitted =
      (runOps env0 [.attachItem 6]).emitted ∧
    isAttached (attachItem (runOps env0 [.attachItem 6]) 2).state 2 = false ∧
    getUniqueId (runOps env0 [.attachItem 6]) 2 = ITEM_NOT_ATTACHED ∧
    getUniqueId (attachItem (runOps env0 [.attachItem 6]) 2).state 2 = 1 ∧
    getItem (runOps env0 [.attachItem 6]) 1 = 6 ∧
    (runOps env0 [.attachItem 6]).last_id = 1 ∧
    (attachItem (runOps env0 [.attachItem 6]) 2).state.last_id = 2 := by
  decide

/-! ## Subscribing and unsubscribing at once -/

/-- C21: the events of `addEventHandler` followed by `removeEventHandler`
do not cancel out.  With the map `5` bound to the root `1` of a fresh
environment, the handler receives `(FRAMENODE, ADD, 5, 1)` and no remove
for it, so the mirror keeps the binding `(5, 1)`; likewise with the map
`7` bound to the attached frame `2` that is not in the frame tree, the
mirror keeps `(7, 2)`. -/
theorem subscribeUnsubscribe_unbalanced :
    subscribeUnsubscribe (runOps env0 [.setFrameNode 5 1]) 1 9 =
      some [⟨.ITEM, .ADD, 1, NULL⟩, ⟨.ITEM, .ADD, 5, NULL⟩, ⟨.ROOT, .ADD, 1, NULL⟩,
        ⟨.FRAMENODE, .ADD, 5, 1⟩, ⟨.ROOT, .REMOVE, 1, NULL⟩, ⟨.ITEM, .REMOVE, 1, NULL⟩,
        ⟨.ITEM, .REMOVE, 5, NULL⟩] ∧
    (subscribeUnsubscribe (runOps env0 [.setFrameNode 5 1]) 1 9).map
      (List.foldl Mirror.apply Mirror.empty) = some ⟨[], [], [], [(5, 1)]⟩ ∧
    getParent (runOps env0 [.setFrameNode 7 2]) 2 = NULL ∧
    (subscribeUnsubscribe (runOps env0 [.setFrameNode 7 2]) 1 9).map
      (List.foldl Mirror.apply Mirror.empty) = some ⟨[], [], [], [(7, 2)]⟩ := by
  decide

/-! ## Destruction -/

theorem mapErase_head {K V : Type} [LinearOrder K] (k : K) (v : V) (rest : List (K × V))
    (h : MapOk ((k, v) :: rest)) : mapErase ((k, v) :: rest) k = rest := by
  unfold MapOk at h
  simp only [List.map_cons, List.pairwise_cons, List.mem_map, forall_exists_index,
    and_imp] at h
  unfold mapErase
  rw [List.filter_cons_of_neg (by simp)]
  rw [List.filter_eq_self]
  intro e he
  have := h.1 e.1 e he rfl
  simpa using ne_of_gt this

theorem destroy_nil (fuel : Nat) (s : Environment) (h : s.items = []) :
    Environment.destroy fuel s = some (.ok () s) := by
  unfold Environment.destroy
  rw [h]

theorem destroy_cons (fuel : Nat) (s : Environment) (it : Int × Ptr) (rest : List (Int × Ptr))
    (h : s.items = it :: rest) :
    Environment.destroy (fuel + 1) s =
      match EnvironmentItem.detach s it.2 with
      | .raised e s1 => some (.raised e s1)
      | .ok _ s1 => Environment.destroy fuel s1 := by
  rw [Environment.destroy]
  rw [h]

theorem destroy_aux : ∀ (l : List (Int × Ptr)) (s : Environment), s.items = l →
    RegistryOk s → s.this ≠ NULL → (∀ e ∈ s.items, e.2 ≠ NULL) →
    ∃ s' new, Environment.destroy l.length s = some (.ok () s') ∧ s'.items = [] ∧
      s'.emitted = s.emitted ++ new ∧
      new.filter (fun e => decide (e.type = .ITEM)) =
        l.map (fun e => (⟨.ITEM, .REMOVE, e.2, NULL⟩ : Event)) ∧
      (∀ e ∈ l, getUniqueId s' e.2 = ITEM_NOT_ATTACHED ∧ getEnvironment s' e.2 = NULL) ∧
      (∀ q, (∀ e ∈ l, e.2 ≠ q) → s'.objects q = s.objects q) := by
  intro l
  induction l with
  | nil =>
    intro s hl _ _ _
    exact ⟨s, [], destroy_nil 0 s hl, hl, by simp, by simp, by simp, fun _ _ => rfl⟩
  | cons it rest ih =>
    intro s hl hreg hthis hnn
    obtain ⟨k, x⟩ := it
    have hmem : (k, x) ∈ s.items := by rw [hl]; exact List.mem_cons_self _ _
    have hx : x ≠ NULL := hnn (k, x) hmem
    obtain ⟨hm, hk, hlast⟩ := hreg
    have hid : getUniqueId s x = k := (hk (k, x) hmem).1
    have henv : getEnvironment s x = s.this := (hk (k, x) hmem).2.2
    have hfind : mapFind s.items (getUniqueId s x) = some x := by
      rw [hid, hl]; simp [mapFind]
    have hdet := detachItem_eq s x hx hfind
    have hreg1 := RegistryOk_detachItem (⟨hm, hk, hlast⟩ : RegistryOk s) x
    have hthis1 := detachItem_this s x
    rw [hdet] at hreg1 hthis1
    simp only [Exec.state] at hreg1 hthis1
    obtain ⟨new1, hnew1, hty1⟩ := runCalls_emitted (detachCalls s x) s
    have hitems1 : mapErase s.items (getUniqueId s x) = rest := by
      rw [hid, hl]
      exact mapErase_head k x rest (by rw [← hl]; exact hm)
    have hother : ∀ e ∈ rest, e.2 ≠ x := by
      intro e he h2
      have he' : e ∈ s.items := by rw [hl]; exact List.mem_cons_of_mem _ he
      have h3 := (hk e he').1
      rw [h2, hid] at h3
      have hm' : MapOk ((k, x) :: rest) := by rw [← hl]; exact hm
      unfold MapOk at hm'
      simp only [List.map_cons, List.pairwise_cons, List.mem_map, forall_exists_index,
        and_imp] at hm'
      exact absurd h3 (ne_of_lt (hm'.1 e.1 e he rfl))
    obtain ⟨s', new2, hd, hi, hem, hfil, hdetached, hframe⟩ :=
      ih _ hitems1 hreg1 (by rw [hthis1]; exact hthis)
        (by
          intro e he
          simp only [hitems1] at he
          exact hnn e (by rw [hl]; exact List.mem_cons_of_mem _ he))
    refine ⟨s', new1 ++ [⟨.ITEM, .REMOVE, x, NULL⟩] ++ new2, ?_, hi, ?_, ?_, ?_, ?_⟩
    · rw [List.length_cons, destroy_cons _ s (k, x) rest hl]
      have : EnvironmentItem.detach s x = detachItem s x := by
        unfold EnvironmentItem.detach
        rw [if_neg (by rw [henv]; exact hthis)]
      simp only [this, hdet]
      exact hd
    · rw [hem]
      simp only [hnew1, List.append_assoc]
    · have h1 : new1.filter (fun e => decide (e.type = .ITEM)) = [] := by
        rw [List.filter_eq_nil_iff]
        intro e he
        simpa using hty1 e he
      simp only [List.filter_append, h1, hfil, List.map_cons, List.nil_append]
      simp [List.filter_cons]
    · intro e he
      rcases List.mem_cons.1 he with h2 | h2
      · subst h2
        have := hframe x hother
        simp only [getUniqueId, getEnvironment, this]
        simp [setEnv, setUniqueId]
      · exact hdetached e h2
    · intro q hq
      have hqx : q ≠ x := fun h => hq (k, x) (List.mem_cons_self _ _) h.symm
      rw [hframe q (fun e he => hq e (List.mem_cons_of_mem _ he))]
      simp only [setEnv, setUniqueId, if_neg hqx]

theorem occursBefore_of_filter {α : Type} (p : α → Bool) {x y : α} :
    ∀ {l : List α}, occursBefore x y (l.filter p) → occursBefore x y l := by
  intro l
  induction l with
  | nil => intro h; simpa using h
  | cons a t ih =>
    intro h
    by_cases hp : p a = true
    · rw [List.filter_cons_of_pos hp] at h
      obtain ⟨l1, l2, h1, h2⟩ := h
      cases l1 with
      | nil => simp at h2
      | cons b l1' =>
        simp only [List.cons_append, List.cons.injEq] at h1
        rcases List.mem_cons.1 h2 with h3 | h3
        · have hy : y ∈ t := by
            have : y ∈ t.filter p := by rw [h1.2]; simp
            exact List.mem_of_mem_filter this
          rw [h3, ← h1.1]
          exact occursBefore_head hy
        · exact occursBefore_cons (ih ⟨l1', l2, h1.2, h3⟩)
    · rw [List.filter_cons_of_neg hp] at h
      exact occursBefore_cons (ih h)

theorem occursBefore_map_of_sorted (f : Int × Ptr → Event) :
    ∀ (l : List (Int × Ptr)), MapOk l → ∀ e1 ∈ l, ∀ e2 ∈ l, e1.1 < e2.1 →
      occursBefore (f e1) (f e2) (l.map f) := by
  intro l
  induction l with
  | nil => intro _ e1 h1; simp at h1
  | cons a t ih =>
    intro hm e1 h1 e2 h2 hlt
    have hm' := hm
    unfold MapOk at hm'
    simp only [List.map_cons, List.pairwise_cons, List.mem_map, forall_exists_index,
      and_imp] at hm'
    rcases List.mem_cons.1 h1 with h1 | h1
    · rcases List.mem_cons.1 h2 with h2 | h2
      · rw [h1, h2] at hlt; exact absurd hlt (lt_irrefl _)
      · rw [h1, List.map_cons]
        exact occursBefore_head (List.mem_map_of_mem f h2)
    · rcases List.mem_cons.1 h2 with h2 | h2
      · have := hm'.1 e1.1 e1 h1 rfl
        rw [h2] at hlt
        exact absurd (lt_trans hlt this) (lt_irrefl _)
      · rw [List.map_cons]
        exact occursBefore_cons (ih hm'.2 e1 h1 e2 h2 hlt)

/-- Counterexample to C25: a fresh environment to which the frame node `2`
is attached holds the root `1` under the id `0` and `2` under the id `1`;
its destruction detaches both, and the item events it emits are
`(ITEM, REMOVE, 1)` for the root first, then `(ITEM, REMOVE, 2)`. -/
theorem destroy_root_first_counterexample :
    (runOps env0 [.attachItem 2]).items = [(0, 1), (1, 2)] ∧
    getRootNode (runOps env0 [.attachItem 2]) = 1 ∧
    ((Environment.destroy 2 (runOps env0 [.attachItem 2])).map
      (fun r => (r.isOk, r.state.items, (r.state.emitted.drop 2)))) =
      some (true, [], [⟨.ITEM, .REMOVE, 1, NULL⟩, ⟨.ITEM, .REMOVE, 2, NULL⟩]) := by
  decide

/-- C25, amended: destroying an environment whose registry is consistent
and holds no null item detaches every item it holds: the destructor
returns after as many iterations as there are items, the registry is empty
at the end, every formerly held item carries the sentinel id and has no
back-reference, and the item events emitted are the `(ITEM, REMOVE)` of
the items in registry order, that is in increasing order of their ids: the
remove event of an item with a smaller id comes before that of an item
with a greater id, so the root, which holds the first id minted, is
detached before every item whose id is greater. -/
theorem destroy_detaches_all (s : Environment) (hreg : RegistryOk s) (hthis : s.this ≠ NULL)
    (hnn : ∀ e ∈ s.items, e.2 ≠ NULL) :
    ∃ s' new, Environment.destroy s.items.length s = some (.ok () s') ∧ s'.items = [] ∧
      (∀ e ∈ s.items, getUniqueId s' e.2 = ITEM_NOT_ATTACHED ∧ isAttached s' e.2 = false) ∧
      s'.emitted = s.emitted ++ new ∧
      new.filter (fun e => decide (e.type = .ITEM)) =
        s.items.map (fun e => (⟨.ITEM, .REMOVE, e.2, NULL⟩ : Event)) ∧
      (∀ e1 ∈ s.items, ∀ e2 ∈ s.items, e1.1 < e2.1 →
        occursBefore (⟨.ITEM, .REMOVE, e1.2, NULL⟩ : Event) ⟨.ITEM, .REMOVE, e2.2, NULL⟩ new) := by
  obtain ⟨s', new, hd, hi, hem, hfil, hdet, _⟩ := destroy_aux s.items s rfl hreg hthis hnn
  refine ⟨s', new, hd, hi, ?_, hem, hfil, ?_⟩
  · intro e he
    have := hdet e he
    refine ⟨this.1, ?_⟩
    simp only [isAttached, getEnvironment] at this ⊢
    simp [this.2]
  · intro e1 h1 e2 h2 hlt
    apply occursBefore_of_filter (fun e => decide (e.type = .ITEM))
    rw [hfil]
    exact occursBefore_map_of_sorted _ s.items hreg.1 e1 h1 e2 h2 hlt

/-- Witness of C25: a fresh environment to which the frame node `2` is
attached; the root `1` holds the id `0`, the node `2` the id `1`. -/
theorem destroy_detaches_all_witness :
    ∃ s' new, Environment.destroy 2 (runOps env0 [.attachItem 2]) = some (.ok () s') ∧
      s'.items = [] ∧
      s'.emitted = (runOps env0 [.attachItem 2]).emitted ++ new ∧
      occursBefore (⟨.ITEM, .REMOVE, 1, NULL⟩ : Event) ⟨.ITEM, .REMOVE, 2, NULL⟩ new := by
  obtain ⟨s', new, h1, h2, _, h4, _, h6⟩ :=
    destroy_detaches_all (runOps env0 [.attachItem 2])
      (StateOk_runOps [.attachItem 2] (StateOk_create 100 1 freshObjects) (by decide)).1
      (by decide) (by decide)
  exact ⟨s', new, h1, h2, h4, h6 (0, 1) (by decide) (1, 2) (by decide) (by decide)⟩

/-! ## The walks to the root end -/

theorem ancestor_succ (s : Environment) : ∀ (n : Nat) (t : Ptr),
    ancestor s (n + 1) t = getParent s (ancestor s n t) := by
  intro n
  induction n with
  | zero => intro t; rfl
  | succ n ih =>
    intro t
    have := ih (getParent s t)
    simpa [ancestor] using this

theorem frameEdge_getParent (s : Environment) (t : Ptr) (h : getParent s t ≠ NULL) :
    frameEdge s t (getParent s t) := by
  unfold getParent at h ⊢
  cases hf : mapFind s.frameNodeTree t with
  | none => rw [hf] at h; exact absurd rfl h
  | some q => exact mapFind_some_mem hf

theorem walk_stops_or_continues (s : Environment) : ∀ (n : Nat) (t : Ptr),
    (∃ k, k ≤ n ∧ (reachesRoot s k t = true ∨ endsDetached s k t = true)) ∨
    (∀ i, i ≤ n → isRoot s (ancestor s i t) = false ∧ getParent s (ancestor s i t) ≠ NULL) := by
  intro n
  induction n with
  | zero =>
    intro t
    by_cases h1 : isRoot s t = true
    · exact Or.inl ⟨0, le_refl 0, Or.inl (by simpa [reachesRoot] using h1)⟩
    · by_cases h2 : getParent s t = NULL
      · exact Or.inl ⟨0, le_refl 0, Or.inr (by simp [endsDetached, h1, h2])⟩
      · right
        intro i hi
        obtain rfl : i = 0 := by omega
        exact ⟨by simpa [ancestor] using h1, by simpa [ancestor] using h2⟩
  | succ n ih =>
    intro t
    by_cases h1 : isRoot s t = true
    · exact Or.inl ⟨0, Nat.zero_le _, Or.inl (by simpa [reachesRoot] using h1)⟩
    · by_cases h2 : getParent s t = NULL
      · exact Or.inl ⟨0, Nat.zero_le _, Or.inr (by simp [endsDetached, h1, h2])⟩
      · rcases ih (getParent s t) with ⟨k, hk, h3⟩ | h3
        · left
          refine ⟨k + 1, by omega, ?_⟩
          rcases h3 with h3 | h3
          · exact Or.inl (by simp [reachesRoot, h1, h2, h3])
          · exact Or.inr (by simp [endsDetached, h1, h2, h3])
        · right
          intro i hi
          cases i with
          | zero => exact ⟨by simpa [ancestor] using h1, by simpa [ancestor] using h2⟩
          | succ i => exact h3 i (by omega)

theorem walk_continues_transGen (s : Environment) (n : Nat) (t : Ptr)
    (h : ∀ i, i ≤ n → isRoot s (ancestor s i t) = false ∧ getParent s (ancestor s i t) ≠ NULL) :
    ∀ d i, i + d + 1 ≤ n + 1 →
      Relation.TransGen (frameEdge s) (ancestor s i t) (ancestor s (i + d + 1) t) := by
  intro d
  induction d with
  | zero =>
    intro i hi
    have := frameEdge_getParent s (ancestor s i t) (h i (by omega)).2
    rw [← ancestor_succ] at this
    exact Relation.TransGen.single this
  | succ d ih =>
    intro i hi
    have h1 := ih i (by omega)
    have h2 := frameEdge_getParent s (ancestor s (i + d + 1) t) (h (i + d + 1) (by omega)).2
    rw [← ancestor_succ] at h2
    exact Relation.TransGen.tail h1 h2

theorem walk_continues_bound (s : Environment) (hacyc : FrameAcyclic s) (n : Nat) (t : Ptr)
    (h : ∀ i, i ≤ n → isRoot s (ancestor s i t) = false ∧ getParent s (ancestor s i t) ≠ NULL) :
    n + 1 ≤ s.frameNodeTree.length := by
  have hnodup : ((List.range (n + 1)).map (fun i => ancestor s i t)).Nodup := by
    refine List.Nodup.map_on ?_ (List.nodup_range (n + 1))
    intro i hi j hj hij
    have hi' := List.mem_range.1 hi
    have hj' := List.mem_range.1 hj
    by_contra hne
    rcases Nat.lt_or_gt_of_ne hne with hlt | hlt
    · have := walk_continues_transGen s n t h (j - i - 1) i (by omega)
      rw [show i + (j - i - 1) + 1 = j by omega, ← hij] at this
      exact hacyc _ this
    · have := walk_continues_transGen s n t h (i - j - 1) j (by omega)
      rw [show j + (i - j - 1) + 1 = i by omega, hij] at this
      exact hacyc _ this
  have hsub : (List.range (n + 1)).map (fun i => ancestor s i t) ⊆
      s.frameNodeTree.map Prod.fst := by
    intro x hx
    simp only [List.mem_map, List.mem_range] at hx
    obtain ⟨i, hi, rfl⟩ := hx
    exact List.mem_map_of_mem Prod.fst
      (frameEdge_getParent s (ancestor s i t) (h i (by omega)).2)
  have := (List.subperm_of_subset hnodup hsub).length_le
  simpa using this

theorem walk_stops (s : Environment) (hacyc : FrameAcyclic s) (t : Ptr) :
    ∃ k, k ≤ s.frameNodeTree.length ∧
      (reachesRoot s k t = true ∨ endsDetached s k t = true) := by
  rcases walk_stops_or_continues s s.frameNodeTree.length t with h | h
  · exact h
  · have := walk_continues_bound s hacyc _ t h
    omega

theorem FrameAcyclic_of_rank (s : Environment)
    (h : ∀ e ∈ s.frameNodeTree, e.2 < e.1) : FrameAcyclic s := by
  have hlt : ∀ a b, Relation.TransGen (frameEdge s) a b → b < a := by
    intro a b hab
    induction hab with
    | single h1 => exact h _ h1
    | tail _ h1 ih => exact lt_trans (h _ h1) ih
  intro t ht
  exact lt_irrefl _ (hlt t t ht)

section WalksEnd

variable {G : Type} [Group G]

/-- C31: when no frame node is reached from itself by one or more
frame-tree edges, the walk of `relativeTransform` from any node `t` follows
at most as many parent links as the frame tree has edges: it follows `n`
links, `n` at most the number of edges, and then either it is at the root
and the loop returns (for every bound on the iterations of at least `n`),
or it is at a node that is not the root and has no parent and the loop
raises the detached-frame error in its next iteration (for every bound
greater than `n`).  Hence `relativeTransform(from, to)` gives a result, a
transform or the detached-frame error, under every bound greater than the
number of edges. -/
theorem relativeTransform_terminates (s : Environment) (T : Ptr → G)
    (hacyc : FrameAcyclic s) (from_ to_ : Ptr) :
    (∀ (t : Ptr) (C : G), ∃ n, n ≤ s.frameNodeTree.length ∧
      ((reachesRoot s n t = true ∧ ∀ fuel, n ≤ fuel →
          walkToRoot s T fuel t C = some (.ok (chainTransform s T n t * C))) ∨
       (endsDetached s n t = true ∧ ∀ fuel, n < fuel →
          walkToRoot s T fuel t C = some (.error .detachedFrame)))) ∧
    (∀ fuel, s.frameNodeTree.length < fuel →
      (∃ g, relativeTransform s T fuel from_ to_ = some (.ok g)) ∨
      relativeTransform s T fuel from_ to_ = some (.error .detachedFrame)) := by
  have hwalk : ∀ (t : Ptr) (C : G), ∃ n, n ≤ s.frameNodeTree.length ∧
      ((reachesRoot s n t = true ∧ ∀ fuel, n ≤ fuel →
          walkToRoot s T fuel t C = some (.ok (chainTransform s T n t * C))) ∨
       (endsDetached s n t = true ∧ ∀ fuel, n < fuel →
          walkToRoot s T fuel t C = some (.error .detachedFrame))) := by
    intro t C
    obtain ⟨n, hn, h | h⟩ := walk_stops s hacyc t
    · exact ⟨n, hn, Or.inl ⟨h, fun fuel hf => walkToRoot_of_reachesRoot s T n t C fuel h hf⟩⟩
    · exact ⟨n, hn, Or.inr ⟨h, fun fuel hf => walkToRoot_of_endsDetached s T n t C fuel h hf⟩⟩
  refine ⟨hwalk, ?_⟩
  intro fuel hfuel
  obtain ⟨n, hn, ⟨_, h1⟩ | ⟨_, h1⟩⟩ := hwalk from_ 1
  · obtain ⟨m, hm, ⟨_, h2⟩ | ⟨_, h2⟩⟩ := hwalk to_ 1
    · left
      exact ⟨(chainTransform s T m to_ * 1)⁻¹ * (chainTransform s T n from_ * 1),
        by simp only [relativeTransform, h1 fuel (by omega), h2 fuel (by omega)]⟩
    · right
      simp only [relativeTransform, h1 fuel (by omega), h2 fuel (by omega)]
  · right
    simp only [relativeTransform, h1 fuel (by omega)]

/-- Witness of C31: frame `2` under the root `1`, frame `8` under `2`,
frame `9` attached without a parent; the frame tree has two edges, each
from a greater address to a smaller one, and under the bound `3` the call
for `(8, 2)` and the call for `(8, 9)` give a result. -/
theorem relativeTransform_terminates_witness :
    FrameAcyclic (runOps env0 [.addChild 1 2, .addChild 2 8, .attachItem 9]) ∧
    ((∃ g, relativeTransform (runOps env0 [.addChild 1 2, .addChild 2 8, .attachItem 9])
        (fun q => Multiplicative.ofAdd (q : ℤ)) 3 8 2 = some (.ok g)) ∨
      relativeTransform (runOps env0 [.addChild 1 2, .addChild 2 8, .attachItem 9])
        (fun q => Multiplicative.ofAdd (q : ℤ)) 3 8 2 = some (.error .detachedFrame)) ∧
    ((∃ g, relativeTransform (runOps env0 [.addChild 1 2, .addChild 2 8, .attachItem 9])
        (fun q => Multiplicative.ofAdd (q : ℤ)) 3 8 9 = some (.ok g)) ∨
      relativeTransform (runOps env0 [.addChild 1 2, .addChild 2 8, .attachItem 9])
        (fun q => Multiplicative.ofAdd (q : ℤ)) 3 8 9 = some (.error .detachedFrame)) :=
  ⟨FrameAcyclic_of_rank _ (by decide),
   (relativeTransform_terminates (runOps env0 [.addChild 1 2, .addChild 2 8, .attachItem 9])
      _ (FrameAcyclic_of_rank _ (by decide)) 8 2).2 3 (by decide),
   (relativeTransform_terminates (runOps env0 [.addChild 1 2, .addChild 2 8, .attachItem 9])
      _ (FrameAcyclic_of_rank _ (by decide)) 8 9).2 3 (by decide)⟩

end WalksEnd

/-! ## Two views of one relation -/

theorem mem_getMaps (s : Environment) (n m : Ptr) :
    m ∈ getMaps s n ↔ (m, n) ∈ s.cartesianMapGraph := by
  simp only [getMaps, List.mem_map, List.mem_filter, decide_eq_true_eq]
  constructor
  · rintro ⟨e, ⟨he, h2⟩, h1⟩
    rw [← h1, ← h2]
    exact he
  · intro h
    exact ⟨(m, n), ⟨h, rfl⟩, rfl⟩

theorem getMaps_nodup (s : Environment) (hm : MapOk s.cartesianMapGraph) (n : Ptr) :
    (getMaps s n).Nodup := by
  have h1 : (s.cartesianMapGraph.map Prod.fst).Nodup :=
    List.Pairwise.imp (fun h => ne_of_lt h) hm
  exact List.Nodup.sublist ((List.filter_sublist _).map _) h1

theorem mem_iff_mapFind {K V : Type} [LinearOrder K] {m : List (K × V)} (hm : MapOk m)
    (k : K) (v : V) : (k, v) ∈ m ↔ mapFind m k = some v :=
  ⟨fun h => mapFind_of_mem hm h, fun h => mapFind_some_mem h⟩

/-- C32: the frame tree and the bindings being `std::map`s (keys strictly
increasing), in every state: for every non-null `p` and every `c`, `c`
occurs in `getChildren(p)` if and only if `getParent(c)` is `p`, and it
occurs there at most once; `m` occurs in `getMaps(n)` if and only if the
binding relation holds the entry `(m, n)`, which for a non-null `n` is to
say that `getFrameNode(m)` returns `n`, and it occurs there at most
once. -/
theorem parent_children_views (s : Environment) (hm : MapOk s.frameNodeTree)
    (hg : MapOk s.cartesianMapGraph) :
    (∀ p c : Ptr, p ≠ NULL → (c ∈ getChildren s p ↔ getParent s c = p)) ∧
    (∀ p c : Ptr, (getChildren s p).count c ≤ 1) ∧
    (∀ n m : Ptr, m ∈ getMaps s n ↔ mapFind s.cartesianMapGraph m = some n) ∧
    (∀ n m : Ptr, n ≠ NULL → (m ∈ getMaps s n ↔ (getFrameNode s m).1 = n)) ∧
    (∀ n m : Ptr, (getMaps s n).count m ≤ 1) := by
  refine ⟨?_, ?_, ?_, ?_, ?_⟩
  · intro p c hp
    rw [mem_getChildren, mem_iff_mapFind hm]
    unfold getParent
    cases hf : mapFind s.frameNodeTree c with
    | none =>
      simp only [Option.getD_none]
      constructor
      · intro h; exact Option.noConfusion h
      · intro h; exact absurd h.symm hp
    | some q => simp
  · intro p c
    exact List.nodup_iff_count_le_one.1 (getChildren_nodup s hm p) c
  · intro n m
    rw [mem_getMaps, mem_iff_mapFind hg]
  · intro n m hn
    rw [mem_getMaps, mem_iff_mapFind hg]
    unfold getFrameNode mapIndex
    cases hf : mapFind s.cartesianMapGraph m with
    | none =>
      simp only
      constructor
      · intro h; exact Option.noConfusion h
      · intro h; exact absurd h.symm hn
    | some q => simp
  · intro n m
    exact List.nodup_iff_count_le_one.1 (getMaps_nodup s hg n) m

/-- Witness of C32: frame `2` under the root `1` and the map `5` bound to
`2` in a fresh environment. -/
theorem parent_children_views_witness :
    getParent (runOps env0 [.addChild 1 2, .setFrameNode 5 2]) 2 = 1 ∧
    2 ∈ getChildren (runOps env0 [.addChild 1 2, .setFrameNode 5 2]) 1 ∧
    (getFrameNode (runOps env0 [.addChild 1 2, .setFrameNode 5 2]) 5).1 = 2 ∧
    5 ∈ getMaps (runOps env0 [.addChild 1 2, .setFrameNode 5 2]) 2 :=
  have h := parent_children_views (runOps env0 [.addChild 1 2, .setFrameNode 5 2])
    (by decide) (by decide)
  ⟨by decide, (h.1 1 2 (by decide)).2 (by decide), by decide,
    (h.2.2.2.1 2 5 (by decide)).2 (by decide)⟩

end envire
